import Mathlib

/-!
# sqlm: middleware chain around database/sql

A shallow embedding of the Go package `sqlm` (enum.go, context.go, database.go,
connection.go, transaction.go, statement.go) and theorems about it.

Modelling conventions.

* Go pointers to `database/sql` objects and the values the driver returns are
  abstract identifiers: `Option Nat`, with `none` for `nil`.
* A Go `error` is `Option String`, with `none` for `nil`.
* `*DB` objects live in a heap (`World.heap`) indexed by address, because `Conn`,
  `Tx` and `Stmt` hold the client by reference through the `hndl` interface.
* `database/sql` is outside the package.  It is a parameter `Driver` that
  answers every call from the history of earlier calls; every call is appended
  to `World.log`.
* A middleware handler is client code.  It is represented by the tree of
  operations it performs on the `*Context` it is given.
* `context.Context` (deadlines, cancellation) and the mutex are not modelled.
-/

namespace Sqlm

/-! ## enum.go -/

/-- Go `type Function int`. -/
abbrev Function := Int

def FN_Begin : Function := 0
def FN_Commit : Function := 1
def FN_Rollback : Function := 2
def FN_Exec : Function := 3
def FN_Ping : Function := 4
def FN_Prepare : Function := 5
def FN_Query : Function := 6

/-- Go `type Source int`. -/
abbrev Source := Int

def SRC_Database : Source := 0
def SRC_Transaction : Source := 1
def SRC_Statement : Source := 2
def SRC_Connection : Source := 3

/-! ## Values -/

/-- Go `any`, for query arguments and scratch values. -/
inductive Any where
  | null
  | int (n : Int)
  | str (s : String)
  | bool (b : Bool)
  deriving DecidableEq, Repr

/-- Go `error`; `none` is `nil`. -/
abbrev error := Option String

/-- A possibly nil pointer to an object owned by `database/sql`. -/
abbrev Ptr := Option Nat

/-! ## context.go -/

/-- The part of a `Context` that a handler can read through the exported API:
`Function()`, `Source()`, `Query`, `Args`, `Errors()`, `Values`. -/
structure View where
  funct : Function
  source : Source
  Query : String
  Args : List Any
  errs : List error
  Values : String → Option Any

/-- Go `type handler func(context.Context, *Context)`: the operations a handler
performs on the context, in order.  `read` lets the rest of the handler depend
on what the context holds at that point.  The operations are those of the
exported API: assigning `Query` and `Args`, `Set`, `Delete`, `Error`, `Next`,
and reading.  `Lock` and `Unlock`, writing into the slice `Errors()` returns,
and anything a handler does outside the context are not represented. -/
inductive handler where
  | ret
  | setQuery (q : String) (k : handler)
  | setArgs (a : List Any) (k : handler)
  | set (key : String) (val : Any) (k : handler)
  | delete (key : String) (k : handler)
  | error (e : error) (k : handler)
  | next (k : handler)
  | read (f : View → handler)

/-- Go `type Context struct`, without the fields `ctx` and `mtx`.  The field `fn`
is a closure over the context and the local variables of the wrapper; it is
passed to `Context.Next` as an argument.  `mdwIdx` starts at 0 and is only ever
incremented, so it is a `Nat`. -/
structure Context where
  funct : Function
  source : Source
  Query : String
  Args : List Any
  errs : List error
  mdws : List handler
  mdwIdx : Nat
  Values : String → Option Any

/-- `newContext`.  The struct literal in the source has no `source:` entry, so the
field keeps the zero value of `Source`. -/
def newContext (funct : Function) (source : Source) (query : String) (args : List Any)
    (mdws : List handler) : Context :=
  let _ := source
  { funct := funct
    source := 0
    Query := query
    Args := args
    errs := []
    mdws := mdws
    mdwIdx := 0
    Values := fun _ => none }

def Context.Function (ctx : Context) : Function := ctx.funct

def Context.Source (ctx : Context) : Source := ctx.source

def Context.Set (ctx : Context) (key : String) (val : Any) : Context :=
  { ctx with Values := fun k => if k = key then some val else ctx.Values k }

/-- `Get` returns the stored value and `true`, or the zero value and `false`. -/
def Context.Get (ctx : Context) (key : String) : Any × Bool :=
  match ctx.Values key with
  | some v => (v, true)
  | none => (Any.null, false)

def Context.Delete (ctx : Context) (key : String) : Context :=
  { ctx with Values := fun k => if k = key then none else ctx.Values k }

def Context.Error (ctx : Context) (err : error) : Context :=
  { ctx with errs := ctx.errs ++ [err] }

def Context.Errors (ctx : Context) : List error := ctx.errs

def Context.fsterr (ctx : Context) : error :=
  if ctx.errs.length ≠ 0 then
    match ctx.errs with
    | e :: _ => e
    | [] => none
  else none

def Context.view (ctx : Context) : View :=
  { funct := ctx.Function
    source := ctx.Source
    Query := ctx.Query
    Args := ctx.Args
    errs := ctx.Errors
    Values := ctx.Values }

/-! ## The world outside a call -/

/-- The receiver of a call into `database/sql`. -/
inductive Recv where
  | db (p : Ptr)
  | conn (p : Ptr)
  | tx (p : Ptr)
  | stmt (p : Ptr)
  deriving DecidableEq, Repr

/-- Go `sql.TxOptions`. -/
structure TxOptions where
  Isolation : Int
  ReadOnly : Bool
  deriving DecidableEq, Repr

/-- The `database/sql` method called, with its arguments.  `sql.Stmt` methods take
no query text. -/
inductive Op where
  | begin (opts : Option TxOptions)
  | commit
  | rollback
  | exec (query : String) (args : List Any)
  | ping
  | prepare (query : String)
  | query (query : String) (args : List Any)
  | stmtExec (args : List Any)
  | stmtQuery (args : List Any)
  | conn
  deriving DecidableEq, Repr

structure Call where
  recv : Recv
  op : Op
  deriving DecidableEq, Repr

/-- What a `database/sql` method returns: a value (result, rows, or a pointer to
a new object) and an error.  Methods that return only an error leave `val`
unused. -/
structure Reply where
  val : Ptr
  err : error
  deriving DecidableEq, Repr

/-- The behaviour of `database/sql` and the driver below it: the reply to a call
given the calls made before it. -/
abbrev Driver := List Call → Call → Reply

/-- Go `type DB struct`. -/
structure DB where
  db : Ptr
  mdws : Function → List handler

/-- Go `type hndl interface`; its only implementation is `*DB`, so a value is
the address of a `DB`. -/
abbrev hndl := Nat

/-- Everything that outlives a call: the `DB` objects by address, the calls made
into `database/sql`, and `ran`, a record of the cursor values `Next` dispatched
on (kept for stating which handlers ran; nothing reads it). -/
structure World where
  heap : Nat → DB
  log : List Call
  ran : List Nat

/-- One call into `database/sql`. -/
def World.call (w : World) (drv : Driver) (c : Call) : Reply × World :=
  (drv w.log c, { w with log := w.log ++ [c] })

/-- `(db *DB) fnHndl`, which `Conn`, `Tx` and `Stmt` call through the `hndl`
interface. -/
def fnHndl (w : World) (h : hndl) (fn : Function) : List handler :=
  (w.heap h).mdws fn

/-- The state a chain works on: the context, the world, and the wrapper's local
result variable that the closure `fn` assigns (`none` is Go `nil`). -/
structure Run (ρ : Type) where
  ctx : Context
  w : World
  out : Option ρ

/-- Runs a handler: each operation acts on the context; `next` is `ctx.Next()`. -/
def handler.run {ρ : Type} (next : Run ρ → Option (Run ρ)) :
    handler → Run ρ → Option (Run ρ)
  | .ret, s => some s
  | .setQuery q k, s => k.run next { s with ctx := { s.ctx with Query := q } }
  | .setArgs a k, s => k.run next { s with ctx := { s.ctx with Args := a } }
  | .set key val k, s => k.run next { s with ctx := s.ctx.Set key val }
  | .delete key k, s => k.run next { s with ctx := s.ctx.Delete key }
  | .error e k, s => k.run next { s with ctx := s.ctx.Error e }
  | .next k, s => (next s).bind (k.run next)
  | .read f, s => (f s.ctx.view).run next s

/-- `Context.Next`.  Handlers re-enter `Next`, so the definition carries a bound on
the nesting depth; `none` means the bound was reached. -/
def Context.Next {ρ : Type} (fn : Run ρ → Run ρ) : Nat → Run ρ → Option (Run ρ)
  | 0, _ => none
  | fuel + 1, s =>
    let idx := s.ctx.mdwIdx
    let s : Run ρ :=
      { s with ctx := { s.ctx with mdwIdx := s.ctx.mdwIdx + 1 },
               w := { s.w with ran := s.w.ran ++ [idx] } }
    if h : idx < s.ctx.mdws.length then
      (s.ctx.mdws.get ⟨idx, h⟩).run (Context.Next fn fuel) s
    else
      some (fn s)

/-! ## Call-scope objects -/

/-- Go `type Conn struct`. -/
structure Conn where
  cn : Ptr
  mdws : hndl

/-- Go `type Tx struct`. -/
structure Tx where
  tx : Ptr
  mdws : hndl
  done : Bool

/-- Go `type Stmt struct`. -/
structure Stmt where
  st : Ptr
  mdws : hndl
  query : String

/-- What a wrapper hands back: its Go return values and the world after the call. -/
structure Ret (ρ : Type) where
  res : Option ρ
  err : error
  w : World

/-- The same for the wrappers that return only an error. -/
structure RetErr where
  err : error
  w : World

/-- The outcome of `Use`: the panic message, if it panicked, and the world. -/
structure UseRet where
  panicked : Option String
  w : World

/-! ## database.go -/

/-- `db.mdws[fn] = append(db.mdws[fn], mdw)` on the `DB` at address `db`. -/
def World.appendMdw (w : World) (db : Nat) (fn : Function) (mdw : handler) : World :=
  let d := w.heap db
  let d : DB := ⟨d.db, Function.update d.mdws fn (d.mdws fn ++ [mdw])⟩
  { w with heap := Function.update w.heap db d }

/-- `(db *DB) Use`; a nil `mdw` is `none`. -/
def DB.Use (w : World) (db : Nat) (mdw : Option handler) (fns : List Function) : UseRet :=
  if fns.length = 0 then
    ⟨some "function list is empty", w⟩
  else
    match mdw with
    | none => ⟨some "middleware is nil", w⟩
    | some m => ⟨none, fns.foldl (fun w fn => w.appendMdw db fn m) w⟩

def DB.BeginTx (drv : Driver) (w : World) (db : Nat) (opts : Option TxOptions) :
    Option (Ret Tx) :=
  let mdws := (w.heap db).mdws FN_Begin
  if mdws.length = 0 then
    let (r, w) := w.call drv ⟨.db (w.heap db).db, .begin opts⟩
    if r.err ≠ none then some ⟨none, r.err, w⟩
    else some ⟨some ⟨r.val, db, false⟩, none, w⟩
  else
    let qctx := newContext FN_Begin SRC_Database "" [] mdws
    let fn : Run Tx → Run Tx := fun s =>
      let (r, w) := s.w.call drv ⟨.db (s.w.heap db).db, .begin opts⟩
      if r.err ≠ none then { s with ctx := s.ctx.Error r.err, w := w }
      else { s with out := some ⟨r.val, db, false⟩, w := w }
    (Context.Next fn (mdws.length + 1) ⟨qctx, w, none⟩).map
      fun s => ⟨s.out, s.ctx.fsterr, s.w⟩

def DB.Conn (drv : Driver) (w : World) (db : Nat) : Ret Conn :=
  let (r, w) := w.call drv ⟨.db (w.heap db).db, .conn⟩
  if r.err ≠ none then ⟨none, r.err, w⟩
  else ⟨some ⟨r.val, db⟩, none, w⟩

def DB.ExecContext (drv : Driver) (w : World) (db : Nat) (query : String) (args : List Any) :
    Option (Ret Nat) :=
  let mdws := (w.heap db).mdws FN_Exec
  if mdws.length = 0 then
    let (r, w) := w.call drv ⟨.db (w.heap db).db, .exec query args⟩
    some ⟨r.val, r.err, w⟩
  else
    let qctx := newContext FN_Exec SRC_Database query args mdws
    let fn : Run Nat → Run Nat := fun s =>
      let (r, w) := s.w.call drv ⟨.db (s.w.heap db).db, .exec s.ctx.Query s.ctx.Args⟩
      if r.err ≠ none then { s with ctx := s.ctx.Error r.err, w := w }
      else { s with out := r.val, w := w }
    (Context.Next fn (mdws.length + 1) ⟨qctx, w, none⟩).map
      fun s => ⟨s.out, s.ctx.fsterr, s.w⟩

def DB.PingContext (drv : Driver) (w : World) (db : Nat) : Option RetErr :=
  let mdws := (w.heap db).mdws FN_Ping
  if mdws.length = 0 then
    let (r, w) := w.call drv ⟨.db (w.heap db).db, .ping⟩
    some ⟨r.err, w⟩
  else
    let qctx := newContext FN_Ping SRC_Database "" [] mdws
    let fn : Run Unit → Run Unit := fun s =>
      let (r, w) := s.w.call drv ⟨.db (s.w.heap db).db, .ping⟩
      if r.err ≠ none then { s with ctx := s.ctx.Error r.err, w := w }
      else { s with w := w }
    (Context.Next fn (mdws.length + 1) ⟨qctx, w, none⟩).map
      fun s => ⟨s.ctx.fsterr, s.w⟩

def DB.PrepareContext (drv : Driver) (w : World) (db : Nat) (query : String) :
    Option (Ret Stmt) :=
  let mdws := (w.heap db).mdws FN_Prepare
  if mdws.length = 0 then
    let (r, w) := w.call drv ⟨.db (w.heap db).db, .prepare query⟩
    if r.err ≠ none then some ⟨none, r.err, w⟩
    else some ⟨some ⟨r.val, db, query⟩, none, w⟩
  else
    let qctx := newContext FN_Prepare SRC_Database query [] mdws
    let fn : Run Stmt → Run Stmt := fun s =>
      let (r, w) := s.w.call drv ⟨.db (s.w.heap db).db, .prepare s.ctx.Query⟩
      if r.err ≠ none then { s with ctx := s.ctx.Error r.err, w := w }
      else { s with out := some ⟨r.val, db, query⟩, w := w }
    (Context.Next fn (mdws.length + 1) ⟨qctx, w, none⟩).map
      fun s => ⟨s.out, s.ctx.fsterr, s.w⟩

def DB.QueryContext (drv : Driver) (w : World) (db : Nat) (query : String) (args : List Any) :
    Option (Ret Nat) :=
  let mdws := (w.heap db).mdws FN_Query
  if mdws.length = 0 then
    let (r, w) := w.call drv ⟨.db (w.heap db).db, .query query args⟩
    some ⟨r.val, r.err, w⟩
  else
    let qctx := newContext FN_Query SRC_Database query args mdws
    let fn : Run Nat → Run Nat := fun s =>
      let (r, w) := s.w.call drv ⟨.db (s.w.heap db).db, .query s.ctx.Query s.ctx.Args⟩
      if r.err ≠ none then { s with ctx := s.ctx.Error r.err, w := w }
      else { s with out := r.val, w := w }
    (Context.Next fn (mdws.length + 1) ⟨qctx, w, none⟩).map
      fun s => ⟨s.out, s.ctx.fsterr, s.w⟩

/-! ## connection.go -/

def Conn.BeginTx (drv : Driver) (w : World) (cn : Conn) (opts : Option TxOptions) :
    Option (Ret Tx) :=
  let mdws := fnHndl w cn.mdws FN_Begin
  if mdws.length = 0 then
    let (r, w) := w.call drv ⟨.conn cn.cn, .begin opts⟩
    if r.err ≠ none then some ⟨none, r.err, w⟩
    else some ⟨some ⟨r.val, cn.mdws, false⟩, none, w⟩
  else
    let qctx := newContext FN_Begin SRC_Connection "" [] mdws
    let fn : Run Tx → Run Tx := fun s =>
      let (r, w) := s.w.call drv ⟨.conn cn.cn, .begin opts⟩
      if r.err ≠ none then { s with ctx := s.ctx.Error r.err, w := w }
      else { s with out := some ⟨r.val, cn.mdws, false⟩, w := w }
    (Context.Next fn (mdws.length + 1) ⟨qctx, w, none⟩).map
      fun s => ⟨s.out, s.ctx.fsterr, s.w⟩

def Conn.ExecContext (drv : Driver) (w : World) (cn : Conn) (query : String) (args : List Any) :
    Option (Ret Nat) :=
  let mdws := fnHndl w cn.mdws FN_Exec
  if mdws.length = 0 then
    let (r, w) := w.call drv ⟨.conn cn.cn, .exec query args⟩
    some ⟨r.val, r.err, w⟩
  else
    let qctx := newContext FN_Exec SRC_Connection query args mdws
    let fn : Run Nat → Run Nat := fun s =>
      let (r, w) := s.w.call drv ⟨.conn cn.cn, .exec s.ctx.Query s.ctx.Args⟩
      if r.err ≠ none then { s with ctx := s.ctx.Error r.err, w := w }
      else { s with out := r.val, w := w }
    (Context.Next fn (mdws.length + 1) ⟨qctx, w, none⟩).map
      fun s => ⟨s.out, s.ctx.fsterr, s.w⟩

def Conn.PingContext (drv : Driver) (w : World) (cn : Conn) : Option RetErr :=
  let mdws := fnHndl w cn.mdws FN_Ping
  if mdws.length = 0 then
    let (r, w) := w.call drv ⟨.conn cn.cn, .ping⟩
    some ⟨r.err, w⟩
  else
    let qctx := newContext FN_Ping SRC_Connection "" [] mdws
    let fn : Run Unit → Run Unit := fun s =>
      let (r, w) := s.w.call drv ⟨.conn cn.cn, .ping⟩
      if r.err ≠ none then { s with ctx := s.ctx.Error r.err, w := w }
      else { s with w := w }
    (Context.Next fn (mdws.length + 1) ⟨qctx, w, none⟩).map
      fun s => ⟨s.ctx.fsterr, s.w⟩

def Conn.PrepareContext (drv : Driver) (w : World) (cn : Conn) (query : String) :
    Option (Ret Stmt) :=
  let mdws := fnHndl w cn.mdws FN_Prepare
  if mdws.length = 0 then
    let (r, w) := w.call drv ⟨.conn cn.cn, .prepare query⟩
    if r.err ≠ none then some ⟨none, r.err, w⟩
    else some ⟨some ⟨r.val, cn.mdws, query⟩, none, w⟩
  else
    let qctx := newContext FN_Prepare SRC_Connection query [] mdws
    let fn : Run Stmt → Run Stmt := fun s =>
      let (r, w) := s.w.call drv ⟨.conn cn.cn, .prepare s.ctx.Query⟩
      if r.err ≠ none then { s with ctx := s.ctx.Error r.err, w := w }
      else { s with out := some ⟨r.val, cn.mdws, query⟩, w := w }
    (Context.Next fn (mdws.length + 1) ⟨qctx, w, none⟩).map
      fun s => ⟨s.out, s.ctx.fsterr, s.w⟩

def Conn.QueryContext (drv : Driver) (w : World) (cn : Conn) (query : String) (args : List Any) :
    Option (Ret Nat) :=
  let mdws := fnHndl w cn.mdws FN_Query
  if mdws.length = 0 then
    let (r, w) := w.call drv ⟨.conn cn.cn, .query query args⟩
    some ⟨r.val, r.err, w⟩
  else
    let qctx := newContext FN_Query SRC_Connection query args mdws
    let fn : Run Nat → Run Nat := fun s =>
      let (r, w) := s.w.call drv ⟨.conn cn.cn, .query s.ctx.Query s.ctx.Args⟩
      if r.err ≠ none then { s with ctx := s.ctx.Error r.err, w := w }
      else { s with out := r.val, w := w }
    (Context.Next fn (mdws.length + 1) ⟨qctx, w, none⟩).map
      fun s => ⟨s.out, s.ctx.fsterr, s.w⟩

/-! ## transaction.go

No method reads or writes the field `done`. -/

def Tx.CommitContext (drv : Driver) (w : World) (tx : Tx) : Option RetErr :=
  let mdws := fnHndl w tx.mdws FN_Commit
  if mdws.length = 0 then
    let (r, w) := w.call drv ⟨.tx tx.tx, .commit⟩
    some ⟨r.err, w⟩
  else
    let qctx := newContext FN_Commit SRC_Transaction "" [] mdws
    let fn : Run Unit → Run Unit := fun s =>
      let (r, w) := s.w.call drv ⟨.tx tx.tx, .commit⟩
      if r.err ≠ none then { s with ctx := s.ctx.Error r.err, w := w }
      else { s with w := w }
    (Context.Next fn (mdws.length + 1) ⟨qctx, w, none⟩).map
      fun s => ⟨s.ctx.fsterr, s.w⟩

def Tx.RollbackContext (drv : Driver) (w : World) (tx : Tx) : Option RetErr :=
  let mdws := fnHndl w tx.mdws FN_Rollback
  if mdws.length = 0 then
    let (r, w) := w.call drv ⟨.tx tx.tx, .rollback⟩
    some ⟨r.err, w⟩
  else
    let qctx := newContext FN_Rollback SRC_Transaction "" [] mdws
    let fn : Run Unit → Run Unit := fun s =>
      let (r, w) := s.w.call drv ⟨.tx tx.tx, .rollback⟩
      if r.err ≠ none then { s with ctx := s.ctx.Error r.err, w := w }
      else { s with w := w }
    (Context.Next fn (mdws.length + 1) ⟨qctx, w, none⟩).map
      fun s => ⟨s.ctx.fsterr, s.w⟩

def Tx.ExecContext (drv : Driver) (w : World) (tx : Tx) (query : String) (args : List Any) :
    Option (Ret Nat) :=
  let mdws := fnHndl w tx.mdws FN_Exec
  if mdws.length = 0 then
    let (r, w) := w.call drv ⟨.tx tx.tx, .exec query args⟩
    some ⟨r.val, r.err, w⟩
  else
    let qctx := newContext FN_Exec SRC_Transaction query args mdws
    let fn : Run Nat → Run Nat := fun s =>
      let (r, w) := s.w.call drv ⟨.tx tx.tx, .exec s.ctx.Query s.ctx.Args⟩
      if r.err ≠ none then { s with ctx := s.ctx.Error r.err, w := w }
      else { s with out := r.val, w := w }
    (Context.Next fn (mdws.length + 1) ⟨qctx, w, none⟩).map
      fun s => ⟨s.out, s.ctx.fsterr, s.w⟩

def Tx.PrepareContext (drv : Driver) (w : World) (tx : Tx) (query : String) : Option (Ret Stmt) :=
  let mdws := fnHndl w tx.mdws FN_Prepare
  if mdws.length = 0 then
    let (r, w) := w.call drv ⟨.tx tx.tx, .prepare query⟩
    if r.err ≠ none then some ⟨none, r.err, w⟩
    else some ⟨some ⟨r.val, tx.mdws, query⟩, none, w⟩
  else
    let qctx := newContext FN_Prepare SRC_Transaction query [] mdws
    let fn : Run Stmt → Run Stmt := fun s =>
      let (r, w) := s.w.call drv ⟨.tx tx.tx, .prepare s.ctx.Query⟩
      if r.err ≠ none then { s with ctx := s.ctx.Error r.err, w := w }
      else { s with out := some ⟨r.val, tx.mdws, query⟩, w := w }
    (Context.Next fn (mdws.length + 1) ⟨qctx, w, none⟩).map
      fun s => ⟨s.out, s.ctx.fsterr, s.w⟩

def Tx.QueryContext (drv : Driver) (w : World) (tx : Tx) (query : String) (args : List Any) :
    Option (Ret Nat) :=
  let mdws := fnHndl w tx.mdws FN_Query
  if mdws.length = 0 then
    let (r, w) := w.call drv ⟨.tx tx.tx, .query query args⟩
    some ⟨r.val, r.err, w⟩
  else
    let qctx := newContext FN_Query SRC_Transaction query args mdws
    let fn : Run Nat → Run Nat := fun s =>
      let (r, w) := s.w.call drv ⟨.tx tx.tx, .query s.ctx.Query s.ctx.Args⟩
      if r.err ≠ none then { s with ctx := s.ctx.Error r.err, w := w }
      else { s with out := r.val, w := w }
    (Context.Next fn (mdws.length + 1) ⟨qctx, w, none⟩).map
      fun s => ⟨s.out, s.ctx.fsterr, s.w⟩

/-! ## statement.go -/

def Stmt.ExecContext (drv : Driver) (w : World) (st : Stmt) (args : List Any) :
    Option (Ret Nat) :=
  let mdws := fnHndl w st.mdws FN_Exec
  if mdws.length = 0 then
    let (r, w) := w.call drv ⟨.stmt st.st, .stmtExec args⟩
    some ⟨r.val, r.err, w⟩
  else
    let qctx := newContext FN_Exec SRC_Statement st.query args mdws
    let fn : Run Nat → Run Nat := fun s =>
      let (r, w) := s.w.call drv ⟨.stmt st.st, .stmtExec s.ctx.Args⟩
      if r.err ≠ none then { s with ctx := s.ctx.Error r.err, w := w }
      else { s with out := r.val, w := w }
    (Context.Next fn (mdws.length + 1) ⟨qctx, w, none⟩).map
      fun s => ⟨s.out, s.ctx.fsterr, s.w⟩

def Stmt.QueryContext (drv : Driver) (w : World) (st : Stmt) (args : List Any) :
    Option (Ret Nat) :=
  let mdws := fnHndl w st.mdws FN_Query
  if mdws.length = 0 then
    let (r, w) := w.call drv ⟨.stmt st.st, .stmtQuery args⟩
    some ⟨r.val, r.err, w⟩
  else
    let qctx := newContext FN_Query SRC_Statement st.query args mdws
    let fn : Run Nat → Run Nat := fun s =>
      let (r, w) := s.w.call drv ⟨.stmt st.st, .stmtQuery s.ctx.Args⟩
      if r.err ≠ none then { s with ctx := s.ctx.Error r.err, w := w }
      else { s with out := r.val, w := w }
    (Context.Next fn (mdws.length + 1) ⟨qctx, w, none⟩).map
      fun s => ⟨s.out, s.ctx.fsterr, s.w⟩

/-! ## Shapes of handlers

The claims speak of handlers that "call Next exactly once", "record nothing",
"record a failure and do not call Next".  These are properties of the tree of
operations, on every path through its `read` nodes. -/

/-- The handler neither calls `Next` nor records an error. -/
inductive handler.Quiet : handler → Prop
  | ret : handler.Quiet .ret
  | setQuery (q : String) {k : handler} : k.Quiet → handler.Quiet (.setQuery q k)
  | setArgs (a : List Any) {k : handler} : k.Quiet → handler.Quiet (.setArgs a k)
  | set (key : String) (val : Any) {k : handler} : k.Quiet → handler.Quiet (.set key val k)
  | delete (key : String) {k : handler} : k.Quiet → handler.Quiet (.delete key k)
  | read {f : View → handler} : (∀ v, (f v).Quiet) → handler.Quiet (.read f)

/-- The handler records exactly the errors `l`, in that order, then calls `Next`,
and after `Next` returns it neither records nor calls `Next` again. -/
inductive handler.Advance : List Sqlm.error → handler → Prop
  | next {k : handler} : k.Quiet → handler.Advance [] (.next k)
  | error (e : Sqlm.error) {l : List Sqlm.error} {k : handler} :
      k.Advance l → handler.Advance (e :: l) (.error e k)
  | setQuery (q : String) {l : List Sqlm.error} {k : handler} :
      k.Advance l → handler.Advance l (.setQuery q k)
  | setArgs (a : List Any) {l : List Sqlm.error} {k : handler} :
      k.Advance l → handler.Advance l (.setArgs a k)
  | set (key : String) (val : Any) {l : List Sqlm.error} {k : handler} :
      k.Advance l → handler.Advance l (.set key val k)
  | delete (key : String) {l : List Sqlm.error} {k : handler} :
      k.Advance l → handler.Advance l (.delete key k)
  | read {l : List Sqlm.error} {f : View → handler} :
      (∀ v, (f v).Advance l) → handler.Advance l (.read f)

/-- The handler records nothing and calls `Next` exactly once. -/
def handler.PassOnce (p : handler) : Prop := p.Advance []

/-- The handler records the failure `e` and then calls `Next`, exactly once, and
records nothing else. -/
def handler.FailThenPass (e : Sqlm.error) (p : handler) : Prop := p.Advance [e]

/-- The handler records the failure `e`, once, and does not call `Next`. -/
inductive handler.Veto (e : Sqlm.error) : handler → Prop
  | error {k : handler} : k.Quiet → handler.Veto e (.error e k)
  | setQuery (q : String) {k : handler} : k.Veto e → handler.Veto e (.setQuery q k)
  | setArgs (a : List Any) {k : handler} : k.Veto e → handler.Veto e (.setArgs a k)
  | set (key : String) (val : Any) {k : handler} : k.Veto e → handler.Veto e (.set key val k)
  | delete (key : String) {k : handler} : k.Veto e → handler.Veto e (.delete key k)
  | read {f : View → handler} : (∀ v, (f v).Veto e) → handler.Veto e (.read f)

/-- The state `t` differs from `s` at most in `Query`, `Args` and `Values`. -/
def Run.frame {ρ : Type} (s t : Run ρ) : Prop :=
  t.w = s.w ∧ t.out = s.out ∧ t.ctx.errs = s.ctx.errs ∧ t.ctx.mdwIdx = s.ctx.mdwIdx ∧
    t.ctx.mdws = s.ctx.mdws ∧ t.ctx.funct = s.ctx.funct ∧ t.ctx.source = s.ctx.source

/-- The handler records exactly the errors `l`, in that order, and then calls
`Next`; what it does after that first `Next` returns is not constrained. -/
inductive handler.ThenNext : List Sqlm.error → handler → Prop
  | next (k : handler) : handler.ThenNext [] (.next k)
  | error (e : Sqlm.error) {l : List Sqlm.error} {k : handler} :
      k.ThenNext l → handler.ThenNext (e :: l) (.error e k)
  | setQuery (q : String) {l : List Sqlm.error} {k : handler} :
      k.ThenNext l → handler.ThenNext l (.setQuery q k)
  | setArgs (a : List Any) {l : List Sqlm.error} {k : handler} :
      k.ThenNext l → handler.ThenNext l (.setArgs a k)
  | set (key : String) (val : Any) {l : List Sqlm.error} {k : handler} :
      k.ThenNext l → handler.ThenNext l (.set key val k)
  | delete (key : String) {l : List Sqlm.error} {k : handler} :
      k.ThenNext l → handler.ThenNext l (.delete key k)
  | read {l : List Sqlm.error} {f : View → handler} :
      (∀ v, (f v).ThenNext l) → handler.ThenNext l (.read f)

/-- What the terminal action of every wrapper does to the context: it leaves
the handler list and the cursor alone and at most appends to the error list. -/
def Terminal {ρ : Type} (fn : Run ρ → Run ρ) : Prop :=
  ∀ s, (fn s).ctx.mdws = s.ctx.mdws ∧ (fn s).ctx.mdwIdx = s.ctx.mdwIdx ∧
    s.ctx.errs <+: (fn s).ctx.errs

/-- From `s` to `t` the cursor did not decrease, the handler list is the same and
the error list only grew at its end. -/
def Run.mono {ρ : Type} (s t : Run ρ) : Prop :=
  s.ctx.mdwIdx ≤ t.ctx.mdwIdx ∧ t.ctx.mdws = s.ctx.mdws ∧ s.ctx.errs <+: t.ctx.errs

/-! ## Concrete inputs -/

/-- Go `sql.ErrTxDone`. -/
def ErrTxDone : String := "sql: transaction has already been committed or rolled back"

/-- Has `Commit` or `Rollback` already been called on the transaction `p`? -/
def txFinished (log : List Call) (p : Ptr) : Bool :=
  log.any fun c =>
    decide (c.recv = Recv.tx p) && (decide (c.op = Op.commit) || decide (c.op = Op.rollback))

/-- A driver that treats transactions the way `database/sql` does: every call on
a transaction that was committed or rolled back fails with `ErrTxDone`.  Every
other call succeeds and returns a fresh value. -/
def sqlDriver : Driver := fun log c =>
  match c.recv with
  | .tx p => if txFinished log p then ⟨none, some ErrTxDone⟩ else ⟨some log.length, none⟩
  | _ => ⟨some log.length, none⟩

/-- A client with no handlers, as `Open` and `OpenDB` build it. -/
def emptyDB : DB := ⟨some 0, fun _ => []⟩

/-- A world whose clients have no handlers and in which nothing was called yet. -/
def world0 : World := ⟨fun _ => emptyDB, [], []⟩

/-- A transaction of the client at address 0. -/
def tx1 : Tx := ⟨some 1, 0, false⟩

/-- A handler that only passes on. -/
def passHandler : handler := .next .ret

/-- A handler that records which `Source()` it observes and stops. -/
def sourceProbe : handler :=
  .read fun v =>
    .error (some (if v.source = SRC_Database then "database"
      else if v.source = SRC_Transaction then "transaction"
      else if v.source = SRC_Statement then "statement"
      else if v.source = SRC_Connection then "connection" else "unknown")) .ret

/-- A handler that records "permission denied" and does not call `Next`. -/
def denyHandler : handler := .error (some "permission denied") .ret

/-- A world in which every client has the handlers `hs` registered for the kind
`fn` and none for the other kinds. -/
def worldWith (fn : Function) (hs : List handler) : World :=
  ⟨fun _ => ⟨some 0, fun f => if f = fn then hs else []⟩, [], []⟩

/-! ## Handlers that rewrite the call -/

/-- A handler that sets `Query` and `Args` to values computed from what it reads
in the context (either may be the value it read) and then calls `Next`. -/
def rewriter (f : View → String × List Any) : handler :=
  .read fun v => .setQuery (f v).1 (.setArgs (f v).2 (.next .ret))

/-- The context after the rewrites `fs` were applied to it in order. -/
def applyRewrites (fs : List (View → String × List Any)) (c : Context) : Context :=
  fs.foldl (fun c f => { c with Query := (f c.view).1, Args := (f c.view).2 }) c

/-- Go `args[0] = args[0].(int) + 1`. -/
def bumpFirst : List Any → List Any
  | .int n :: rest => .int (n + 1) :: rest
  | l => l

/-- A handler that adds one to the first argument and then calls `Next`. -/
def bumpHandler : handler := rewriter fun v => (v.Query, bumpFirst v.Args)

/-- A handler that records "audit failed" and then calls `Next`. -/
def auditHandler : handler := .error (some "audit failed") (.next .ret)

/-- A handler that records "first" and then calls `Next`. -/
def firstFail : handler := .error (some "first") (.next .ret)

/-- A handler that records "second", calls `Next`, and records "late" after it. -/
def secondFail : handler := .error (some "second") (.next (.error (some "late") .ret))

/-! ## Scratch space -/

/-- The handler never calls `Set` or `Delete` on `key`. -/
inductive handler.Keeps (key : String) : handler → Prop
  | ret : handler.Keeps key .ret
  | setQuery (q : String) {k : handler} : k.Keeps key → handler.Keeps key (.setQuery q k)
  | setArgs (a : List Any) {k : handler} : k.Keeps key → handler.Keeps key (.setArgs a k)
  | set (key' : String) (val : Any) {k : handler} :
      key' ≠ key → k.Keeps key → handler.Keeps key (.set key' val k)
  | delete (key' : String) {k : handler} :
      key' ≠ key → k.Keeps key → handler.Keeps key (.delete key' k)
  | error (e : Sqlm.error) {k : handler} : k.Keeps key → handler.Keeps key (.error e k)
  | next {k : handler} : k.Keeps key → handler.Keeps key (.next k)
  | read {f : View → handler} : (∀ v, (f v).Keeps key) → handler.Keeps key (.read f)

/-- A handler that stores a user name in the scratch space and passes on. -/
def tagHandler : handler := .set "user" (Any.str "ann") (.next .ret)

/-- A handler that records whether it finds the user name stored by `tagHandler`,
and stops. -/
def tagProbe : handler :=
  .read fun v =>
    .error (some (if v.Values "user" = some (Any.str "ann") then "seen" else "not seen")) .ret

/-! ## Opening a client and registering handlers -/

/-- `OpenDB`: a new `DB` with an empty registry.  `addr` is the address of the new
object, which is what `OpenDB` returns, and `p` is the `*sql.DB` that
`sql.OpenDB(c)` returned. -/
def OpenDB (w : World) (addr : Nat) (p : Ptr) : World :=
  { w with heap := Function.update w.heap addr ⟨p, fun _ => []⟩ }

/-- `Open`: as `OpenDB`, unless `sql.Open` returned an error; `r` is what `sql.Open`
returned.  The results are the `*DB` (nil on error), the error, and the world. -/
def Open (w : World) (addr : Nat) (r : Reply) : Option Nat × error × World :=
  if r.err ≠ none then (none, r.err, w)
  else (some addr, none, { w with heap := Function.update w.heap addr ⟨r.val, fun _ => []⟩ })

/-- Successive calls `db.Use(u.1, u.2)`, one for each entry of `uses`, in order. -/
def useAll (w : World) (db : Nat) (uses : List (handler × List Function)) : World :=
  uses.foldl (fun w u => (DB.Use w db (some u.1) u.2).w) w

/-! ## Counting calls of `Next` -/

/-- The handler never calls `Next`. -/
inductive handler.NoNext : handler → Prop
  | ret : handler.NoNext .ret
  | setQuery (q : String) {k : handler} : k.NoNext → handler.NoNext (.setQuery q k)
  | setArgs (a : List Any) {k : handler} : k.NoNext → handler.NoNext (.setArgs a k)
  | set (key : String) (val : Any) {k : handler} : k.NoNext → handler.NoNext (.set key val k)
  | delete (key : String) {k : handler} : k.NoNext → handler.NoNext (.delete key k)
  | error (e : Sqlm.error) {k : handler} : k.NoNext → handler.NoNext (.error e k)
  | read {f : View → handler} : (∀ v, (f v).NoNext) → handler.NoNext (.read f)

/-- The handler calls `Next` at most once. -/
inductive handler.AtMostOnce : handler → Prop
  | ret : handler.AtMostOnce .ret
  | setQuery (q : String) {k : handler} : k.AtMostOnce → handler.AtMostOnce (.setQuery q k)
  | setArgs (a : List Any) {k : handler} : k.AtMostOnce → handler.AtMostOnce (.setArgs a k)
  | set (key : String) (val : Any) {k : handler} :
      k.AtMostOnce → handler.AtMostOnce (.set key val k)
  | delete (key : String) {k : handler} : k.AtMostOnce → handler.AtMostOnce (.delete key k)
  | error (e : Sqlm.error) {k : handler} : k.AtMostOnce → handler.AtMostOnce (.error e k)
  | next {k : handler} : k.NoNext → handler.AtMostOnce (.next k)
  | read {f : View → handler} : (∀ v, (f v).AtMostOnce) → handler.AtMostOnce (.read f)

/-- The handler calls `Next` exactly once; it may record errors before and after. -/
inductive handler.ExactlyOnce : handler → Prop
  | next {k : handler} : k.NoNext → handler.ExactlyOnce (.next k)
  | setQuery (q : String) {k : handler} : k.ExactlyOnce → handler.ExactlyOnce (.setQuery q k)
  | setArgs (a : List Any) {k : handler} : k.ExactlyOnce → handler.ExactlyOnce (.setArgs a k)
  | set (key : String) (val : Any) {k : handler} :
      k.ExactlyOnce → handler.ExactlyOnce (.set key val k)
  | delete (key : String) {k : handler} : k.ExactlyOnce → handler.ExactlyOnce (.delete key k)
  | error (e : Sqlm.error) {k : handler} : k.ExactlyOnce → handler.ExactlyOnce (.error e k)
  | read {f : View → handler} : (∀ v, (f v).ExactlyOnce) → handler.ExactlyOnce (.read f)

/-- The state `t` has the world, the result variable, the cursor and the handlers
of `s`: it differs from `s` at most in `Query`, `Args`, `Values` and the errors. -/
def Run.same {ρ : Type} (s t : Run ρ) : Prop :=
  t.w = s.w ∧ t.out = s.out ∧ t.ctx.mdwIdx = s.ctx.mdwIdx ∧ t.ctx.mdws = s.ctx.mdws

/-- The terminal action makes exactly one driver call each time it runs, as the
terminal action of every wrapper does, and leaves the record `ran` alone. -/
def LogsOnce {ρ : Type} (fn : Run ρ → Run ρ) : Prop :=
  ∀ s, (fn s).w.log.length = s.w.log.length + 1 ∧ (fn s).w.ran = s.w.ran

/-- From `s` to `t`, `Next` was called `m` times: the cursor moved forward by `m`,
the calls dispatched on the cursors `s.mdwIdx, s.mdwIdx + 1, ...` in this order,
and the driver log grew by one entry for each dispatched cursor that is not the
index of a handler, that is, for each run of the terminal action. -/
def Run.steps {ρ : Type} (s t : Run ρ) (m : Nat) : Prop :=
  t.ctx.mdwIdx = s.ctx.mdwIdx + m ∧ t.ctx.mdws = s.ctx.mdws ∧
    t.w.ran = s.w.ran ++ List.range' s.ctx.mdwIdx m ∧
    t.w.log.length = s.w.log.length +
      (List.range' s.ctx.mdwIdx m).countP (fun i => decide (s.ctx.mdws.length ≤ i))

/-- A handler that calls `Next` twice. -/
def twiceHandler : handler := .next (.next .ret)

/-! ## Lemmas on handlers and `Next` -/

theorem Run.frame_refl {ρ : Type} (s : Run ρ) : s.frame s :=
  ⟨rfl, rfl, rfl, rfl, rfl, rfl, rfl⟩

theorem Run.frame_trans {ρ : Type} {s t u : Run ρ} (h₁ : s.frame t) (h₂ : t.frame u) :
    s.frame u := by
  obtain ⟨a1, a2, a3, a4, a5, a6, a7⟩ := h₁
  obtain ⟨b1, b2, b3, b4, b5, b6, b7⟩ := h₂
  exact ⟨b1.trans a1, b2.trans a2, b3.trans a3, b4.trans a4, b5.trans a5, b6.trans a6,
    b7.trans a7⟩

theorem Quiet_run_frame {ρ : Type} {p : handler} (hp : p.Quiet)
    (next : Run ρ → Option (Run ρ)) (s : Run ρ) :
    ∃ t, p.run next s = some t ∧ s.frame t := by
  induction hp generalizing s with
  | ret => exact ⟨s, rfl, s.frame_refl⟩
  | setQuery q _ ih =>
    obtain ⟨t, ht, hf⟩ := ih { s with ctx := { s.ctx with Query := q } }
    exact ⟨t, ht, Run.frame_trans ⟨rfl, rfl, rfl, rfl, rfl, rfl, rfl⟩ hf⟩
  | setArgs a _ ih =>
    obtain ⟨t, ht, hf⟩ := ih { s with ctx := { s.ctx with Args := a } }
    exact ⟨t, ht, Run.frame_trans ⟨rfl, rfl, rfl, rfl, rfl, rfl, rfl⟩ hf⟩
  | set key val _ ih =>
    obtain ⟨t, ht, hf⟩ := ih { s with ctx := s.ctx.Set key val }
    exact ⟨t, ht, Run.frame_trans ⟨rfl, rfl, rfl, rfl, rfl, rfl, rfl⟩ hf⟩
  | delete key _ ih =>
    obtain ⟨t, ht, hf⟩ := ih { s with ctx := s.ctx.Delete key }
    exact ⟨t, ht, Run.frame_trans ⟨rfl, rfl, rfl, rfl, rfl, rfl, rfl⟩ hf⟩
  | read _ ih => exact ih s.ctx.view s

/-- An advancing handler calls `Next` on a state whose error list has grown by `l`
and that otherwise differs from its start state at most in `Query`, `Args`,
`Values`; it ends in a state that differs from what `Next` returned at most in
those. -/
theorem Advance_run_frame {ρ : Type} {l : List Sqlm.error} {p : handler}
    (hp : p.Advance l) (next : Run ρ → Option (Run ρ)) (s : Run ρ) :
    ∃ s₁, ({ s with ctx := { s.ctx with errs := s.ctx.errs ++ l } } : Run ρ).frame s₁ ∧
      ∀ t, next s₁ = some t → ∃ u, p.run next s = some u ∧ t.frame u := by
  induction hp generalizing s with
  | next hk =>
    refine ⟨s, ⟨rfl, rfl, by simp, rfl, rfl, rfl, rfl⟩, fun t ht => ?_⟩
    obtain ⟨u, hu, hf⟩ := Quiet_run_frame hk next t
    exact ⟨u, by simp [handler.run, ht, hu], hf⟩
  | error e _ ih =>
    obtain ⟨s₁, ⟨a1, a2, a3, a4, a5, a6, a7⟩, h⟩ := ih { s with ctx := s.ctx.Error e }
    exact ⟨s₁, ⟨a1, a2, by rw [a3]; simp [Context.Error], a4, a5, a6, a7⟩, h⟩
  | setQuery q _ ih =>
    obtain ⟨s₁, hf, h⟩ := ih { s with ctx := { s.ctx with Query := q } }
    exact ⟨s₁, Run.frame_trans ⟨rfl, rfl, rfl, rfl, rfl, rfl, rfl⟩ hf, h⟩
  | setArgs a _ ih =>
    obtain ⟨s₁, hf, h⟩ := ih { s with ctx := { s.ctx with Args := a } }
    exact ⟨s₁, Run.frame_trans ⟨rfl, rfl, rfl, rfl, rfl, rfl, rfl⟩ hf, h⟩
  | set key val _ ih =>
    obtain ⟨s₁, hf, h⟩ := ih { s with ctx := s.ctx.Set key val }
    exact ⟨s₁, Run.frame_trans ⟨rfl, rfl, rfl, rfl, rfl, rfl, rfl⟩ hf, h⟩
  | delete key _ ih =>
    obtain ⟨s₁, hf, h⟩ := ih { s with ctx := s.ctx.Delete key }
    exact ⟨s₁, Run.frame_trans ⟨rfl, rfl, rfl, rfl, rfl, rfl, rfl⟩ hf, h⟩
  | read _ ih => exact ih s.ctx.view s

/-- A vetoing handler ends in a state whose error list has grown by `e` and that
otherwise differs from the start at most in `Query`, `Args`, `Values`. -/
theorem Veto_run_frame {ρ : Type} {e : Sqlm.error} {p : handler} (hp : p.Veto e)
    (next : Run ρ → Option (Run ρ)) (s : Run ρ) :
    ∃ t, p.run next s = some t ∧
      ({ s with ctx := s.ctx.Error e } : Run ρ).frame t := by
  induction hp generalizing s with
  | error hk => exact Quiet_run_frame hk next _
  | setQuery q _ ih =>
    obtain ⟨t, ht, hf⟩ := ih { s with ctx := { s.ctx with Query := q } }
    exact ⟨t, ht, Run.frame_trans ⟨rfl, rfl, rfl, rfl, rfl, rfl, rfl⟩ hf⟩
  | setArgs a _ ih =>
    obtain ⟨t, ht, hf⟩ := ih { s with ctx := { s.ctx with Args := a } }
    exact ⟨t, ht, Run.frame_trans ⟨rfl, rfl, rfl, rfl, rfl, rfl, rfl⟩ hf⟩
  | set key val _ ih =>
    obtain ⟨t, ht, hf⟩ := ih { s with ctx := s.ctx.Set key val }
    exact ⟨t, ht, Run.frame_trans ⟨rfl, rfl, rfl, rfl, rfl, rfl, rfl⟩ hf⟩
  | delete key _ ih =>
    obtain ⟨t, ht, hf⟩ := ih { s with ctx := s.ctx.Delete key }
    exact ⟨t, ht, Run.frame_trans ⟨rfl, rfl, rfl, rfl, rfl, rfl, rfl⟩ hf⟩
  | read _ ih => exact ih s.ctx.view s

/-- A handler list with a handler in it is not of length 0, so the wrapper takes
the chain branch. -/
theorem length_ne_zero_of_mid {l pre rest : List handler} {hk : handler}
    (h : l = pre ++ hk :: rest) : ¬ l.length = 0 := by
  rw [h]; simp

/-- One step of `Next` when the cursor points at a handler. -/
theorem Context.Next_handler {ρ : Type} (fn : Run ρ → Run ρ) (fuel : Nat) (s : Run ρ)
    {h : handler} (hh : s.ctx.mdws[s.ctx.mdwIdx]? = some h) :
    Context.Next fn (fuel + 1) s =
      h.run (Context.Next fn fuel)
        { s with ctx := { s.ctx with mdwIdx := s.ctx.mdwIdx + 1 },
                 w := { s.w with ran := s.w.ran ++ [s.ctx.mdwIdx] } } := by
  obtain ⟨hlt, hget⟩ := List.getElem?_eq_some_iff.mp hh
  simp only [Context.Next, hlt, dite_true, List.get_eq_getElem, hget]

/-- One step of `Next` when the cursor is past the last handler. -/
theorem Context.Next_terminal {ρ : Type} (fn : Run ρ → Run ρ) (fuel : Nat) (s : Run ρ)
    (hh : s.ctx.mdws.length ≤ s.ctx.mdwIdx) :
    Context.Next fn (fuel + 1) s =
      some (fn { s with ctx := { s.ctx with mdwIdx := s.ctx.mdwIdx + 1 },
                        w := { s.w with ran := s.w.ran ++ [s.ctx.mdwIdx] } }) := by
  simp only [Context.Next, Nat.not_lt.mpr hh, dite_false]

/-- The chain of claim C3: `pre` pass, then `hk` vetoes.  Started at cursor `j`
inside `pre`, `Next` dispatches `j .. pre.length` and stops there. -/
theorem Context.Next_veto {ρ : Type} (fn : Run ρ → Run ρ) {pre : List handler}
    (rest : List handler) {hk : handler} {e : error} (hpre : ∀ p ∈ pre, p.PassOnce) (hv : hk.Veto e) :
    ∀ (d j fuel : Nat) (s : Run ρ), j + d = pre.length → s.ctx.mdws = pre ++ hk :: rest →
      s.ctx.mdwIdx = j → d < fuel →
      ∃ t, Context.Next fn fuel s = some t ∧ t.ctx.errs = s.ctx.errs ++ [e] ∧
        t.ctx.mdwIdx = pre.length + 1 ∧ t.ctx.mdws = s.ctx.mdws ∧ t.w.log = s.w.log ∧
        t.w.heap = s.w.heap ∧ t.w.ran = s.w.ran ++ List.range' j (d + 1) ∧ t.out = s.out := by
  intro d
  induction d with
  | zero =>
    intro j fuel s hj hm hi hf
    obtain ⟨f, rfl⟩ : ∃ f, fuel = f + 1 := ⟨fuel - 1, by omega⟩
    have hget : s.ctx.mdws[s.ctx.mdwIdx]? = some hk := by
      rw [hm, hi]
      have : j = pre.length := by omega
      subst this
      rw [List.getElem?_append_right (le_refl _)]
      simp
    rw [Context.Next_handler fn f s hget]
    obtain ⟨t, ht, h1, h2, h3, h4, h5, -, -⟩ := Veto_run_frame hv (Context.Next fn f)
      { s with ctx := { s.ctx with mdwIdx := s.ctx.mdwIdx + 1 },
               w := { s.w with ran := s.w.ran ++ [s.ctx.mdwIdx] } }
    refine ⟨t, ht, ?_, ?_, ?_, ?_, ?_, ?_, ?_⟩
    · rw [h3]; rfl
    · rw [h4]; simp only [Context.Error]; omega
    · rw [h5]; rfl
    · rw [h1]
    · rw [h1]
    · rw [h1]; simp [hi]
    · rw [h2]
  | succ d ih =>
    intro j fuel s hj hm hi hf
    obtain ⟨f, rfl⟩ : ∃ f, fuel = f + 1 := ⟨fuel - 1, by omega⟩
    have hlt : j < pre.length := by omega
    have hget : s.ctx.mdws[s.ctx.mdwIdx]? = some pre[j] := by
      rw [hm, hi, List.getElem?_append_left hlt, List.getElem?_eq_getElem hlt]
    rw [Context.Next_handler fn f s hget]
    obtain ⟨s₁, ⟨a1, a2, a3, a4, a5, -, -⟩, hnext⟩ :=
      Advance_run_frame (hpre _ (List.getElem_mem hlt)) (Context.Next fn f)
        { s with ctx := { s.ctx with mdwIdx := s.ctx.mdwIdx + 1 },
                 w := { s.w with ran := s.w.ran ++ [s.ctx.mdwIdx] } }
    obtain ⟨t, ht, b1, b2, b3, b4, b5, b6, b7⟩ :=
      ih (j + 1) f s₁ (by omega) (by rw [a5]; exact hm) (by rw [a4]; simp [hi]) (by omega)
    obtain ⟨u, hu, c1, c2, c3, c4, c5, -, -⟩ := hnext t ht
    refine ⟨u, hu, ?_, ?_, ?_, ?_, ?_, ?_, ?_⟩
    · rw [c3, b1, a3]; simp
    · rw [c4, b2]
    · rw [c5, b3, a5]
    · rw [c1, b4, a1]
    · rw [c1, b5, a1]
    · rw [c1, b6, a1]
      simp only [hi, List.append_assoc, List.singleton_append]
      rw [List.range'_succ j (d + 1)]
    · rw [c2, b7, a2]

theorem Run.mono_refl {ρ : Type} (s : Run ρ) : s.mono s :=
  ⟨le_refl _, rfl, List.prefix_refl _⟩

theorem Run.mono_trans {ρ : Type} {s t u : Run ρ} (h₁ : s.mono t) (h₂ : t.mono u) :
    s.mono u :=
  ⟨h₁.1.trans h₂.1, h₂.2.1.trans h₁.2.1, h₁.2.2.trans h₂.2.2⟩

/-- Any handler, run with a `Next` that is defined from cursor `c` on, returns, and
only moves the cursor forward and appends errors. -/
theorem handler.run_mono {ρ : Type} (next : Run ρ → Option (Run ρ)) (m : List handler)
    (c : Nat)
    (hnext : ∀ s, c ≤ s.ctx.mdwIdx → s.ctx.mdws = m → ∃ t, next s = some t ∧ s.mono t)
    (p : handler) :
    ∀ s, c ≤ s.ctx.mdwIdx → s.ctx.mdws = m → ∃ t, p.run next s = some t ∧ s.mono t := by
  induction p with
  | ret => exact fun s _ _ => ⟨s, rfl, s.mono_refl⟩
  | setQuery q k ih =>
    intro s hc hm
    obtain ⟨t, ht, h⟩ := ih { s with ctx := { s.ctx with Query := q } } hc hm
    exact ⟨t, ht, h⟩
  | setArgs a k ih =>
    intro s hc hm
    obtain ⟨t, ht, h⟩ := ih { s with ctx := { s.ctx with Args := a } } hc hm
    exact ⟨t, ht, h⟩
  | set key val k ih =>
    intro s hc hm
    obtain ⟨t, ht, h⟩ := ih { s with ctx := s.ctx.Set key val } hc hm
    exact ⟨t, ht, h⟩
  | delete key k ih =>
    intro s hc hm
    obtain ⟨t, ht, h⟩ := ih { s with ctx := s.ctx.Delete key } hc hm
    exact ⟨t, ht, h⟩
  | error e k ih =>
    intro s hc hm
    obtain ⟨t, ht, h1, h2, h3⟩ := ih { s with ctx := s.ctx.Error e } hc hm
    exact ⟨t, ht, h1, h2, (List.prefix_append _ _).trans h3⟩
  | next k ih =>
    intro s hc hm
    obtain ⟨t, ht, h⟩ := hnext s hc hm
    obtain ⟨u, hu, h'⟩ := ih t (hc.trans h.1) (h.2.1.trans hm)
    exact ⟨u, by simp [handler.run, ht, hu], Run.mono_trans h h'⟩
  | read f ih =>
    intro s hc hm
    exact ih s.ctx.view s hc hm

/-- With fuel `len(mdws) + 1` (less the cursor), `Next` returns, whatever the
handlers do; the cursor has moved forward and errors were only appended. -/
theorem Context.Next_total {ρ : Type} {fn : Run ρ → Run ρ} (hfn : Terminal fn) :
    ∀ (fuel : Nat) (s : Run ρ), 1 ≤ fuel → s.ctx.mdws.length + 1 ≤ fuel + s.ctx.mdwIdx →
      ∃ t, Context.Next fn fuel s = some t ∧ s.ctx.mdwIdx < t.ctx.mdwIdx ∧ s.mono t := by
  intro fuel
  induction fuel with
  | zero => intro s h; omega
  | succ f ih =>
    intro s _ hlen
    by_cases hlt : s.ctx.mdwIdx < s.ctx.mdws.length
    · rw [Context.Next_handler fn f s (List.getElem?_eq_getElem hlt)]
      obtain ⟨t, ht, h1, h2, h3⟩ := handler.run_mono (Context.Next fn f) s.ctx.mdws
        (s.ctx.mdwIdx + 1)
        (fun s' hc hm => by
          obtain ⟨t, ht, _, h⟩ := ih s' (by omega) (by rw [hm]; omega)
          exact ⟨t, ht, h⟩)
        s.ctx.mdws[s.ctx.mdwIdx]
        { s with ctx := { s.ctx with mdwIdx := s.ctx.mdwIdx + 1 },
                 w := { s.w with ran := s.w.ran ++ [s.ctx.mdwIdx] } } (le_refl _) rfl
      exact ⟨t, ht, h1, Nat.le_of_lt h1, h2, h3⟩
    · rw [Context.Next_terminal fn f s (Nat.not_lt.mp hlt)]
      obtain ⟨h1, h2, h3⟩ := hfn
        { s with ctx := { s.ctx with mdwIdx := s.ctx.mdwIdx + 1 },
                 w := { s.w with ran := s.w.ran ++ [s.ctx.mdwIdx] } }
      refine ⟨_, rfl, ?_, ?_, h1, h3⟩
      · rw [h2]; exact Nat.lt_succ_self _
      · rw [h2]; exact Nat.le_succ _

/-! ## C1: a second Commit or Rollback -/

/-- C1 (the code does otherwise).  A transaction is committed and then committed
again, against a driver that rejects calls on a finished transaction as
`database/sql` does.  The second `CommitContext` calls the driver again and
returns `ErrTxDone`; so does a `RollbackContext` after the commit, so does the
second commit when the field `done` is already `true`, and so does the second
commit when a passing handler is registered on `FN_Commit`. -/
theorem C1_second_commit_calls_driver :
    (∃ r₁ r₂, Tx.CommitContext sqlDriver world0 tx1 = some r₁ ∧ r₁.err = none ∧
      Tx.CommitContext sqlDriver r₁.w tx1 = some r₂ ∧ r₂.err = some ErrTxDone ∧
      r₂.w.log = r₁.w.log ++ [⟨.tx (some 1), .commit⟩]) ∧
    (∃ r₁ r₂, Tx.CommitContext sqlDriver world0 tx1 = some r₁ ∧ r₁.err = none ∧
      Tx.RollbackContext sqlDriver r₁.w tx1 = some r₂ ∧ r₂.err = some ErrTxDone ∧
      r₂.w.log = r₁.w.log ++ [⟨.tx (some 1), .rollback⟩]) ∧
    (∃ r₁ r₂, Tx.CommitContext sqlDriver world0 { tx1 with done := true } = some r₁ ∧
      Tx.CommitContext sqlDriver r₁.w { tx1 with done := true } = some r₂ ∧
      r₂.err = some ErrTxDone ∧ r₂.w.log = r₁.w.log ++ [⟨.tx (some 1), .commit⟩]) ∧
    (∃ r₁ r₂, Tx.CommitContext sqlDriver (world0.appendMdw 0 FN_Commit passHandler) tx1 = some r₁ ∧
      r₁.err = none ∧ Tx.CommitContext sqlDriver r₁.w tx1 = some r₂ ∧
      r₂.err = some ErrTxDone ∧ r₂.w.log = r₁.w.log ++ [⟨.tx (some 1), .commit⟩]) :=
  ⟨⟨_, _, rfl, rfl, rfl, rfl, rfl⟩, ⟨_, _, rfl, rfl, rfl, rfl, rfl⟩, ⟨_, _, rfl, rfl, rfl, rfl⟩,
    ⟨_, _, rfl, rfl, rfl, rfl, rfl⟩⟩

/-! ## C2: the source a handler observes -/

/-- C2 (the code does otherwise).  `newContext` never stores its `source`
argument, so `Source()` is `SRC_Database` in every context; a handler registered
on `FN_Exec` that records what `Source()` returns records "database" when the
call comes from a `Tx`, a `Stmt` or a `Conn`. -/
theorem C2_source_is_always_database :
    (∀ funct source query args mdws,
      (newContext funct source query args mdws).Source = SRC_Database) ∧
    (Tx.ExecContext sqlDriver (world0.appendMdw 0 FN_Exec sourceProbe) tx1 "q" []).map
      (fun r => r.err) = some (some "database") ∧
    (Stmt.ExecContext sqlDriver (world0.appendMdw 0 FN_Exec sourceProbe) ⟨some 2, 0, "q"⟩ []).map
      (fun r => r.err) = some (some "database") ∧
    (Conn.ExecContext sqlDriver (world0.appendMdw 0 FN_Exec sourceProbe) ⟨some 3, 0⟩ "q" []).map
      (fun r => r.err) = some (some "database") :=
  ⟨fun _ _ _ _ _ => rfl, rfl, rfl, rfl⟩

/-! ## C7: no handlers registered -/

/-- C7.  When no handler is registered for the kind a wrapper looks up, the wrapper
makes exactly one call into `database/sql`, with the query and arguments of the
caller (`r` is that one call: its reply, and the world with the log grown by
it), and returns what the call returned.  `ExecContext`, `QueryContext`, `PingContext`,
`CommitContext`, `RollbackContext` return the reply as it is.  `BeginTx` and
`PrepareContext` return the error of the reply, and as result the new `sql.Tx`
or `sql.Stmt` wrapped in a `Tx` or `Stmt` that refers to the same client, or
nil when the error is not nil. -/
theorem C7_no_handlers_is_direct_call (drv : Driver) (w : World) (db : Nat) (cn : Conn)
    (tx : Tx) (st : Stmt) (opts : Option TxOptions) (query : String) (args : List Any) :
    ((w.heap db).mdws FN_Begin = [] →
      ∀ r : Reply × World, r = w.call drv ⟨.db (w.heap db).db, .begin opts⟩ →
        DB.BeginTx drv w db opts =
          some (if r.1.err ≠ none then ⟨none, r.1.err, r.2⟩
            else ⟨some ⟨r.1.val, db, false⟩, none, r.2⟩)) ∧
    ((w.heap db).mdws FN_Exec = [] →
      ∀ r : Reply × World, r = w.call drv ⟨.db (w.heap db).db, .exec query args⟩ →
        DB.ExecContext drv w db query args = some ⟨r.1.val, r.1.err, r.2⟩) ∧
    ((w.heap db).mdws FN_Ping = [] →
      ∀ r : Reply × World, r = w.call drv ⟨.db (w.heap db).db, .ping⟩ →
        DB.PingContext drv w db = some ⟨r.1.err, r.2⟩) ∧
    ((w.heap db).mdws FN_Prepare = [] →
      ∀ r : Reply × World, r = w.call drv ⟨.db (w.heap db).db, .prepare query⟩ →
        DB.PrepareContext drv w db query =
          some (if r.1.err ≠ none then ⟨none, r.1.err, r.2⟩
            else ⟨some ⟨r.1.val, db, query⟩, none, r.2⟩)) ∧
    ((w.heap db).mdws FN_Query = [] →
      ∀ r : Reply × World, r = w.call drv ⟨.db (w.heap db).db, .query query args⟩ →
        DB.QueryContext drv w db query args = some ⟨r.1.val, r.1.err, r.2⟩) ∧
    (fnHndl w cn.mdws FN_Begin = [] →
      ∀ r : Reply × World, r = w.call drv ⟨.conn cn.cn, .begin opts⟩ →
        Conn.BeginTx drv w cn opts =
          some (if r.1.err ≠ none then ⟨none, r.1.err, r.2⟩
            else ⟨some ⟨r.1.val, cn.mdws, false⟩, none, r.2⟩)) ∧
    (fnHndl w cn.mdws FN_Exec = [] →
      ∀ r : Reply × World, r = w.call drv ⟨.conn cn.cn, .exec query args⟩ →
        Conn.ExecContext drv w cn query args = some ⟨r.1.val, r.1.err, r.2⟩) ∧
    (fnHndl w cn.mdws FN_Ping = [] →
      ∀ r : Reply × World, r = w.call drv ⟨.conn cn.cn, .ping⟩ →
        Conn.PingContext drv w cn = some ⟨r.1.err, r.2⟩) ∧
    (fnHndl w cn.mdws FN_Prepare = [] →
      ∀ r : Reply × World, r = w.call drv ⟨.conn cn.cn, .prepare query⟩ →
        Conn.PrepareContext drv w cn query =
          some (if r.1.err ≠ none then ⟨none, r.1.err, r.2⟩
            else ⟨some ⟨r.1.val, cn.mdws, query⟩, none, r.2⟩)) ∧
    (fnHndl w cn.mdws FN_Query = [] →
      ∀ r : Reply × World, r = w.call drv ⟨.conn cn.cn, .query query args⟩ →
        Conn.QueryContext drv w cn query args = some ⟨r.1.val, r.1.err, r.2⟩) ∧
    (fnHndl w tx.mdws FN_Commit = [] →
      ∀ r : Reply × World, r = w.call drv ⟨.tx tx.tx, .commit⟩ →
        Tx.CommitContext drv w tx = some ⟨r.1.err, r.2⟩) ∧
    (fnHndl w tx.mdws FN_Rollback = [] →
      ∀ r : Reply × World, r = w.call drv ⟨.tx tx.tx, .rollback⟩ →
        Tx.RollbackContext drv w tx = some ⟨r.1.err, r.2⟩) ∧
    (fnHndl w tx.mdws FN_Exec = [] →
      ∀ r : Reply × World, r = w.call drv ⟨.tx tx.tx, .exec query args⟩ →
        Tx.ExecContext drv w tx query args = some ⟨r.1.val, r.1.err, r.2⟩) ∧
    (fnHndl w tx.mdws FN_Prepare = [] →
      ∀ r : Reply × World, r = w.call drv ⟨.tx tx.tx, .prepare query⟩ →
        Tx.PrepareContext drv w tx query =
          some (if r.1.err ≠ none then ⟨none, r.1.err, r.2⟩
            else ⟨some ⟨r.1.val, tx.mdws, query⟩, none, r.2⟩)) ∧
    (fnHndl w tx.mdws FN_Query = [] →
      ∀ r : Reply × World, r = w.call drv ⟨.tx tx.tx, .query query args⟩ →
        Tx.QueryContext drv w tx query args = some ⟨r.1.val, r.1.err, r.2⟩) ∧
    (fnHndl w st.mdws FN_Exec = [] →
      ∀ r : Reply × World, r = w.call drv ⟨.stmt st.st, .stmtExec args⟩ →
        Stmt.ExecContext drv w st args = some ⟨r.1.val, r.1.err, r.2⟩) ∧
    (fnHndl w st.mdws FN_Query = [] →
      ∀ r : Reply × World, r = w.call drv ⟨.stmt st.st, .stmtQuery args⟩ →
        Stmt.QueryContext drv w st args = some ⟨r.1.val, r.1.err, r.2⟩) := by
  refine ⟨?_, ?_, ?_, ?_, ?_, ?_, ?_, ?_, ?_, ?_, ?_, ?_, ?_, ?_, ?_, ?_, ?_⟩ <;>
    intro h r hr <;>
    subst hr <;>
    simp [DB.BeginTx, DB.ExecContext, DB.PingContext, DB.PrepareContext, DB.QueryContext,
      Conn.BeginTx, Conn.ExecContext, Conn.PingContext, Conn.PrepareContext, Conn.QueryContext,
      Tx.CommitContext, Tx.RollbackContext, Tx.ExecContext, Tx.PrepareContext, Tx.QueryContext,
      Stmt.ExecContext, Stmt.QueryContext,
      h, World.call] <;>
    split <;> rfl

/-- C7 at a client without handlers: each wrapper makes its one call and returns
the reply of `sqlDriver`. -/
theorem C7_no_handlers_is_direct_call_witness :
    DB.ExecContext sqlDriver world0 0 "INSERT" [Any.int 5] =
      some ⟨some 0, none, { world0 with log := [⟨.db (some 0), .exec "INSERT" [Any.int 5]⟩] }⟩ ∧
    Conn.QueryContext sqlDriver world0 ⟨some 3, 0⟩ "SELECT" [] =
      some ⟨some 0, none, { world0 with log := [⟨.conn (some 3), .query "SELECT" []⟩] }⟩ ∧
    Tx.CommitContext sqlDriver world0 tx1 =
      some ⟨none, { world0 with log := [⟨.tx (some 1), .commit⟩] }⟩ ∧
    DB.BeginTx sqlDriver world0 0 none =
      some ⟨some ⟨some 0, 0, false⟩, none, { world0 with log := [⟨.db (some 0), .begin none⟩] }⟩ :=
  have h := C7_no_handlers_is_direct_call sqlDriver world0 0 ⟨some 3, 0⟩ tx1 ⟨some 2, 0, "q"⟩ none
  ⟨(h "INSERT" [Any.int 5]).2.1 rfl _ rfl, (h "SELECT" []).2.2.2.2.2.2.2.2.2.1 rfl _ rfl,
    (h "" []).2.2.2.2.2.2.2.2.2.2.1 rfl _ rfl, (h "" []).1 rfl _ rfl⟩

/-! ## C9: registration -/

theorem World.appendMdw_mdws (w : World) (db : Nat) (fn fn' : Function) (m : handler) :
    ((w.appendMdw db fn m).heap db).mdws fn' =
      (w.heap db).mdws fn' ++ (if fn = fn' then [m] else []) := by
  by_cases h : fn = fn'
  · subst h; simp [World.appendMdw]
  · simp [World.appendMdw, h, Function.update_noteq (Ne.symm h)]

/-- What the loop of `Use` does to the registry of `db`, and that it touches
nothing else. -/
theorem foldl_appendMdw (db : Nat) (m : handler) (fns : List Function) :
    ∀ w : World,
      (∀ fn, ((fns.foldl (fun w fn => w.appendMdw db fn m) w).heap db).mdws fn =
        (w.heap db).mdws fn ++ List.replicate (fns.count fn) m) ∧
      ((fns.foldl (fun w fn => w.appendMdw db fn m) w).heap db).db = (w.heap db).db ∧
      (∀ a, a ≠ db → (fns.foldl (fun w fn => w.appendMdw db fn m) w).heap a = w.heap a) ∧
      (fns.foldl (fun w fn => w.appendMdw db fn m) w).log = w.log ∧
      (fns.foldl (fun w fn => w.appendMdw db fn m) w).ran = w.ran := by
  induction fns with
  | nil => intro w; simp
  | cons f fs ih =>
    intro w
    obtain ⟨h1, h2, h3, h4, h5⟩ := ih (w.appendMdw db f m)
    simp only [List.foldl_cons]
    refine ⟨fun fn => ?_, ?_, fun a ha => ?_, ?_, ?_⟩
    · rw [h1 fn, World.appendMdw_mdws, List.count_cons]
      by_cases h : f = fn
      · subst h
        simp [List.replicate_succ, List.replicate_add]
      · have h' : (f == fn) = false := by simpa using h
        simp [h, h']
    · rw [h2]; simp [World.appendMdw]
    · rw [h3 a ha]; simp [World.appendMdw, Function.update_noteq ha]
    · rw [h4]; rfl
    · rw [h5]; rfl

/-- C9.  `Use` panics exactly when the list of kinds is empty or the handler is
nil, and then the world, the registry included, is as before.  Otherwise it
does not panic and, for every kind, the registry of the client holds the
previous handlers of that kind followed by one copy of the handler for each
time the kind is listed; the registries of other clients and the driver log are
as before. -/
theorem C9_use_panics_iff_and_appends (w : World) (db : Nat) (mdw : Option handler)
    (fns : List Function) :
    ((DB.Use w db mdw fns).panicked ≠ none ↔ (fns = [] ∨ mdw = none)) ∧
    ((fns = [] ∨ mdw = none) → (DB.Use w db mdw fns).w = w) ∧
    (∀ m, mdw = some m → fns ≠ [] →
      (DB.Use w db mdw fns).panicked = none ∧
      (∀ fn, ((DB.Use w db mdw fns).w.heap db).mdws fn =
        (w.heap db).mdws fn ++ List.replicate (fns.count fn) m) ∧
      (∀ a, a ≠ db → (DB.Use w db mdw fns).w.heap a = w.heap a) ∧
      (DB.Use w db mdw fns).w.log = w.log) := by
  refine ⟨?_, ?_, ?_⟩
  · cases fns with
    | nil => simp [DB.Use]
    | cons f fs => cases mdw <;> simp [DB.Use]
  · cases fns with
    | nil => simp [DB.Use]
    | cons f fs => cases mdw <;> simp [DB.Use]
  · intro m hm hne
    subst hm
    obtain ⟨h1, -, h3, h4, -⟩ := foldl_appendMdw db m fns w
    have hlen : ¬ fns.length = 0 := by simpa using hne
    simp only [DB.Use, hlen, if_false]
    exact ⟨trivial, h1, h3, h4⟩

/-- C9 at a client without handlers: registering on `[FN_Exec, FN_Query]` leaves
one handler under each, and none under `FN_Ping`. -/
theorem C9_use_panics_iff_and_appends_witness :
    (DB.Use world0 0 (some passHandler) [FN_Exec, FN_Query]).panicked = none ∧
    ((DB.Use world0 0 (some passHandler) [FN_Exec, FN_Query]).w.heap 0).mdws FN_Exec =
      [passHandler] ∧
    ((DB.Use world0 0 (some passHandler) [FN_Exec, FN_Query]).w.heap 0).mdws FN_Ping = [] ∧
    (DB.Use world0 0 none [FN_Exec]).w = world0 ∧
    (DB.Use world0 0 (some passHandler) []).w = world0 :=
  have h := (C9_use_panics_iff_and_appends world0 0 (some passHandler) [FN_Exec, FN_Query]).2.2
    passHandler rfl (by decide)
  ⟨h.1, h.2.1 FN_Exec, h.2.1 FN_Ping,
    (C9_use_panics_iff_and_appends world0 0 none [FN_Exec]).2.1 (Or.inr rfl),
    (C9_use_panics_iff_and_appends world0 0 (some passHandler) []).2.1 (Or.inl rfl)⟩

/-! ## C3: a handler that vetoes -/

/-- The chain of C3 run from a fresh context: `Next` returns, the result variable
is still nil, the first error is `e`, and the world is as before except that
`ran` lists the cursors `0 .. pre.length`. -/
theorem chain_veto {ρ : Type} (fn : Run ρ → Run ρ) {pre rest : List handler}
    {hk : handler} {e : error} (hpre : ∀ p ∈ pre, p.PassOnce) (hv : hk.Veto e)
    (funct : Function) (source : Source) (query : String) (args : List Any) (w : World)
    {mdws : List handler} (hm : mdws = pre ++ hk :: rest) :
    ∃ t, Context.Next fn (mdws.length + 1) ⟨newContext funct source query args mdws, w, none⟩
        = some t ∧ t.out = none ∧ t.ctx.fsterr = e ∧ t.ctx.mdwIdx = pre.length + 1 ∧
        t.w = { w with ran := w.ran ++ List.range (pre.length + 1) } := by
  obtain ⟨t, ht, h1, h2, -, h4, h5, h6, h7⟩ :=
    Context.Next_veto fn rest hpre hv pre.length 0 (mdws.length + 1)
      ⟨newContext funct source query args mdws, w, none⟩ (by simp) hm rfl
      (by rw [hm]; simp; omega)
  refine ⟨t, ht, h7, ?_, h2, ?_⟩
  · simp [Context.fsterr, h1, newContext]
  · obtain ⟨c, ⟨hp, lg, rn⟩, o⟩ := t
    simp only at h4 h5 h6
    rw [h4, h5, h6, List.range_eq_range']

/-- The same, seen through the last lines of a wrapper. -/
theorem chain_veto_map {ρ α : Type} {fn : Run ρ → Run ρ} {pre rest : List handler}
    {hk : handler} {e : error} (hpre : ∀ p ∈ pre, p.PassOnce) (hv : hk.Veto e)
    {funct : Function} {source : Source} {query : String} {args : List Any} {w : World}
    {mdws : List handler} (hm : mdws = pre ++ hk :: rest) {g : Run ρ → α} {r : α}
    (hg : ∀ t : Run ρ, t.out = none → t.ctx.fsterr = e →
      t.w = { w with ran := w.ran ++ List.range (pre.length + 1) } → g t = r) :
    (Context.Next fn (mdws.length + 1) ⟨newContext funct source query args mdws, w, none⟩).map g
      = some r := by
  obtain ⟨t, ht, h1, h2, -, h3⟩ := chain_veto fn hpre hv funct source query args w hm
  rw [ht, Option.map_some', hg t h1 h2 h3]

/-- C3.  The handlers registered for the kind are `pre ++ hk :: rest`: the `k =
pre.length` handlers of `pre` each record nothing and call `Next` exactly once,
handler `k` records `e` and does not call `Next`.  Then every wrapper returns,
with a nil result and the error `e`; the driver log is as before the call, so
the terminal action did not run; and `Next` dispatched on the cursors `0 .. k`
and on no other, so no handler of `rest` ran. -/
theorem C3_veto_stops_chain (drv : Driver) (w : World) (db : Nat) (cn : Conn) (tx : Tx)
    (st : Stmt) (opts : Option TxOptions) (query : String) (args : List Any)
    (pre rest : List handler) (hk : handler) (e : error)
    (hpre : ∀ p ∈ pre, p.PassOnce) (hv : hk.Veto e) :
    ((w.heap db).mdws FN_Begin = pre ++ hk :: rest →
      DB.BeginTx drv w db opts =
        some ⟨none, e, { w with ran := w.ran ++ List.range (pre.length + 1) }⟩) ∧
    ((w.heap db).mdws FN_Exec = pre ++ hk :: rest →
      DB.ExecContext drv w db query args =
        some ⟨none, e, { w with ran := w.ran ++ List.range (pre.length + 1) }⟩) ∧
    ((w.heap db).mdws FN_Ping = pre ++ hk :: rest →
      DB.PingContext drv w db =
        some ⟨e, { w with ran := w.ran ++ List.range (pre.length + 1) }⟩) ∧
    ((w.heap db).mdws FN_Prepare = pre ++ hk :: rest →
      DB.PrepareContext drv w db query =
        some ⟨none, e, { w with ran := w.ran ++ List.range (pre.length + 1) }⟩) ∧
    ((w.heap db).mdws FN_Query = pre ++ hk :: rest →
      DB.QueryContext drv w db query args =
        some ⟨none, e, { w with ran := w.ran ++ List.range (pre.length + 1) }⟩) ∧
    (fnHndl w cn.mdws FN_Begin = pre ++ hk :: rest →
      Conn.BeginTx drv w cn opts =
        some ⟨none, e, { w with ran := w.ran ++ List.range (pre.length + 1) }⟩) ∧
    (fnHndl w cn.mdws FN_Exec = pre ++ hk :: rest →
      Conn.ExecContext drv w cn query args =
        some ⟨none, e, { w with ran := w.ran ++ List.range (pre.length + 1) }⟩) ∧
    (fnHndl w cn.mdws FN_Ping = pre ++ hk :: rest →
      Conn.PingContext drv w cn =
        some ⟨e, { w with ran := w.ran ++ List.range (pre.length + 1) }⟩) ∧
    (fnHndl w cn.mdws FN_Prepare = pre ++ hk :: rest →
      Conn.PrepareContext drv w cn query =
        some ⟨none, e, { w with ran := w.ran ++ List.range (pre.length + 1) }⟩) ∧
    (fnHndl w cn.mdws FN_Query = pre ++ hk :: rest →
      Conn.QueryContext drv w cn query args =
        some ⟨none, e, { w with ran := w.ran ++ List.range (pre.length + 1) }⟩) ∧
    (fnHndl w tx.mdws FN_Commit = pre ++ hk :: rest →
      Tx.CommitContext drv w tx =
        some ⟨e, { w with ran := w.ran ++ List.range (pre.length + 1) }⟩) ∧
    (fnHndl w tx.mdws FN_Rollback = pre ++ hk :: rest →
      Tx.RollbackContext drv w tx =
        some ⟨e, { w with ran := w.ran ++ List.range (pre.length + 1) }⟩) ∧
    (fnHndl w tx.mdws FN_Exec = pre ++ hk :: rest →
      Tx.ExecContext drv w tx query args =
        some ⟨none, e, { w with ran := w.ran ++ List.range (pre.length + 1) }⟩) ∧
    (fnHndl w tx.mdws FN_Prepare = pre ++ hk :: rest →
      Tx.PrepareContext drv w tx query =
        some ⟨none, e, { w with ran := w.ran ++ List.range (pre.length + 1) }⟩) ∧
    (fnHndl w tx.mdws FN_Query = pre ++ hk :: rest →
      Tx.QueryContext drv w tx query args =
        some ⟨none, e, { w with ran := w.ran ++ List.range (pre.length + 1) }⟩) ∧
    (fnHndl w st.mdws FN_Exec = pre ++ hk :: rest →
      Stmt.ExecContext drv w st args =
        some ⟨none, e, { w with ran := w.ran ++ List.range (pre.length + 1) }⟩) ∧
    (fnHndl w st.mdws FN_Query = pre ++ hk :: rest →
      Stmt.QueryContext drv w st args =
        some ⟨none, e, { w with ran := w.ran ++ List.range (pre.length + 1) }⟩) := by
  refine ⟨?_, ?_, ?_, ?_, ?_, ?_, ?_, ?_, ?_, ?_, ?_, ?_, ?_, ?_, ?_, ?_, ?_⟩ <;>
    intro h <;>
    simp only [DB.BeginTx, DB.ExecContext, DB.PingContext, DB.PrepareContext, DB.QueryContext,
      Conn.BeginTx, Conn.ExecContext, Conn.PingContext, Conn.PrepareContext, Conn.QueryContext,
      Tx.CommitContext, Tx.RollbackContext, Tx.ExecContext, Tx.PrepareContext, Tx.QueryContext,
      Stmt.ExecContext, Stmt.QueryContext,
      length_ne_zero_of_mid h, if_false] <;>
    refine chain_veto_map hpre hv h fun t h1 h2 h3 => ?_ <;>
    simp only [h1, h2, h3]

/-- C3 on a chain of three handlers: the first passes, the second records
"permission denied" and stops, the third is never reached. -/
theorem C3_veto_stops_chain_witness :
    DB.QueryContext sqlDriver (worldWith FN_Query [passHandler, denyHandler, passHandler]) 0
        "SELECT" [] =
      some ⟨none, some "permission denied",
        { worldWith FN_Query [passHandler, denyHandler, passHandler] with ran := [0, 1] }⟩ ∧
    Tx.CommitContext sqlDriver (worldWith FN_Commit [passHandler, denyHandler, passHandler]) tx1 =
      some ⟨some "permission denied",
        { worldWith FN_Commit [passHandler, denyHandler, passHandler] with ran := [0, 1] }⟩ :=
  ⟨(C3_veto_stops_chain sqlDriver (worldWith FN_Query [passHandler, denyHandler, passHandler])
      0 ⟨some 3, 0⟩ tx1 ⟨some 2, 0, "q"⟩ none "SELECT" [] [passHandler] [passHandler] denyHandler
      (some "permission denied")
      (fun p hp => by
        rw [List.mem_singleton] at hp
        subst hp
        exact handler.Advance.next handler.Quiet.ret)
      (handler.Veto.error handler.Quiet.ret)).2.2.2.2.1 rfl,
   (C3_veto_stops_chain sqlDriver (worldWith FN_Commit [passHandler, denyHandler, passHandler])
      0 ⟨some 3, 0⟩ tx1 ⟨some 2, 0, "q"⟩ none "SELECT" [] [passHandler] [passHandler] denyHandler
      (some "permission denied")
      (fun p hp => by
        rw [List.mem_singleton] at hp
        subst hp
        exact handler.Advance.next handler.Quiet.ret)
      (handler.Veto.error handler.Quiet.ret)).2.2.2.2.2.2.2.2.2.2.1 rfl⟩

/-! ## Chains in which every handler advances -/

/-- A chain in which every handler advances once, recording its errors before it
does.  Started at cursor `j`, `Next` reaches the terminal action in a state `s₁`
that holds the errors of the handlers from `j` on, and returns a state that
differs from `fn s₁` at most in `Query`, `Args`, `Values`. -/
theorem Context.Next_advance {ρ : Type} (fn : Run ρ → Run ρ)
    (hl : List (handler × List error)) (hadv : ∀ x ∈ hl, x.1.Advance x.2) :
    ∀ (d j fuel : Nat) (s : Run ρ), j + d = hl.length → s.ctx.mdws = hl.map Prod.fst →
      s.ctx.mdwIdx = j → d < fuel →
      ∃ s₁ t, Context.Next fn fuel s = some t ∧ (fn s₁).frame t ∧
        s₁.ctx.errs = s.ctx.errs ++ ((hl.drop j).map Prod.snd).flatten ∧
        s₁.ctx.mdwIdx = hl.length + 1 ∧ s₁.ctx.mdws = s.ctx.mdws ∧
        s₁.w = { s.w with ran := s.w.ran ++ List.range' j (d + 1) } ∧ s₁.out = s.out ∧
        s₁.ctx.funct = s.ctx.funct ∧ s₁.ctx.source = s.ctx.source := by
  intro d
  induction d with
  | zero =>
    intro j fuel s hj hm hi hf
    obtain ⟨f, rfl⟩ : ∃ f, fuel = f + 1 := ⟨fuel - 1, by omega⟩
    have hge : s.ctx.mdws.length ≤ s.ctx.mdwIdx := by rw [hm, hi]; simp; omega
    rw [Context.Next_terminal fn f s hge]
    refine ⟨_, _, rfl, Run.frame_refl _, ?_, ?_, rfl, ?_, rfl, rfl, rfl⟩
    · have : j = hl.length := by omega
      subst this
      simp
    · simp only [hi]; omega
    · simp [hi]
  | succ d ih =>
    intro j fuel s hj hm hi hf
    obtain ⟨f, rfl⟩ : ∃ f, fuel = f + 1 := ⟨fuel - 1, by omega⟩
    have hlt : j < hl.length := by omega
    have hget : s.ctx.mdws[s.ctx.mdwIdx]? = some hl[j].1 := by
      rw [hm, hi]; simp [List.getElem?_eq_getElem hlt]
    rw [Context.Next_handler fn f s hget]
    obtain ⟨s', ⟨a1, a2, a3, a4, a5, a6, a7⟩, hnext⟩ :=
      Advance_run_frame (hadv _ (List.getElem_mem hlt)) (Context.Next fn f)
        { s with ctx := { s.ctx with mdwIdx := s.ctx.mdwIdx + 1 },
                 w := { s.w with ran := s.w.ran ++ [s.ctx.mdwIdx] } }
    obtain ⟨s₁, t, ht, hfr, b1, b2, b3, b4, b5, b6, b7⟩ :=
      ih (j + 1) f s' (by omega) (by rw [a5]; exact hm) (by rw [a4]; simp [hi]) (by omega)
    obtain ⟨u, hu, hfu⟩ := hnext t ht
    refine ⟨s₁, u, hu, Run.frame_trans hfr hfu, ?_, b2, ?_, ?_, ?_, ?_, ?_⟩
    · have key : ((hl.drop j).map Prod.snd).flatten =
          hl[j].2 ++ ((hl.drop (j + 1)).map Prod.snd).flatten := by
        rw [List.drop_eq_getElem_cons hlt]; rfl
      rw [b1, a3, key]
      simp only [List.append_assoc]
    · rw [b3, a5]
    · rw [b4, a1]
      simp only [hi, List.append_assoc, List.singleton_append]
      rw [List.range'_succ j (d + 1)]
    · rw [b5, a2]
    · rw [b6, a6]
    · rw [b7, a7]

/-! ## C8: recording and advancing -/

theorem exists_forall_eq {β γ : Type} {P : β → γ → Prop} {f : β → γ}
    (h : ∃ c, P c (f c)) : ∃ c, ∀ r, r = f c → P c r :=
  h.elim fun c hc => ⟨c, fun _ hr => hr ▸ hc⟩

theorem forall_eq_of {γ : Type} {P : γ → Prop} {x : γ} (h : P x) : ∀ r, r = x → P r :=
  fun _ hr => hr ▸ h

/-- The chain of C8 run from a fresh context: every handler advances and only `hk`
records.  The terminal action runs in a state `s₁` whose only error is `e`,
whose result variable is nil, and whose `ran` lists all the cursors; what
`Next` returns differs from `fn s₁` at most in `Query`, `Args`, `Values`. -/
theorem chain_fail_pass {ρ : Type} (fn : Run ρ → Run ρ) {pre post : List handler}
    {hk : handler} {e : error} (hpre : ∀ p ∈ pre, p.PassOnce) (hv : hk.FailThenPass e)
    (hpost : ∀ p ∈ post, p.PassOnce)
    (funct : Function) (source : Source) (query : String) (args : List Any) (w : World)
    {mdws : List handler} (hm : mdws = pre ++ hk :: post) :
    ∃ s₁ t, Context.Next fn (mdws.length + 1) ⟨newContext funct source query args mdws, w, none⟩
        = some t ∧ (fn s₁).frame t ∧ s₁.ctx.errs = [e] ∧ s₁.out = none ∧
        s₁.w = { w with ran := w.ran ++ List.range (pre.length + post.length + 2) } := by
  have hlen : (pre.map (fun p => (p, ([] : List error))) ++
      (hk, [e]) :: post.map (fun p => (p, ([] : List error)))).length = mdws.length := by
    rw [hm]; simp
  have hfst : (pre.map (fun p => (p, ([] : List error))) ++
      (hk, [e]) :: post.map (fun p => (p, ([] : List error)))).map Prod.fst = mdws := by
    rw [hm]; simp [Function.comp_def]
  have hsnd : ((pre.map (fun p => (p, ([] : List error))) ++
      (hk, [e]) :: post.map (fun p => (p, ([] : List error)))).map Prod.snd).flatten = [e] := by
    simp [Function.comp_def]
  obtain ⟨s₁, t, ht, hfr, h1, -, -, h4, h5, -, -⟩ :=
    Context.Next_advance fn
      (pre.map (fun p => (p, ([] : List error))) ++
        (hk, [e]) :: post.map (fun p => (p, ([] : List error))))
      (by
        intro x hx
        rw [List.mem_append, List.mem_cons] at hx
        rcases hx with hx | hx | hx
        · obtain ⟨p, hp, rfl⟩ := List.mem_map.mp hx
          exact hpre p hp
        · subst hx; exact hv
        · obtain ⟨p, hp, rfl⟩ := List.mem_map.mp hx
          exact hpost p hp)
      mdws.length 0 (mdws.length + 1)
      ⟨newContext funct source query args mdws, w, none⟩
      (by rw [hlen]; simp) hfst.symm rfl (by omega)
  refine ⟨s₁, t, ht, hfr, ?_, h5, ?_⟩
  · rw [h1, List.drop_zero, hsnd]; rfl
  · have hn : mdws.length + 1 = pre.length + post.length + 2 := by
      rw [hm]; simp; omega
    rw [h4, List.range_eq_range', hn]

/-- The same, seen through the last lines of a wrapper whose driver call carries the
query and the arguments of the context. -/
theorem chain_fail_pass_ctx {ρ α : Type} {fn : Run ρ → Run ρ} {pre post : List handler}
    {hk : handler} {e : error} (hpre : ∀ p ∈ pre, p.PassOnce) (hv : hk.FailThenPass e)
    (hpost : ∀ p ∈ post, p.PassOnce)
    {funct : Function} {source : Source} {query : String} {args : List Any} {w : World}
    {mdws : List handler} (hm : mdws = pre ++ hk :: post) {g : Run ρ → α} {F : Context → α}
    (hg : ∀ s₁ t : Run ρ, s₁.ctx.errs = [e] → s₁.out = none →
      s₁.w = { w with ran := w.ran ++ List.range (pre.length + post.length + 2) } → (fn s₁).frame t →
      g t = F s₁.ctx) :
    ∃ c : Context,
      (Context.Next fn (mdws.length + 1) ⟨newContext funct source query args mdws, w, none⟩).map g
        = some (F c) := by
  obtain ⟨s₁, t, ht, hfr, h1, h2, h3⟩ :=
    chain_fail_pass fn hpre hv hpost funct source query args w hm
  exact ⟨s₁.ctx, by rw [ht, Option.map_some', hg s₁ t h1 h2 h3 hfr]⟩

/-- The same for a wrapper whose driver call takes nothing from the context. -/
theorem chain_fail_pass_map {ρ α : Type} {fn : Run ρ → Run ρ} {pre post : List handler}
    {hk : handler} {e : error} (hpre : ∀ p ∈ pre, p.PassOnce) (hv : hk.FailThenPass e)
    (hpost : ∀ p ∈ post, p.PassOnce)
    {funct : Function} {source : Source} {query : String} {args : List Any} {w : World}
    {mdws : List handler} (hm : mdws = pre ++ hk :: post) {g : Run ρ → α} {r : α}
    (hg : ∀ s₁ t : Run ρ, s₁.ctx.errs = [e] → s₁.out = none →
      s₁.w = { w with ran := w.ran ++ List.range (pre.length + post.length + 2) } → (fn s₁).frame t →
      g t = r) :
    (Context.Next fn (mdws.length + 1) ⟨newContext funct source query args mdws, w, none⟩).map g
      = some r := by
  obtain ⟨s₁, t, ht, hfr, h1, h2, h3⟩ :=
    chain_fail_pass fn hpre hv hpost funct source query args w hm
  rw [ht, Option.map_some', hg s₁ t h1 h2 h3 hfr]

/-- C8.  The handlers registered for the kind are `pre ++ hk :: post`, where `hk`
records `e` and then calls `Next`, the handlers after it call `Next` exactly
once without recording, and so do the handlers before it, so that `hk` is
reached.  Then every wrapper returns, `Next` has dispatched on every cursor `0
.. N` (all `N` handlers and the terminal action), and the driver was called
exactly once (`r`), with the query and arguments of the context `c` as the
handlers left it.  The error returned is `e`, whether the driver call
failed or not; the result is the result of the driver call when that call
returned no error, and nil otherwise. -/
theorem C8_fail_then_pass_continues (drv : Driver) (w : World) (db : Nat) (cn : Conn)
    (tx : Tx) (st : Stmt) (opts : Option TxOptions) (query : String) (args : List Any)
    (pre post : List handler) (hk : handler) (e : error)
    (hpre : ∀ p ∈ pre, p.PassOnce) (hv : hk.FailThenPass e)
    (hpost : ∀ p ∈ post, p.PassOnce) :
    ((w.heap db).mdws FN_Begin = pre ++ hk :: post →
      ∀ r : Reply × World, r = w.call drv ⟨.db (w.heap db).db, .begin opts⟩ →
        DB.BeginTx drv w db opts =
          some ⟨if r.1.err = none then some ⟨r.1.val, db, false⟩ else none, e,
            { r.2 with ran := w.ran ++ List.range (pre.length + post.length + 2) }⟩) ∧
    ((w.heap db).mdws FN_Exec = pre ++ hk :: post →
      ∃ c : Context, ∀ r : Reply × World, r = w.call drv ⟨.db (w.heap db).db, .exec c.Query c.Args⟩ →
        DB.ExecContext drv w db query args =
          some ⟨if r.1.err = none then r.1.val else none, e,
            { r.2 with ran := w.ran ++ List.range (pre.length + post.length + 2) }⟩) ∧
    ((w.heap db).mdws FN_Ping = pre ++ hk :: post →
      ∀ r : Reply × World, r = w.call drv ⟨.db (w.heap db).db, .ping⟩ →
        DB.PingContext drv w db =
          some ⟨e, { r.2 with ran := w.ran ++ List.range (pre.length + post.length + 2) }⟩) ∧
    ((w.heap db).mdws FN_Prepare = pre ++ hk :: post →
      ∃ c : Context, ∀ r : Reply × World, r = w.call drv ⟨.db (w.heap db).db, .prepare c.Query⟩ →
        DB.PrepareContext drv w db query =
          some ⟨if r.1.err = none then some ⟨r.1.val, db, query⟩ else none, e,
            { r.2 with ran := w.ran ++ List.range (pre.length + post.length + 2) }⟩) ∧
    ((w.heap db).mdws FN_Query = pre ++ hk :: post →
      ∃ c : Context, ∀ r : Reply × World, r = w.call drv ⟨.db (w.heap db).db, .query c.Query c.Args⟩ →
        DB.QueryContext drv w db query args =
          some ⟨if r.1.err = none then r.1.val else none, e,
            { r.2 with ran := w.ran ++ List.range (pre.length + post.length + 2) }⟩) ∧
    (fnHndl w cn.mdws FN_Begin = pre ++ hk :: post →
      ∀ r : Reply × World, r = w.call drv ⟨.conn cn.cn, .begin opts⟩ →
        Conn.BeginTx drv w cn opts =
          some ⟨if r.1.err = none then some ⟨r.1.val, cn.mdws, false⟩ else none, e,
            { r.2 with ran := w.ran ++ List.range (pre.length + post.length + 2) }⟩) ∧
    (fnHndl w cn.mdws FN_Exec = pre ++ hk :: post →
      ∃ c : Context, ∀ r : Reply × World, r = w.call drv ⟨.conn cn.cn, .exec c.Query c.Args⟩ →
        Conn.ExecContext drv w cn query args =
          some ⟨if r.1.err = none then r.1.val else none, e,
            { r.2 with ran := w.ran ++ List.range (pre.length + post.length + 2) }⟩) ∧
    (fnHndl w cn.mdws FN_Ping = pre ++ hk :: post →
      ∀ r : Reply × World, r = w.call drv ⟨.conn cn.cn, .ping⟩ →
        Conn.PingContext drv w cn =
          some ⟨e, { r.2 with ran := w.ran ++ List.range (pre.length + post.length + 2) }⟩) ∧
    (fnHndl w cn.mdws FN_Prepare = pre ++ hk :: post →
      ∃ c : Context, ∀ r : Reply × World, r = w.call drv ⟨.conn cn.cn, .prepare c.Query⟩ →
        Conn.PrepareContext drv w cn query =
          some ⟨if r.1.err = none then some ⟨r.1.val, cn.mdws, query⟩ else none, e,
            { r.2 with ran := w.ran ++ List.range (pre.length + post.length + 2) }⟩) ∧
    (fnHndl w cn.mdws FN_Query = pre ++ hk :: post →
      ∃ c : Context, ∀ r : Reply × World, r = w.call drv ⟨.conn cn.cn, .query c.Query c.Args⟩ →
        Conn.QueryContext drv w cn query args =
          some ⟨if r.1.err = none then r.1.val else none, e,
            { r.2 with ran := w.ran ++ List.range (pre.length + post.length + 2) }⟩) ∧
    (fnHndl w tx.mdws FN_Commit = pre ++ hk :: post →
      ∀ r : Reply × World, r = w.call drv ⟨.tx tx.tx, .commit⟩ →
        Tx.CommitContext drv w tx =
          some ⟨e, { r.2 with ran := w.ran ++ List.range (pre.length + post.length + 2) }⟩) ∧
    (fnHndl w tx.mdws FN_Rollback = pre ++ hk :: post →
      ∀ r : Reply × World, r = w.call drv ⟨.tx tx.tx, .rollback⟩ →
        Tx.RollbackContext drv w tx =
          some ⟨e, { r.2 with ran := w.ran ++ List.range (pre.length + post.length + 2) }⟩) ∧
    (fnHndl w tx.mdws FN_Exec = pre ++ hk :: post →
      ∃ c : Context, ∀ r : Reply × World, r = w.call drv ⟨.tx tx.tx, .exec c.Query c.Args⟩ →
        Tx.ExecContext drv w tx query args =
          some ⟨if r.1.err = none then r.1.val else none, e,
            { r.2 with ran := w.ran ++ List.range (pre.length + post.length + 2) }⟩) ∧
    (fnHndl w tx.mdws FN_Prepare = pre ++ hk :: post →
      ∃ c : Context, ∀ r : Reply × World, r = w.call drv ⟨.tx tx.tx, .prepare c.Query⟩ →
        Tx.PrepareContext drv w tx query =
          some ⟨if r.1.err = none then some ⟨r.1.val, tx.mdws, query⟩ else none, e,
            { r.2 with ran := w.ran ++ List.range (pre.length + post.length + 2) }⟩) ∧
    (fnHndl w tx.mdws FN_Query = pre ++ hk :: post →
      ∃ c : Context, ∀ r : Reply × World, r = w.call drv ⟨.tx tx.tx, .query c.Query c.Args⟩ →
        Tx.QueryContext drv w tx query args =
          some ⟨if r.1.err = none then r.1.val else none, e,
            { r.2 with ran := w.ran ++ List.range (pre.length + post.length + 2) }⟩) ∧
    (fnHndl w st.mdws FN_Exec = pre ++ hk :: post →
      ∃ c : Context, ∀ r : Reply × World, r = w.call drv ⟨.stmt st.st, .stmtExec c.Args⟩ →
        Stmt.ExecContext drv w st args =
          some ⟨if r.1.err = none then r.1.val else none, e,
            { r.2 with ran := w.ran ++ List.range (pre.length + post.length + 2) }⟩) ∧
    (fnHndl w st.mdws FN_Query = pre ++ hk :: post →
      ∃ c : Context, ∀ r : Reply × World, r = w.call drv ⟨.stmt st.st, .stmtQuery c.Args⟩ →
        Stmt.QueryContext drv w st args =
          some ⟨if r.1.err = none then r.1.val else none, e,
            { r.2 with ran := w.ran ++ List.range (pre.length + post.length + 2) }⟩) := by
  refine ⟨?_, ?_, ?_, ?_, ?_, ?_, ?_, ?_, ?_, ?_, ?_, ?_, ?_, ?_, ?_, ?_, ?_⟩ <;>
    intro h <;>
    first
    | refine exists_forall_eq ?_
    | refine forall_eq_of ?_
  all_goals
    simp only [DB.BeginTx, DB.ExecContext, DB.PingContext, DB.PrepareContext, DB.QueryContext,
      Conn.BeginTx, Conn.ExecContext, Conn.PingContext, Conn.PrepareContext, Conn.QueryContext,
      Tx.CommitContext, Tx.RollbackContext, Tx.ExecContext, Tx.PrepareContext, Tx.QueryContext,
      Stmt.ExecContext, Stmt.QueryContext,
      length_ne_zero_of_mid h, if_false]
    first
    | refine chain_fail_pass_ctx hpre hv hpost h fun s₁ t h1 h2 h3 hf => ?_
    | refine chain_fail_pass_map hpre hv hpost h fun s₁ t h1 h2 h3 hf => ?_
  all_goals
    obtain ⟨f1, f2, f3, -⟩ := hf
    simp only [Context.fsterr, f1, f2, f3, World.call, h1, h2, h3, Context.Error]
    split <;> simp_all

/-- C8 on a chain of three handlers, the second of which records "audit failed"
and passes on: the driver is called once, its result is returned, and so is
the recorded error. -/
theorem C8_fail_then_pass_continues_witness :
    ∃ r, DB.ExecContext sqlDriver (worldWith FN_Exec [passHandler, auditHandler, passHandler]) 0
        "INSERT" [Any.int 5] = some r ∧
      r.res = some 0 ∧ r.err = some "audit failed" ∧ r.w.log.length = 1 ∧
      r.w.ran = [0, 1, 2, 3] :=
  ((C8_fail_then_pass_continues sqlDriver
      (worldWith FN_Exec [passHandler, auditHandler, passHandler]) 0 ⟨some 3, 0⟩ tx1
      ⟨some 2, 0, "q"⟩ none "INSERT" [Any.int 5] [passHandler] [passHandler] auditHandler
      (some "audit failed")
      (fun p hp => by
        rw [List.mem_singleton] at hp
        subst hp
        exact handler.Advance.next handler.Quiet.ret)
      (handler.Advance.error _ (handler.Advance.next handler.Quiet.ret))
      (fun p hp => by
        rw [List.mem_singleton] at hp
        subst hp
        exact handler.Advance.next handler.Quiet.ret)).2.1 rfl).elim
    fun _ hc => ⟨_, hc _ rfl, rfl, rfl, rfl, rfl⟩

/-! ## C5: rewriting the query and the arguments -/

theorem applyRewrites_mdwIdx (fs : List (View → String × List Any)) :
    ∀ (c : Context) (k : Nat),
      applyRewrites fs { c with mdwIdx := k } = { applyRewrites fs c with mdwIdx := k } := by
  induction fs with
  | nil => intro c k; rfl
  | cons f fs ih =>
    intro c k
    simp only [applyRewrites, List.foldl_cons] at ih ⊢
    exact ih { c with Query := (f c.view).1, Args := (f c.view).2 } k

theorem applyRewrites_errs (fs : List (View → String × List Any)) :
    ∀ c : Context, (applyRewrites fs c).errs = c.errs := by
  induction fs with
  | nil => intro c; rfl
  | cons f fs ih =>
    intro c
    simp only [applyRewrites, List.foldl_cons] at ih ⊢
    exact ih { c with Query := (f c.view).1, Args := (f c.view).2 }

theorem applyRewrites_cons (f : View → String × List Any)
    (fs : List (View → String × List Any)) (c : Context) :
    applyRewrites (f :: fs) c =
      applyRewrites fs { c with Query := (f c.view).1, Args := (f c.view).2 } := rfl

/-- A chain of rewriters, started at cursor `j`: `Next` returns what the terminal
action returns on the context rewritten by the handlers from `j` on. -/
theorem Context.Next_rewriters {ρ : Type} (fn : Run ρ → Run ρ)
    (fs : List (View → String × List Any)) :
    ∀ (d j fuel : Nat) (s : Run ρ), j + d = fs.length → s.ctx.mdws = fs.map rewriter →
      s.ctx.mdwIdx = j → d < fuel →
      Context.Next fn fuel s =
        some (fn ⟨{ applyRewrites (fs.drop j) s.ctx with mdwIdx := fs.length + 1 },
          { s.w with ran := s.w.ran ++ List.range' j (d + 1) }, s.out⟩) := by
  intro d
  induction d with
  | zero =>
    intro j fuel s hj hm hi hf
    obtain ⟨f, rfl⟩ : ∃ f, fuel = f + 1 := ⟨fuel - 1, by omega⟩
    have hge : s.ctx.mdws.length ≤ s.ctx.mdwIdx := by rw [hm, hi]; simp; omega
    have hjl : j = fs.length := by omega
    rw [Context.Next_terminal fn f s hge]
    subst hjl
    simp [applyRewrites, hi]
  | succ d ih =>
    intro j fuel s hj hm hi hf
    obtain ⟨f, rfl⟩ : ∃ f, fuel = f + 1 := ⟨fuel - 1, by omega⟩
    have hlt : j < fs.length := by omega
    have hget : s.ctx.mdws[s.ctx.mdwIdx]? = some (rewriter fs[j]) := by
      rw [hm, hi]; simp [List.getElem?_eq_getElem hlt]
    rw [Context.Next_handler fn f s hget]
    have key := ih (j + 1) f
      ⟨{ s.ctx with Query := (fs[j] s.ctx.view).1, Args := (fs[j] s.ctx.view).2,
                    mdwIdx := s.ctx.mdwIdx + 1 },
        { s.w with ran := s.w.ran ++ [s.ctx.mdwIdx] }, s.out⟩
      (by omega) hm (by simp [hi]) (by omega)
    have hc := applyRewrites_mdwIdx (fs.drop (j + 1))
      { s.ctx with Query := (fs[j] s.ctx.view).1, Args := (fs[j] s.ctx.view).2 }
      (s.ctx.mdwIdx + 1)
    have hr : (s.w.ran ++ [s.ctx.mdwIdx]) ++ List.range' (j + 1) (d + 1) =
        s.w.ran ++ List.range' j (d + 1 + 1) := by
      rw [hi, List.range'_succ j (d + 1)]; simp
    change Option.bind (Context.Next fn f _) _ = _
    simp only [Option.bind_eq_some]
    refine ⟨_, key, ?_⟩
    rw [List.drop_eq_getElem_cons hlt, applyRewrites_cons]
    show some (fn ⟨{ applyRewrites (fs.drop (j + 1))
        { s.ctx with Query := (fs[j] s.ctx.view).1, Args := (fs[j] s.ctx.view).2,
                     mdwIdx := s.ctx.mdwIdx + 1 } with mdwIdx := fs.length + 1 },
        { s.w with ran := (s.w.ran ++ [s.ctx.mdwIdx]) ++ List.range' (j + 1) (d + 1) },
        s.out⟩) = _
    rw [hc, hr]

theorem length_ne_zero_of_map {l : List handler} {fs : List (View → String × List Any)}
    (h : l = fs.map rewriter) (hne : fs ≠ []) : ¬ l.length = 0 := by
  rw [h]; simpa using hne

/-- A chain of rewriters run from a fresh context. -/
theorem chain_rewriters {ρ : Type} (fn : Run ρ → Run ρ) (fs : List (View → String × List Any))
    (funct : Function) (source : Source) (query : String) (args : List Any) (w : World)
    {mdws : List handler} (hm : mdws = fs.map rewriter) :
    Context.Next fn (mdws.length + 1) ⟨newContext funct source query args mdws, w, none⟩ =
      some (fn ⟨{ applyRewrites fs (newContext funct source query args mdws) with
                  mdwIdx := fs.length + 1 },
        { w with ran := w.ran ++ List.range (fs.length + 1) }, none⟩) := by
  have h := Context.Next_rewriters fn fs fs.length 0 (mdws.length + 1)
    ⟨newContext funct source query args mdws, w, none⟩ (by simp) hm rfl
    (by rw [hm]; simp)
  rw [h, List.drop_zero, List.range_eq_range']

/-- The query a chain of handlers leaves when handler `i` sets it to `qs[i]`: the
last one. -/
theorem applyRewrites_const_query (qs : List String) (hq : qs ≠ []) :
    ∀ c : Context,
      (applyRewrites (qs.map fun q v => (q, v.Args)) c).Query = qs.getLast hq ∧
      (applyRewrites (qs.map fun q v => (q, v.Args)) c).Args = c.Args := by
  induction qs with
  | nil => exact absurd rfl hq
  | cons q qs ih =>
    intro c
    cases qs with
    | nil => exact ⟨rfl, rfl⟩
    | cons q' qs' =>
      rw [List.map_cons, applyRewrites_cons, List.getLast_cons (List.cons_ne_nil q' qs')]
      exact ih (List.cons_ne_nil q' qs') _

/-- C5.  The handlers registered for the kind are `fs.map rewriter`, `N =
fs.length ≥ 1` handlers that each set `Query` and `Args` (to values that may
depend on what they read, so either may also be left as it is) and then call
`Next`.  Then `ExecContext` and `QueryContext` on `DB`, `Conn` and `Tx` call the
driver exactly once (`r`), with the query and the arguments of the context `c`
as the last handler left them (`applyRewrites`), and return the reply.  When handler
`i` sets the query to `qs[i]`, that query is the last of `qs`, not the one of
the caller.  With the single handler that adds one to the first argument, a call
with the arguments `[5]` reaches the driver with `[6]`. -/
theorem C5_driver_gets_rewritten_call (drv : Driver) (w : World) (db : Nat) (cn : Conn)
    (tx : Tx) (query : String) (args : List Any) (fs : List (View → String × List Any))
    (hne : fs ≠ []) :
    ((w.heap db).mdws FN_Exec = fs.map rewriter →
      ∀ (c : Context) (r : Reply × World),
        c = applyRewrites fs (newContext FN_Exec SRC_Database query args (fs.map rewriter)) →
        r = w.call drv ⟨.db (w.heap db).db, .exec c.Query c.Args⟩ →
        DB.ExecContext drv w db query args =
          some ⟨if r.1.err = none then r.1.val else none, r.1.err,
            { r.2 with ran := w.ran ++ List.range (fs.length + 1) }⟩) ∧
    ((w.heap db).mdws FN_Query = fs.map rewriter →
      ∀ (c : Context) (r : Reply × World),
        c = applyRewrites fs (newContext FN_Query SRC_Database query args (fs.map rewriter)) →
        r = w.call drv ⟨.db (w.heap db).db, .query c.Query c.Args⟩ →
        DB.QueryContext drv w db query args =
          some ⟨if r.1.err = none then r.1.val else none, r.1.err,
            { r.2 with ran := w.ran ++ List.range (fs.length + 1) }⟩) ∧
    (fnHndl w cn.mdws FN_Exec = fs.map rewriter →
      ∀ (c : Context) (r : Reply × World),
        c = applyRewrites fs (newContext FN_Exec SRC_Connection query args (fs.map rewriter)) →
        r = w.call drv ⟨.conn cn.cn, .exec c.Query c.Args⟩ →
        Conn.ExecContext drv w cn query args =
          some ⟨if r.1.err = none then r.1.val else none, r.1.err,
            { r.2 with ran := w.ran ++ List.range (fs.length + 1) }⟩) ∧
    (fnHndl w cn.mdws FN_Query = fs.map rewriter →
      ∀ (c : Context) (r : Reply × World),
        c = applyRewrites fs (newContext FN_Query SRC_Connection query args (fs.map rewriter)) →
        r = w.call drv ⟨.conn cn.cn, .query c.Query c.Args⟩ →
        Conn.QueryContext drv w cn query args =
          some ⟨if r.1.err = none then r.1.val else none, r.1.err,
            { r.2 with ran := w.ran ++ List.range (fs.length + 1) }⟩) ∧
    (fnHndl w tx.mdws FN_Exec = fs.map rewriter →
      ∀ (c : Context) (r : Reply × World),
        c = applyRewrites fs (newContext FN_Exec SRC_Transaction query args (fs.map rewriter)) →
        r = w.call drv ⟨.tx tx.tx, .exec c.Query c.Args⟩ →
        Tx.ExecContext drv w tx query args =
          some ⟨if r.1.err = none then r.1.val else none, r.1.err,
            { r.2 with ran := w.ran ++ List.range (fs.length + 1) }⟩) ∧
    (fnHndl w tx.mdws FN_Query = fs.map rewriter →
      ∀ (c : Context) (r : Reply × World),
        c = applyRewrites fs (newContext FN_Query SRC_Transaction query args (fs.map rewriter)) →
        r = w.call drv ⟨.tx tx.tx, .query c.Query c.Args⟩ →
        Tx.QueryContext drv w tx query args =
          some ⟨if r.1.err = none then r.1.val else none, r.1.err,
            { r.2 with ran := w.ran ++ List.range (fs.length + 1) }⟩) ∧
    (∀ (qs : List String) (hq : qs ≠ []) (c : Context),
      (applyRewrites (qs.map fun q v => (q, v.Args)) c).Query = qs.getLast hq ∧
      (applyRewrites (qs.map fun q v => (q, v.Args)) c).Args = c.Args) ∧
    ((w.heap db).mdws FN_Exec = [bumpHandler] →
      ∃ r, DB.ExecContext drv w db query [Any.int 5] = some r ∧
        r.w.log = w.log ++ [⟨.db (w.heap db).db, .exec query [Any.int 6]⟩]) := by
  refine ⟨?_, ?_, ?_, ?_, ?_, ?_, applyRewrites_const_query, ?_⟩
  case refine_7 =>
    intro h
    have hl : ¬ ((w.heap db).mdws FN_Exec).length = 0 := by rw [h]; simp
    have hm : (w.heap db).mdws FN_Exec = [fun v => (v.Query, bumpFirst v.Args)].map rewriter := h
    simp only [DB.ExecContext, hl, if_false]
    rw [chain_rewriters _ _ _ _ _ _ _ hm]
    refine ⟨_, rfl, ?_⟩
    simp only [World.call, applyRewrites, List.foldl, newContext, Context.view, Context.Query,
      Context.Args, bumpFirst]
    split <;> rfl
  all_goals
    intro h c r hc hr
    subst hc hr
    simp only [DB.ExecContext, DB.QueryContext, Conn.ExecContext, Conn.QueryContext,
      Tx.ExecContext, Tx.QueryContext, length_ne_zero_of_map h hne, if_false]
    rw [chain_rewriters _ _ _ _ _ _ _ h]
    simp only [Option.map_some', World.call, Context.fsterr, Context.Error, applyRewrites_errs,
      newContext, h]
    split <;> simp_all

/-- C5 on the scenario of the specification: one handler on `FN_Exec` adds one to
the first argument; `ExecContext` with `[5]` calls the driver with `[6]`. -/
theorem C5_driver_gets_rewritten_call_witness :
    DB.ExecContext sqlDriver (worldWith FN_Exec [bumpHandler]) 0 "UPDATE" [Any.int 5] =
      some ⟨some 0, none,
        { worldWith FN_Exec [bumpHandler] with
          log := [⟨.db (some 0), .exec "UPDATE" [Any.int 6]⟩], ran := [0, 1] }⟩ :=
  (C5_driver_gets_rewritten_call sqlDriver (worldWith FN_Exec [bumpHandler]) 0 ⟨some 3, 0⟩ tx1
    "UPDATE" [Any.int 5] [fun v => (v.Query, bumpFirst v.Args)] (List.cons_ne_nil _ _)).1 rfl
    _ _ rfl rfl

/-! ## C4: the first recorded error wins -/

/-- A handler that records `l` and then calls `Next`: it calls `Next` on a state
whose error list has grown by `l`, and whatever it does afterwards it returns,
having only moved the cursor forward and appended errors. -/
theorem ThenNext_run {ρ : Type} {l : List Sqlm.error} {p : handler} (hp : p.ThenNext l)
    (next : Run ρ → Option (Run ρ)) (m : List handler) (c : Nat)
    (hnext : ∀ s, c ≤ s.ctx.mdwIdx → s.ctx.mdws = m → ∃ t, next s = some t ∧ s.mono t)
    (s : Run ρ) (hc : c ≤ s.ctx.mdwIdx) (hm : s.ctx.mdws = m) :
    ∃ s₁, ({ s with ctx := { s.ctx with errs := s.ctx.errs ++ l } } : Run ρ).frame s₁ ∧
      ∀ t, next s₁ = some t → s₁.mono t → ∃ u, p.run next s = some u ∧ t.mono u := by
  induction hp generalizing s with
  | next k =>
    refine ⟨s, ⟨rfl, rfl, by simp, rfl, rfl, rfl, rfl⟩, fun t ht hmono => ?_⟩
    obtain ⟨u, hu, h⟩ := handler.run_mono next m c hnext k t (hc.trans hmono.1)
      (hmono.2.1.trans hm)
    exact ⟨u, by simp [handler.run, ht, hu], h⟩
  | error e _ ih =>
    obtain ⟨s₁, ⟨a1, a2, a3, a4, a5, a6, a7⟩, h⟩ := ih { s with ctx := s.ctx.Error e } hc hm
    exact ⟨s₁, ⟨a1, a2, by rw [a3]; simp [Context.Error], a4, a5, a6, a7⟩, h⟩
  | setQuery q _ ih =>
    obtain ⟨s₁, hf, h⟩ := ih { s with ctx := { s.ctx with Query := q } } hc hm
    exact ⟨s₁, Run.frame_trans ⟨rfl, rfl, rfl, rfl, rfl, rfl, rfl⟩ hf, h⟩
  | setArgs a _ ih =>
    obtain ⟨s₁, hf, h⟩ := ih { s with ctx := { s.ctx with Args := a } } hc hm
    exact ⟨s₁, Run.frame_trans ⟨rfl, rfl, rfl, rfl, rfl, rfl, rfl⟩ hf, h⟩
  | set key val _ ih =>
    obtain ⟨s₁, hf, h⟩ := ih { s with ctx := s.ctx.Set key val } hc hm
    exact ⟨s₁, Run.frame_trans ⟨rfl, rfl, rfl, rfl, rfl, rfl, rfl⟩ hf, h⟩
  | delete key _ ih =>
    obtain ⟨s₁, hf, h⟩ := ih { s with ctx := s.ctx.Delete key } hc hm
    exact ⟨s₁, Run.frame_trans ⟨rfl, rfl, rfl, rfl, rfl, rfl, rfl⟩ hf, h⟩
  | read _ ih => exact ih s.ctx.view s hc hm

/-- A chain that starts with handlers which record and then call `Next`, followed
by any handlers at all.  `Next` returns, and the error list it leaves starts
with the errors those first handlers recorded, in registration order. -/
theorem Context.Next_thenNext {ρ : Type} {fn : Run ρ → Run ρ} (hfn : Terminal fn)
    (hl : List (handler × List error)) (rest : List handler)
    (hrec : ∀ x ∈ hl, x.1.ThenNext x.2) :
    ∀ (d j fuel : Nat) (s : Run ρ), j + d = hl.length →
      s.ctx.mdws = hl.map Prod.fst ++ rest → s.ctx.mdwIdx = j →
      1 ≤ fuel → s.ctx.mdws.length + 1 ≤ fuel + j →
      ∃ t, Context.Next fn fuel s = some t ∧ s.mono t ∧
        (s.ctx.errs ++ ((hl.drop j).map Prod.snd).flatten) <+: t.ctx.errs := by
  intro d
  induction d with
  | zero =>
    intro j fuel s hj hm hi h1 hfuel
    obtain ⟨t, ht, -, hmono⟩ := Context.Next_total hfn fuel s h1 (by rw [hi]; exact hfuel)
    refine ⟨t, ht, hmono, ?_⟩
    have : j = hl.length := by omega
    subst this
    simpa using hmono.2.2
  | succ d ih =>
    intro j fuel s hj hm hi h1 hfuel
    obtain ⟨f, rfl⟩ : ∃ f, fuel = f + 1 := ⟨fuel - 1, by omega⟩
    have hlt : j < hl.length := by omega
    have hlen : s.ctx.mdws.length = hl.length + rest.length := by rw [hm]; simp
    have hget : s.ctx.mdws[s.ctx.mdwIdx]? = some hl[j].1 := by
      rw [hm, hi, List.getElem?_append_left (by simpa using hlt)]
      simp [List.getElem?_eq_getElem hlt]
    rw [Context.Next_handler fn f s hget]
    have hnext : ∀ s' : Run ρ, j + 1 ≤ s'.ctx.mdwIdx → s'.ctx.mdws = s.ctx.mdws →
        ∃ t, Context.Next fn f s' = some t ∧ s'.mono t := by
      intro s' hc hm'
      obtain ⟨t, ht, -, h⟩ := Context.Next_total hfn f s' (by omega) (by rw [hm']; omega)
      exact ⟨t, ht, h⟩
    obtain ⟨s₁, ⟨a1, a2, a3, a4, a5, a6, a7⟩, hrun⟩ :=
      ThenNext_run (hrec _ (List.getElem_mem hlt)) (Context.Next fn f) s.ctx.mdws (j + 1) hnext
        { s with ctx := { s.ctx with mdwIdx := s.ctx.mdwIdx + 1 },
                 w := { s.w with ran := s.w.ran ++ [s.ctx.mdwIdx] } }
        (by simp [hi]) rfl
    have a3' : s₁.ctx.errs = s.ctx.errs ++ hl[j].2 := a3
    have a4' : s₁.ctx.mdwIdx = s.ctx.mdwIdx + 1 := a4
    have a5' : s₁.ctx.mdws = s.ctx.mdws := a5
    obtain ⟨t, ht, hmono, hpre⟩ := ih (j + 1) f s₁ (by omega) (by rw [a5']; exact hm)
      (by rw [a4', hi]) (by omega) (by rw [a5']; omega)
    obtain ⟨u, hu, hmu⟩ := hrun t ht hmono
    have key : ((hl.drop j).map Prod.snd).flatten =
        hl[j].2 ++ ((hl.drop (j + 1)).map Prod.snd).flatten := by
      rw [List.drop_eq_getElem_cons hlt]; rfl
    refine ⟨u, hu, ?_, ?_⟩
    · refine ⟨?_, hmu.2.1.trans (hmono.2.1.trans a5'), ?_⟩
      · have := hmono.1.trans hmu.1
        omega
      · have := hmono.2.2.trans hmu.2.2
        rw [a3'] at this
        exact (List.prefix_append _ _).trans this
    · rw [key, ← List.append_assoc]
      rw [a3'] at hpre
      exact hpre.trans hmu.2.2

/-- The chain of C4 run from a fresh context: `Next` returns and the error list
starts with `ei`, `ej`. -/
theorem chain_two_errors {ρ : Type} {fn : Run ρ → Run ρ} (hfn : Terminal fn)
    {pre mid rest : List handler} {hi hj : handler} {ei ej : error}
    (hpre : ∀ p ∈ pre, p.ThenNext []) (hhi : hi.ThenNext [ei])
    (hmid : ∀ p ∈ mid, p.ThenNext []) (hhj : hj.ThenNext [ej])
    (funct : Function) (source : Source) (query : String) (args : List Any) (w : World)
    {mdws : List handler} (hm : mdws = pre ++ hi :: (mid ++ hj :: rest)) :
    ∃ t tail,
      Context.Next fn (mdws.length + 1) ⟨newContext funct source query args mdws, w, none⟩
        = some t ∧ t.ctx.errs = ei :: ej :: tail := by
  have hfst : (pre.map (fun p => (p, ([] : List error))) ++ (hi, [ei]) ::
      (mid.map (fun p => (p, ([] : List error))) ++ [(hj, [ej])])).map Prod.fst ++ rest
      = mdws := by
    rw [hm]; simp [Function.comp_def]
  have hsnd : ((pre.map (fun p => (p, ([] : List error))) ++ (hi, [ei]) ::
      (mid.map (fun p => (p, ([] : List error))) ++ [(hj, [ej])])).map Prod.snd).flatten
      = [ei, ej] := by
    simp [Function.comp_def]
  obtain ⟨t, ht, -, hp⟩ :=
    Context.Next_thenNext hfn
      (pre.map (fun p => (p, ([] : List error))) ++ (hi, [ei]) ::
        (mid.map (fun p => (p, ([] : List error))) ++ [(hj, [ej])])) rest
      (by
        intro x hx
        simp only [List.mem_append, List.mem_cons, List.mem_map, List.mem_singleton,
          List.not_mem_nil, or_false] at hx
        rcases hx with ⟨p, hp, rfl⟩ | rfl | ⟨p, hp, rfl⟩ | rfl
        · exact hpre p hp
        · exact hhi
        · exact hmid p hp
        · exact hhj)
      _ 0 (mdws.length + 1) ⟨newContext funct source query args mdws, w, none⟩
      (Nat.zero_add _) hfst.symm rfl (by omega) (by simp [newContext])
  rw [List.drop_zero, hsnd] at hp
  obtain ⟨tail, htail⟩ := hp
  exact ⟨t, tail, ht, by rw [← htail]; rfl⟩

/-- The same, seen through the last lines of a wrapper. -/
theorem chain_two_errors_map {ρ α : Type} {fn : Run ρ → Run ρ} (hfn : Terminal fn)
    {pre mid rest : List handler} {hi hj : handler} {ei ej : error}
    (hpre : ∀ p ∈ pre, p.ThenNext []) (hhi : hi.ThenNext [ei])
    (hmid : ∀ p ∈ mid, p.ThenNext []) (hhj : hj.ThenNext [ej])
    {funct : Function} {source : Source} {query : String} {args : List Any} {w : World}
    {mdws : List handler} (hm : mdws = pre ++ hi :: (mid ++ hj :: rest)) {g : Run ρ → α}
    {Q : α → Prop} (hQ : ∀ (t : Run ρ) tail, t.ctx.errs = ei :: ej :: tail → Q (g t)) :
    ∃ r, (Context.Next fn (mdws.length + 1)
        ⟨newContext funct source query args mdws, w, none⟩).map g = some r ∧ Q r := by
  obtain ⟨t, tail, ht, he⟩ :=
    chain_two_errors hfn hpre hhi hmid hhj funct source query args w hm
  exact ⟨g t, by rw [ht]; rfl, hQ t tail he⟩

/-- C4.  The handlers registered for the kind are `pre ++ hi :: (mid ++ hj ::
rest)`: handler `hi` records `ei` and then calls `Next`, the later handler `hj`
records `ej` and then calls `Next`; the handlers before `hi` and between the
two call `Next` without having recorded anything; what any of them does after
its `Next` returns, and what the handlers of `rest` and the terminal action do,
is arbitrary.  `Error` appends at the end of `Errors()`.  For every terminal
action that at most appends errors, `Next` returns, `Errors()` starts with `ei`
and then `ej`, and `fsterr` is `ei`.  Every wrapper returns the error `ei`. -/
theorem C4_first_recorded_error_wins (drv : Driver) (w : World) (db : Nat) (cn : Conn)
    (tx : Tx) (st : Stmt) (opts : Option TxOptions) (query : String) (args : List Any)
    (pre mid rest : List handler) (hi hj : handler) (ei ej : error)
    (hpre : ∀ p ∈ pre, p.ThenNext []) (hhi : hi.ThenNext [ei])
    (hmid : ∀ p ∈ mid, p.ThenNext []) (hhj : hj.ThenNext [ej]) :
    (∀ (c : Context) (e : error), (c.Error e).Errors = c.Errors ++ [e]) ∧
    (∀ (ρ : Type) (fn : Run ρ → Run ρ), Terminal fn →
      ∀ (funct : Function) (source : Source),
      ∃ t tail,
        Context.Next fn ((pre ++ hi :: (mid ++ hj :: rest)).length + 1)
          ⟨newContext funct source query args (pre ++ hi :: (mid ++ hj :: rest)), w, none⟩
          = some t ∧ t.ctx.Errors = ei :: ej :: tail ∧ t.ctx.fsterr = ei) ∧
    ((w.heap db).mdws FN_Begin = pre ++ hi :: (mid ++ hj :: rest) →
      ∃ r, DB.BeginTx drv w db opts = some r ∧ r.err = ei) ∧
    ((w.heap db).mdws FN_Exec = pre ++ hi :: (mid ++ hj :: rest) →
      ∃ r, DB.ExecContext drv w db query args = some r ∧ r.err = ei) ∧
    ((w.heap db).mdws FN_Ping = pre ++ hi :: (mid ++ hj :: rest) →
      ∃ r, DB.PingContext drv w db = some r ∧ r.err = ei) ∧
    ((w.heap db).mdws FN_Prepare = pre ++ hi :: (mid ++ hj :: rest) →
      ∃ r, DB.PrepareContext drv w db query = some r ∧ r.err = ei) ∧
    ((w.heap db).mdws FN_Query = pre ++ hi :: (mid ++ hj :: rest) →
      ∃ r, DB.QueryContext drv w db query args = some r ∧ r.err = ei) ∧
    (fnHndl w cn.mdws FN_Begin = pre ++ hi :: (mid ++ hj :: rest) →
      ∃ r, Conn.BeginTx drv w cn opts = some r ∧ r.err = ei) ∧
    (fnHndl w cn.mdws FN_Exec = pre ++ hi :: (mid ++ hj :: rest) →
      ∃ r, Conn.ExecContext drv w cn query args = some r ∧ r.err = ei) ∧
    (fnHndl w cn.mdws FN_Ping = pre ++ hi :: (mid ++ hj :: rest) →
      ∃ r, Conn.PingContext drv w cn = some r ∧ r.err = ei) ∧
    (fnHndl w cn.mdws FN_Prepare = pre ++ hi :: (mid ++ hj :: rest) →
      ∃ r, Conn.PrepareContext drv w cn query = some r ∧ r.err = ei) ∧
    (fnHndl w cn.mdws FN_Query = pre ++ hi :: (mid ++ hj :: rest) →
      ∃ r, Conn.QueryContext drv w cn query args = some r ∧ r.err = ei) ∧
    (fnHndl w tx.mdws FN_Commit = pre ++ hi :: (mid ++ hj :: rest) →
      ∃ r, Tx.CommitContext drv w tx = some r ∧ r.err = ei) ∧
    (fnHndl w tx.mdws FN_Rollback = pre ++ hi :: (mid ++ hj :: rest) →
      ∃ r, Tx.RollbackContext drv w tx = some r ∧ r.err = ei) ∧
    (fnHndl w tx.mdws FN_Exec = pre ++ hi :: (mid ++ hj :: rest) →
      ∃ r, Tx.ExecContext drv w tx query args = some r ∧ r.err = ei) ∧
    (fnHndl w tx.mdws FN_Prepare = pre ++ hi :: (mid ++ hj :: rest) →
      ∃ r, Tx.PrepareContext drv w tx query = some r ∧ r.err = ei) ∧
    (fnHndl w tx.mdws FN_Query = pre ++ hi :: (mid ++ hj :: rest) →
      ∃ r, Tx.QueryContext drv w tx query args = some r ∧ r.err = ei) ∧
    (fnHndl w st.mdws FN_Exec = pre ++ hi :: (mid ++ hj :: rest) →
      ∃ r, Stmt.ExecContext drv w st args = some r ∧ r.err = ei) ∧
    (fnHndl w st.mdws FN_Query = pre ++ hi :: (mid ++ hj :: rest) →
      ∃ r, Stmt.QueryContext drv w st args = some r ∧ r.err = ei) := by
  refine ⟨fun _ _ => rfl, ?_,
    ?_, ?_, ?_, ?_, ?_, ?_, ?_, ?_, ?_, ?_, ?_, ?_, ?_, ?_, ?_, ?_, ?_⟩
  · intro ρ fn hfn funct source
    obtain ⟨t, tail, ht, he⟩ :=
      chain_two_errors hfn hpre hhi hmid hhj funct source query args w rfl
    exact ⟨t, tail, ht, he, by simp [Context.fsterr, he]⟩
  all_goals
    intro h
    simp only [DB.BeginTx, DB.ExecContext, DB.PingContext, DB.PrepareContext, DB.QueryContext,
      Conn.BeginTx, Conn.ExecContext, Conn.PingContext, Conn.PrepareContext, Conn.QueryContext,
      Tx.CommitContext, Tx.RollbackContext, Tx.ExecContext, Tx.PrepareContext, Tx.QueryContext,
      Stmt.ExecContext, Stmt.QueryContext,
      length_ne_zero_of_mid h, if_false]
    refine chain_two_errors_map ?_ hpre hhi hmid hhj h fun t tail he => ?_
    · intro s
      dsimp only
      split <;> exact ⟨rfl, rfl, by simp [Context.Error]⟩
    · simp [Context.fsterr, he]

/-- C4 on a chain of five handlers: the second records "first", the fourth
records "second" and later "late", the fifth records "permission denied" and
stops.  `ExecContext` returns "first". -/
theorem C4_first_recorded_error_wins_witness :
    ∃ r, DB.ExecContext sqlDriver
        (worldWith FN_Exec [passHandler, firstFail, passHandler, secondFail, denyHandler]) 0
        "INSERT" [] = some r ∧ r.err = some "first" :=
  (C4_first_recorded_error_wins sqlDriver
    (worldWith FN_Exec [passHandler, firstFail, passHandler, secondFail, denyHandler]) 0
    ⟨some 3, 0⟩ tx1 ⟨some 2, 0, "q"⟩ none "INSERT" [] [passHandler] [passHandler] [denyHandler]
    firstFail secondFail (some "first") (some "second")
    (fun p hp => by
      rw [List.mem_singleton] at hp
      subst hp
      exact handler.ThenNext.next _)
    (handler.ThenNext.error _ (handler.ThenNext.next _))
    (fun p hp => by
      rw [List.mem_singleton] at hp
      subst hp
      exact handler.ThenNext.next _)
    (handler.ThenNext.error _ (handler.ThenNext.next _))).2.2.2.1 rfl

/-! ## C6: derived objects use the registry of their client -/

/-- A handler changes neither the result variable nor the heap, so a property of
the two that `next` preserves is preserved by the handler. -/
theorem handler.run_keeps {ρ : Type} (I : Option ρ → (Nat → DB) → Prop)
    (next : Run ρ → Option (Run ρ))
    (hnext : ∀ s t, next s = some t → I s.out s.w.heap → I t.out t.w.heap) (p : handler) :
    ∀ s t, p.run next s = some t → I s.out s.w.heap → I t.out t.w.heap := by
  induction p with
  | ret =>
    intro s t h hI
    simp only [handler.run, Option.some.injEq] at h
    subst h; exact hI
  | setQuery q k ih => exact fun s t h hI => ih _ t h hI
  | setArgs a k ih => exact fun s t h hI => ih _ t h hI
  | set key val k ih => exact fun s t h hI => ih _ t h hI
  | delete key k ih => exact fun s t h hI => ih _ t h hI
  | error e k ih => exact fun s t h hI => ih _ t h hI
  | next k ih =>
    intro s t h hI
    simp only [handler.run, Option.bind_eq_some] at h
    obtain ⟨s', hs', hk⟩ := h
    exact ih s' t hk (hnext s s' hs' hI)
  | read f ih => exact fun s t h hI => ih _ s t h hI

/-- A property of the result variable and the heap that the terminal action
preserves is preserved by `Next`. -/
theorem Context.Next_keeps {ρ : Type} {fn : Run ρ → Run ρ} (I : Option ρ → (Nat → DB) → Prop)
    (hfn : ∀ s, I s.out s.w.heap → I (fn s).out (fn s).w.heap) :
    ∀ (fuel : Nat) (s t : Run ρ), Context.Next fn fuel s = some t → I s.out s.w.heap →
      I t.out t.w.heap := by
  intro fuel
  induction fuel with
  | zero => intro s t h; simp [Context.Next] at h
  | succ f ih =>
    intro s t h hI
    by_cases hlt : s.ctx.mdwIdx < s.ctx.mdws.length
    · rw [Context.Next_handler fn f s (List.getElem?_eq_getElem hlt)] at h
      exact handler.run_keeps I (Context.Next fn f) ih _ _ t h hI
    · rw [Context.Next_terminal fn f s (Nat.not_lt.mp hlt)] at h
      simp only [Option.some.injEq] at h
      subst h
      exact hfn _ hI

/-- A wrapper's chain run from a fresh context returns, and a property of the
result variable and the heap that the terminal action preserves holds of what
it returns. -/
theorem chain_keeps_map {ρ α : Type} {fn : Run ρ → Run ρ} (hfn : Terminal fn)
    (I : Option ρ → (Nat → DB) → Prop)
    (hI : ∀ s, I s.out s.w.heap → I (fn s).out (fn s).w.heap)
    {funct : Function} {source : Source} {query : String} {args : List Any} {w : World}
    {mdws : List handler} (h0 : I none w.heap) {g : Run ρ → α} {Q : α → Prop}
    (hQ : ∀ t : Run ρ, I t.out t.w.heap → Q (g t)) :
    ∃ r, (Context.Next fn (mdws.length + 1)
        ⟨newContext funct source query args mdws, w, none⟩).map g = some r ∧ Q r := by
  obtain ⟨t, ht, -, -⟩ := Context.Next_total hfn (mdws.length + 1)
    ⟨newContext funct source query args mdws, w, none⟩ (by omega) (by simp [newContext])
  exact ⟨g t, by rw [ht]; rfl, hQ t (Context.Next_keeps I hI _ _ t ht h0)⟩

/-- C6.  Every object derived from a client refers to that client: `DB.Conn`,
`BeginTx` and `PrepareContext` on `DB`, `Conn` and `Tx` return, whatever handlers
are registered, leave the heap as it is, and the object they return, if any,
has as `mdws` the address of the client (the `mdws` of the parent).  An object that refers to the
client `db` looks every kind up in the registry of `db`, in every world, so
also after later registrations.  When a handler `A` that records "permission
denied" and does not call `Next` is the first handler registered on `FN_Query`,
`QueryContext` on the client and on every `Conn`, `Tx` and `Stmt` that refers
to it returns that error with a nil result and leaves the driver log as it
was. -/
theorem C6_derived_objects_share_registry (drv : Driver) (w : World) (db : Nat) (cn : Conn)
    (tx : Tx) (st : Stmt) (opts : Option TxOptions) (query : String) (args : List Any)
    (A : handler) (rest : List handler) (hA : A.Veto (some "permission denied")) :
    ((DB.Conn drv w db).w.heap = w.heap ∧
      ∀ c, (DB.Conn drv w db).res = some c → c.mdws = db) ∧
    (∃ r, DB.BeginTx drv w db opts = some r ∧
      r.w.heap = w.heap ∧ ∀ t, r.res = some t → t.mdws = db) ∧
    (∃ r, Conn.BeginTx drv w cn opts = some r ∧
      r.w.heap = w.heap ∧ ∀ t, r.res = some t → t.mdws = cn.mdws) ∧
    (∃ r, DB.PrepareContext drv w db query = some r ∧
      r.w.heap = w.heap ∧ ∀ s, r.res = some s → s.mdws = db) ∧
    (∃ r, Conn.PrepareContext drv w cn query = some r ∧
      r.w.heap = w.heap ∧ ∀ s, r.res = some s → s.mdws = cn.mdws) ∧
    (∃ r, Tx.PrepareContext drv w tx query = some r ∧
      r.w.heap = w.heap ∧ ∀ s, r.res = some s → s.mdws = tx.mdws) ∧
    (∀ (w' : World) (k : Function),
      (cn.mdws = db → fnHndl w' cn.mdws k = (w'.heap db).mdws k) ∧
      (tx.mdws = db → fnHndl w' tx.mdws k = (w'.heap db).mdws k) ∧
      (st.mdws = db → fnHndl w' st.mdws k = (w'.heap db).mdws k)) ∧
    ((w.heap db).mdws FN_Query = A :: rest →
      DB.QueryContext drv w db query args =
        some ⟨none, some "permission denied", { w with ran := w.ran ++ [0] }⟩ ∧
      (cn.mdws = db → Conn.QueryContext drv w cn query args =
        some ⟨none, some "permission denied", { w with ran := w.ran ++ [0] }⟩) ∧
      (tx.mdws = db → Tx.QueryContext drv w tx query args =
        some ⟨none, some "permission denied", { w with ran := w.ran ++ [0] }⟩) ∧
      (st.mdws = db → Stmt.QueryContext drv w st args =
        some ⟨none, some "permission denied", { w with ran := w.ran ++ [0] }⟩)) := by
  refine ⟨?_, ?_, ?_, ?_, ?_, ?_, ?_, ?_⟩
  · simp only [DB.Conn, World.call]
    split <;> simp
  · simp only [DB.BeginTx]
    split
    · split <;> exact ⟨_, rfl, by simp [World.call]⟩
    · refine chain_keeps_map ?_ (fun o h => h = w.heap ∧ ∀ x, o = some x → x.mdws = db) ?_
        ⟨rfl, by simp⟩ fun t ht => ht
      · intro s
        dsimp only
        split <;> exact ⟨rfl, rfl, by simp [Context.Error]⟩
      · intro s hs
        dsimp only
        split <;> simp_all [World.call]
  · simp only [Conn.BeginTx]
    split
    · split <;> exact ⟨_, rfl, by simp [World.call]⟩
    · refine chain_keeps_map ?_ (fun o h => h = w.heap ∧ ∀ x, o = some x → x.mdws = cn.mdws) ?_
        ⟨rfl, by simp⟩ fun t ht => ht
      · intro s
        dsimp only
        split <;> exact ⟨rfl, rfl, by simp [Context.Error]⟩
      · intro s hs
        dsimp only
        split <;> simp_all [World.call]
  · simp only [DB.PrepareContext]
    split
    · split <;> exact ⟨_, rfl, by simp [World.call]⟩
    · refine chain_keeps_map ?_ (fun o h => h = w.heap ∧ ∀ x, o = some x → x.mdws = db) ?_
        ⟨rfl, by simp⟩ fun t ht => ht
      · intro s
        dsimp only
        split <;> exact ⟨rfl, rfl, by simp [Context.Error]⟩
      · intro s hs
        dsimp only
        split <;> simp_all [World.call]
  · simp only [Conn.PrepareContext]
    split
    · split <;> exact ⟨_, rfl, by simp [World.call]⟩
    · refine chain_keeps_map ?_ (fun o h => h = w.heap ∧ ∀ x, o = some x → x.mdws = cn.mdws) ?_
        ⟨rfl, by simp⟩ fun t ht => ht
      · intro s
        dsimp only
        split <;> exact ⟨rfl, rfl, by simp [Context.Error]⟩
      · intro s hs
        dsimp only
        split <;> simp_all [World.call]
  · simp only [Tx.PrepareContext]
    split
    · split <;> exact ⟨_, rfl, by simp [World.call]⟩
    · refine chain_keeps_map ?_ (fun o h => h = w.heap ∧ ∀ x, o = some x → x.mdws = tx.mdws) ?_
        ⟨rfl, by simp⟩ fun t ht => ht
      · intro s
        dsimp only
        split <;> exact ⟨rfl, rfl, by simp [Context.Error]⟩
      · intro s hs
        dsimp only
        split <;> simp_all [World.call]
  · intro w' k
    refine ⟨fun h => ?_, fun h => ?_, fun h => ?_⟩ <;> rw [h] <;> rfl
  · intro h
    have hm : (w.heap db).mdws FN_Query = [] ++ A :: rest := h
    have hnil : ∀ p ∈ ([] : List handler), p.PassOnce := fun p hp => absurd hp (List.not_mem_nil p)
    refine ⟨?_, fun hc => ?_, fun hc => ?_, fun hc => ?_⟩
    · simp only [DB.QueryContext, length_ne_zero_of_mid hm, if_false]
      refine chain_veto_map hnil hA hm fun t h1 h2 h3 => ?_
      simp only [h1, h2, h3]
      rfl
    · have hm' : fnHndl w cn.mdws FN_Query = [] ++ A :: rest := by rw [hc]; exact hm
      simp only [Conn.QueryContext, length_ne_zero_of_mid hm', if_false]
      refine chain_veto_map hnil hA hm' fun t h1 h2 h3 => ?_
      simp only [h1, h2, h3]
      rfl
    · have hm' : fnHndl w tx.mdws FN_Query = [] ++ A :: rest := by rw [hc]; exact hm
      simp only [Tx.QueryContext, length_ne_zero_of_mid hm', if_false]
      refine chain_veto_map hnil hA hm' fun t h1 h2 h3 => ?_
      simp only [h1, h2, h3]
      rfl
    · have hm' : fnHndl w st.mdws FN_Query = [] ++ A :: rest := by rw [hc]; exact hm
      simp only [Stmt.QueryContext, length_ne_zero_of_mid hm', if_false]
      refine chain_veto_map hnil hA hm' fun t h1 h2 h3 => ?_
      simp only [h1, h2, h3]
      rfl

/-- C6 on the scenario of the specification: "permission denied" is registered on
`FN_Query` of a client; a transaction is begun on a connection of the client, a
statement is prepared in the transaction, and `QueryContext` on the statement
returns "permission denied" without a driver call. -/
theorem C6_derived_objects_share_registry_witness :
    Conn.BeginTx sqlDriver (worldWith FN_Query [denyHandler]) ⟨some 0, 0⟩ none =
      some ⟨some ⟨some 0, 0, false⟩, none,
        { worldWith FN_Query [denyHandler] with log := [⟨.conn (some 0), .begin none⟩] }⟩ ∧
    Tx.PrepareContext sqlDriver
        { worldWith FN_Query [denyHandler] with log := [⟨.conn (some 0), .begin none⟩] }
        ⟨some 0, 0, false⟩ "SELECT" =
      some ⟨some ⟨some 1, 0, "SELECT"⟩, none,
        { worldWith FN_Query [denyHandler] with
          log := [⟨.conn (some 0), .begin none⟩, ⟨.tx (some 0), .prepare "SELECT"⟩] }⟩ ∧
    Stmt.QueryContext sqlDriver
        { worldWith FN_Query [denyHandler] with
          log := [⟨.conn (some 0), .begin none⟩, ⟨.tx (some 0), .prepare "SELECT"⟩] }
        ⟨some 1, 0, "SELECT"⟩ [] =
      some ⟨none, some "permission denied",
        { worldWith FN_Query [denyHandler] with
          log := [⟨.conn (some 0), .begin none⟩, ⟨.tx (some 0), .prepare "SELECT"⟩],
          ran := [0] }⟩ :=
  ⟨rfl, rfl,
    ((C6_derived_objects_share_registry sqlDriver
      { worldWith FN_Query [denyHandler] with
        log := [⟨.conn (some 0), .begin none⟩, ⟨.tx (some 0), .prepare "SELECT"⟩] }
      0 ⟨some 0, 0⟩ ⟨some 0, 0, false⟩ ⟨some 1, 0, "SELECT"⟩ none "SELECT" [] denyHandler []
      (handler.Veto.error handler.Quiet.ret)).2.2.2.2.2.2.2 rfl).2.2.2 rfl⟩

/-! ## C10: the scratch space -/

/-- An advancing handler calls `Next` on a state that, when the handler never
writes `key`, holds under `key` what its start state held. -/
theorem Advance_run_keeps {ρ : Type} {l : List Sqlm.error} {p : handler} (key : String)
    (hp : p.Advance l) (next : Run ρ → Option (Run ρ)) (s : Run ρ) :
    ∃ s₁, ({ s with ctx := { s.ctx with errs := s.ctx.errs ++ l } } : Run ρ).frame s₁ ∧
      (p.Keeps key → s₁.ctx.Values key = s.ctx.Values key) ∧
      ∀ t, next s₁ = some t → ∃ u, p.run next s = some u ∧ t.frame u := by
  induction hp generalizing s with
  | next hk =>
    refine ⟨s, ⟨rfl, rfl, by simp, rfl, rfl, rfl, rfl⟩, fun _ => rfl, fun t ht => ?_⟩
    obtain ⟨u, hu, hf⟩ := Quiet_run_frame hk next t
    exact ⟨u, by simp [handler.run, ht, hu], hf⟩
  | error e _ ih =>
    obtain ⟨s₁, ⟨a1, a2, a3, a4, a5, a6, a7⟩, hv, h⟩ := ih { s with ctx := s.ctx.Error e }
    refine ⟨s₁, ⟨a1, a2, by rw [a3]; simp [Context.Error], a4, a5, a6, a7⟩, fun hkeep => ?_, h⟩
    cases hkeep with
    | error _ hk' => exact hv hk'
  | setQuery q _ ih =>
    obtain ⟨s₁, hf, hv, h⟩ := ih { s with ctx := { s.ctx with Query := q } }
    refine ⟨s₁, Run.frame_trans ⟨rfl, rfl, rfl, rfl, rfl, rfl, rfl⟩ hf, fun hkeep => ?_, h⟩
    cases hkeep with
    | setQuery _ hk' => exact hv hk'
  | setArgs a _ ih =>
    obtain ⟨s₁, hf, hv, h⟩ := ih { s with ctx := { s.ctx with Args := a } }
    refine ⟨s₁, Run.frame_trans ⟨rfl, rfl, rfl, rfl, rfl, rfl, rfl⟩ hf, fun hkeep => ?_, h⟩
    cases hkeep with
    | setArgs _ hk' => exact hv hk'
  | set key' val _ ih =>
    obtain ⟨s₁, hf, hv, h⟩ := ih { s with ctx := s.ctx.Set key' val }
    refine ⟨s₁, Run.frame_trans ⟨rfl, rfl, rfl, rfl, rfl, rfl, rfl⟩ hf, fun hkeep => ?_, h⟩
    cases hkeep with
    | set _ _ hne hk' =>
      rw [hv hk']
      simp [Context.Set, Ne.symm hne]
  | delete key' _ ih =>
    obtain ⟨s₁, hf, hv, h⟩ := ih { s with ctx := s.ctx.Delete key' }
    refine ⟨s₁, Run.frame_trans ⟨rfl, rfl, rfl, rfl, rfl, rfl, rfl⟩ hf, fun hkeep => ?_, h⟩
    cases hkeep with
    | delete _ hne hk' =>
      rw [hv hk']
      simp [Context.Delete, Ne.symm hne]
  | read _ ih =>
    obtain ⟨s₁, hf, hv, h⟩ := ih s.ctx.view s
    refine ⟨s₁, hf, fun hkeep => ?_, h⟩
    cases hkeep with
    | read hk' => exact hv (hk' _)

/-- A chain whose handlers up to `hj` each pass once.  Started at cursor `i`, the
run of `Next` is the run of `hj` on a state `sj`, up to `Query`, `Args`,
`Values`; and when the handlers from `i` up to `hj` never write `key`, `sj`
holds under `key` what the start state held. -/
theorem Context.Next_reach {ρ : Type} (fn : Run ρ → Run ρ) (A rest : List handler)
    (hj : handler) (key : String) (f' : Nat) :
    ∀ (d i : Nat) (s : Run ρ), i + d = A.length → s.ctx.mdws = A ++ hj :: rest →
      s.ctx.mdwIdx = i → (∀ p ∈ A.drop i, p.PassOnce) →
      ∃ sj : Run ρ, sj.ctx.mdwIdx = A.length + 1 ∧ sj.ctx.mdws = s.ctx.mdws ∧
        ((∀ p ∈ A.drop i, p.Keeps key) → sj.ctx.Values key = s.ctx.Values key) ∧
        ∀ t, hj.run (Context.Next fn f') sj = some t →
          ∃ u, Context.Next fn (d + 1 + f') s = some u ∧ t.frame u := by
  intro d
  induction d with
  | zero =>
    intro i s hi hm hc _
    have hil : i = A.length := by omega
    have hget : s.ctx.mdws[s.ctx.mdwIdx]? = some hj := by
      rw [hm, hc, hil, List.getElem?_append_right (le_refl _)]
      simp
    refine ⟨{ s with ctx := { s.ctx with mdwIdx := s.ctx.mdwIdx + 1 },
                     w := { s.w with ran := s.w.ran ++ [s.ctx.mdwIdx] } },
      by simp [hc, hil], rfl, fun _ => rfl, fun t ht => ⟨t, ?_, t.frame_refl⟩⟩
    rw [show 0 + 1 + f' = f' + 1 by omega, Context.Next_handler fn f' s hget]
    exact ht
  | succ d ih =>
    intro i s hi hm hc hpass
    have hlt : i < A.length := by omega
    have hdrop : A.drop i = A[i] :: A.drop (i + 1) := List.drop_eq_getElem_cons hlt
    have hget : s.ctx.mdws[s.ctx.mdwIdx]? = some A[i] := by
      rw [hm, hc, List.getElem?_append_left hlt, List.getElem?_eq_getElem hlt]
    have hpi : A[i].PassOnce := hpass _ (by rw [hdrop]; exact List.mem_cons_self _ _)
    have hrest : ∀ p ∈ A.drop (i + 1), p.PassOnce := fun p hp =>
      hpass p (by rw [hdrop]; exact List.mem_cons_of_mem _ hp)
    obtain ⟨s₁, ⟨-, -, -, a4, a5, -, -⟩, hval, hrun⟩ :=
      Advance_run_keeps key hpi (Context.Next fn (d + 1 + f'))
        { s with ctx := { s.ctx with mdwIdx := s.ctx.mdwIdx + 1 },
                 w := { s.w with ran := s.w.ran ++ [s.ctx.mdwIdx] } }
    have a4' : s₁.ctx.mdwIdx = s.ctx.mdwIdx + 1 := a4
    have a5' : s₁.ctx.mdws = s.ctx.mdws := a5
    obtain ⟨sj, b1, b2, b3, b4⟩ := ih (i + 1) s₁ (by omega) (by rw [a5']; exact hm)
      (by rw [a4', hc]) hrest
    refine ⟨sj, b1, b2.trans a5', fun hk => ?_, fun t ht => ?_⟩
    · rw [b3 fun p hp => hk p (by rw [hdrop]; exact List.mem_cons_of_mem _ hp)]
      exact hval (hk _ (by rw [hdrop]; exact List.mem_cons_self _ _))
    · obtain ⟨u', hu', hf'⟩ := b4 t ht
      obtain ⟨u, hu, hf⟩ := hrun u' hu'
      refine ⟨u, ?_, Run.frame_trans hf' hf⟩
      rw [show d + 1 + 1 + f' = (d + 1 + f') + 1 by omega, Context.Next_handler fn _ s hget]
      exact hu

/-- C10.  `Get` after `Set` on the same key returns the value and `true`; `Get`
after `Delete` returns nil and `false`; `Set` and `Delete` on one key leave
`Get` of every other key as it was.  A context built by `newContext` has an
empty scratch space, and the first handler of a call is started on such a
context whatever the world holds from earlier calls.  In a chain `pre ++ hi ::
(mid ++ hj :: rest)` where `hi` calls `Set(key, val)` and then passes on
without writing `key` again, and the handlers between `hi` and `hj` pass on
without writing `key` (those before `hi` just pass on), the later handler `hj`
is started on a context `sj` with `Get(key) = (val, true)`: the run of the whole
chain is the run of `hj` on `sj`, up to what the earlier handlers do to
`Query`, `Args`, `Values` after their `Next` returns. -/
theorem C10_scratch_space (key : String) (val : Any) (pre mid rest : List handler)
    (hi' hj : handler) (hpre : ∀ p ∈ pre, p.PassOnce) (hhi : hi'.PassOnce ∧ hi'.Keeps key)
    (hmid : ∀ p ∈ mid, p.PassOnce ∧ p.Keeps key) :
    (∀ (c : Context) (k : String) (v : Any), (c.Set k v).Get k = (v, true)) ∧
    (∀ (c : Context) (k : String), (c.Delete k).Get k = (Any.null, false)) ∧
    (∀ (c : Context) (k k' : String) (v : Any), k' ≠ k →
      (c.Set k v).Get k' = c.Get k' ∧ (c.Delete k).Get k' = c.Get k') ∧
    (∀ (funct : Function) (source : Source) (query : String) (args : List Any)
      (mdws : List handler) (k : String),
      (newContext funct source query args mdws).Get k = (Any.null, false)) ∧
    (∀ (ρ : Type) (fn : Run ρ → Run ρ) (funct : Function) (source : Source) (query : String)
      (args : List Any) (w : World) (h0 : handler) (hs : List handler) (f' : Nat),
      ∃ s0 : Run ρ, (∀ k, s0.ctx.Get k = (Any.null, false)) ∧
        Context.Next fn (f' + 1) ⟨newContext funct source query args (h0 :: hs), w, none⟩ =
          h0.run (Context.Next fn f') s0) ∧
    (∀ (ρ : Type) (fn : Run ρ → Run ρ) (funct : Function) (source : Source) (query : String)
      (args : List Any) (w : World) (f' : Nat),
      ∃ sj : Run ρ, sj.ctx.Get key = (val, true) ∧
        sj.ctx.mdwIdx = pre.length + mid.length + 2 ∧
        ∀ t, hj.run (Context.Next fn f') sj = some t →
          ∃ u, Context.Next fn (pre.length + mid.length + 2 + f')
            ⟨newContext funct source query args
              (pre ++ handler.set key val hi' :: (mid ++ hj :: rest)), w, none⟩ = some u ∧
            t.frame u) := by
  refine ⟨?_, ?_, ?_, ?_, ?_, ?_⟩
  · intro c k v
    simp [Context.Get, Context.Set]
  · intro c k
    simp [Context.Get, Context.Delete]
  · intro c k k' v hne
    simp [Context.Get, Context.Set, Context.Delete, hne]
  · intro funct source query args mdws k
    rfl
  · intro ρ fn funct source query args w h0 hs f'
    have hget : (⟨newContext funct source query args (h0 :: hs), w, none⟩ :
        Run ρ).ctx.mdws[(⟨newContext funct source query args (h0 :: hs), w, none⟩ :
        Run ρ).ctx.mdwIdx]? = some h0 := by
      simp [newContext]
    exact ⟨_, fun k => by simp [Context.Get, newContext], Context.Next_handler fn f' _ hget⟩
  · intro ρ fn funct source query args w f'
    have hassoc : pre ++ handler.set key val hi' :: (mid ++ hj :: rest) =
        (pre ++ handler.set key val hi' :: mid) ++ hj :: rest := by simp
    have hdrop : (pre ++ handler.set key val hi' :: mid).drop (pre.length + 1) = mid := by
      rw [List.drop_append]; rfl
    obtain ⟨si, c1, c2, -, c4⟩ :=
      Context.Next_reach fn pre (mid ++ hj :: rest) (handler.set key val hi') key
        (mid.length + 1 + f') pre.length 0
        ⟨newContext funct source query args
          (pre ++ handler.set key val hi' :: (mid ++ hj :: rest)), w, none⟩
        (Nat.zero_add _) rfl rfl (by simpa using hpre)
    obtain ⟨s₁, ⟨-, -, -, a4, a5, -, -⟩, hval, hrun⟩ :=
      Advance_run_keeps key hhi.1 (Context.Next fn (mid.length + 1 + f'))
        { si with ctx := si.ctx.Set key val }
    have a4' : s₁.ctx.mdwIdx = si.ctx.mdwIdx := a4
    have a5' : s₁.ctx.mdws = si.ctx.mdws := a5
    obtain ⟨sj, b1, -, b3, b4⟩ :=
      Context.Next_reach fn (pre ++ handler.set key val hi' :: mid) rest hj key f'
        mid.length (pre.length + 1) s₁ (by simp; omega)
        (by rw [a5', c2]; exact hassoc) (by rw [a4', c1])
        (by rw [hdrop]; exact fun p hp => (hmid p hp).1)
    refine ⟨sj, ?_, ?_, fun t ht => ?_⟩
    · have h1 := b3 (by rw [hdrop]; exact fun p hp => (hmid p hp).2)
      have h2 := hval hhi.2
      simp only [Context.Get, h1, h2, Context.Set, if_true]
    · rw [b1]; simp; omega
    · obtain ⟨u', hu', hf'⟩ := b4 t ht
      obtain ⟨u, hu, hf⟩ := hrun u' hu'
      obtain ⟨v, hv, hfv⟩ := c4 u hu
      refine ⟨v, ?_, Run.frame_trans hf' (Run.frame_trans hf hfv)⟩
      rw [show pre.length + mid.length + 2 + f' = pre.length + 1 + (mid.length + 1 + f') by
        omega]
      exact hv

/-- C10 on a chain of four handlers: the second stores a user name under "user",
the fourth reads it.  The fourth handler is started on a context that holds the
name; the call returns the error "seen" that it records; and a later call of
another kind on the same client, whose handler looks for the name, records
"not seen". -/
theorem C10_scratch_space_witness :
    (∃ sj : Run Nat, sj.ctx.Get "user" = (Any.str "ann", true) ∧ sj.ctx.mdwIdx = 4 ∧
      ∀ t, tagProbe.run (Context.Next id 1) sj = some t →
        ∃ u, Context.Next id 5
          ⟨newContext FN_Exec SRC_Database "q" []
            [passHandler, tagHandler, passHandler, tagProbe], world0, none⟩ = some u ∧
          t.frame u) ∧
    (DB.ExecContext sqlDriver
      (worldWith FN_Exec [passHandler, tagHandler, passHandler, tagProbe]) 0 "q" []).map
      (fun r => r.err) = some (some "seen") ∧
    ((DB.ExecContext sqlDriver ((worldWith FN_Exec [tagHandler]).appendMdw 0 FN_Query tagProbe)
      0 "q" []).bind fun r => (DB.QueryContext sqlDriver r.w 0 "q" []).map fun r => r.err) =
      some (some "not seen") :=
  ⟨(C10_scratch_space "user" (Any.str "ann") [passHandler] [passHandler] [] (.next .ret)
      tagProbe
      (fun p hp => by
        rw [List.mem_singleton] at hp
        subst hp
        exact handler.Advance.next handler.Quiet.ret)
      ⟨handler.Advance.next handler.Quiet.ret, handler.Keeps.next handler.Keeps.ret⟩
      (fun p hp => by
        rw [List.mem_singleton] at hp
        subst hp
        exact ⟨handler.Advance.next handler.Quiet.ret,
          handler.Keeps.next handler.Keeps.ret⟩)).2.2.2.2.2
      Nat id FN_Exec SRC_Database "q" [] world0 1,
    rfl, rfl⟩

/-! ## C12: the cursor and the terminal action -/

theorem Run.steps_zero {ρ : Type} (s : Run ρ) : s.steps s 0 :=
  ⟨rfl, rfl, by simp, by simp⟩

theorem Run.steps_trans {ρ : Type} {s t u : Run ρ} {m n : Nat} (h₁ : s.steps t m)
    (h₂ : t.steps u n) : s.steps u (m + n) := by
  obtain ⟨a1, a2, a3, a4⟩ := h₁
  obtain ⟨b1, b2, b3, b4⟩ := h₂
  refine ⟨by rw [b1, a1, Nat.add_assoc], b2.trans a2, ?_, ?_⟩
  · rw [b3, a3, a1, List.append_assoc, List.range'_append_1, Nat.add_comm n m]
  · rw [b4, a4, a1, a2, Nat.add_comm m n, ← List.range'_append_1 s.ctx.mdwIdx m n,
      List.countP_append, Nat.add_assoc]

/-- Any handler, run with a `Next` that satisfies `Run.steps`, satisfies it. -/
theorem handler.run_steps {ρ : Type} (next : Run ρ → Option (Run ρ)) (mds : List handler)
    (c : Nat)
    (hnext : ∀ s, c ≤ s.ctx.mdwIdx → s.ctx.mdws = mds → ∃ t m, next s = some t ∧ s.steps t m)
    (p : handler) :
    ∀ s, c ≤ s.ctx.mdwIdx → s.ctx.mdws = mds → ∃ t m, p.run next s = some t ∧ s.steps t m := by
  induction p with
  | ret => exact fun s _ _ => ⟨s, 0, rfl, s.steps_zero⟩
  | setQuery q k ih =>
    intro s hc hm
    obtain ⟨t, m, ht, h⟩ := ih { s with ctx := { s.ctx with Query := q } } hc hm
    exact ⟨t, m, ht, h⟩
  | setArgs a k ih =>
    intro s hc hm
    obtain ⟨t, m, ht, h⟩ := ih { s with ctx := { s.ctx with Args := a } } hc hm
    exact ⟨t, m, ht, h⟩
  | set key val k ih =>
    intro s hc hm
    obtain ⟨t, m, ht, h⟩ := ih { s with ctx := s.ctx.Set key val } hc hm
    exact ⟨t, m, ht, h⟩
  | delete key k ih =>
    intro s hc hm
    obtain ⟨t, m, ht, h⟩ := ih { s with ctx := s.ctx.Delete key } hc hm
    exact ⟨t, m, ht, h⟩
  | error e k ih =>
    intro s hc hm
    obtain ⟨t, m, ht, h⟩ := ih { s with ctx := s.ctx.Error e } hc hm
    exact ⟨t, m, ht, h⟩
  | next k ih =>
    intro s hc hm
    obtain ⟨t, m, ht, h⟩ := hnext s hc hm
    obtain ⟨u, n, hu, h'⟩ := ih t (by rw [h.1]; omega) (h.2.1.trans hm)
    exact ⟨u, m + n, by simp [handler.run, ht, hu], Run.steps_trans h h'⟩
  | read f ih =>
    intro s hc hm
    exact ih s.ctx.view s hc hm

/-- Every call of `Next`, whatever the handlers do, returns and has moved the
cursor forward by the number `m ≥ 1` of calls of `Next` made in it, dispatching
on consecutive cursors; the terminal action ran once for each of them that is
not the index of a handler. -/
theorem Context.Next_steps {ρ : Type} {fn : Run ρ → Run ρ} (hfn : Terminal fn)
    (hlog : LogsOnce fn) :
    ∀ (fuel : Nat) (s : Run ρ), 1 ≤ fuel → s.ctx.mdws.length + 1 ≤ fuel + s.ctx.mdwIdx →
      ∃ t m, Context.Next fn fuel s = some t ∧ 1 ≤ m ∧ s.steps t m := by
  intro fuel
  induction fuel with
  | zero => intro s h; omega
  | succ f ih =>
    intro s _ hlen
    by_cases hlt : s.ctx.mdwIdx < s.ctx.mdws.length
    · rw [Context.Next_handler fn f s (List.getElem?_eq_getElem hlt)]
      obtain ⟨t, m, ht, h1, h2, h3, h4⟩ := handler.run_steps (Context.Next fn f) s.ctx.mdws
        (s.ctx.mdwIdx + 1)
        (fun s' hc hm => by
          obtain ⟨t, m, ht, -, h⟩ := ih s' (by omega) (by rw [hm]; omega)
          exact ⟨t, m, ht, h⟩)
        s.ctx.mdws[s.ctx.mdwIdx]
        { s with ctx := { s.ctx with mdwIdx := s.ctx.mdwIdx + 1 },
                 w := { s.w with ran := s.w.ran ++ [s.ctx.mdwIdx] } } (le_refl _) rfl
      refine ⟨t, m + 1, ht, by omega, ?_, h2, ?_, ?_⟩
      · rw [h1]; simp only; omega
      · rw [h3]
        simp only [List.append_assoc, List.singleton_append]
        rw [List.range'_succ]
      · rw [h4]
        simp only
        rw [List.range'_succ, List.countP_cons]
        simp [Nat.not_le.mpr hlt]
    · rw [Context.Next_terminal fn f s (Nat.not_lt.mp hlt)]
      obtain ⟨h1, h2, -⟩ := hfn
        { s with ctx := { s.ctx with mdwIdx := s.ctx.mdwIdx + 1 },
                 w := { s.w with ran := s.w.ran ++ [s.ctx.mdwIdx] } }
      obtain ⟨g1, g2⟩ := hlog
        { s with ctx := { s.ctx with mdwIdx := s.ctx.mdwIdx + 1 },
                 w := { s.w with ran := s.w.ran ++ [s.ctx.mdwIdx] } }
      refine ⟨_, 1, rfl, le_refl _, ?_, h1, ?_, ?_⟩
      · rw [h2]
      · rw [g2]; simp
      · rw [g1]; simp [Nat.not_lt.mp hlt]

/-- A handler that never calls `Next` leaves the cursor where it was. -/
theorem NoNext_run {ρ : Type} {p : handler} (hp : p.NoNext) (next : Run ρ → Option (Run ρ)) :
    ∀ s t, p.run next s = some t → t.ctx.mdwIdx = s.ctx.mdwIdx := by
  induction hp with
  | ret =>
    intro s t h
    simp only [handler.run, Option.some.injEq] at h
    rw [← h]
  | setQuery q _ ih => exact fun s t h => ih { s with ctx := { s.ctx with Query := q } } t h
  | setArgs a _ ih => exact fun s t h => ih { s with ctx := { s.ctx with Args := a } } t h
  | set key val _ ih => exact fun s t h => ih { s with ctx := s.ctx.Set key val } t h
  | delete key _ ih => exact fun s t h => ih { s with ctx := s.ctx.Delete key } t h
  | error e _ ih => exact fun s t h => ih { s with ctx := s.ctx.Error e } t h
  | read _ ih => exact fun s t h => ih s.ctx.view s t h

/-- A handler that calls `Next` at most once leaves the cursor where it was, or
where its one call of `Next`, made at the cursor it was started with, left it. -/
theorem AtMostOnce_run {ρ : Type} {p : handler} (hp : p.AtMostOnce)
    (next : Run ρ → Option (Run ρ)) :
    ∀ s t, p.run next s = some t →
      t.ctx.mdwIdx = s.ctx.mdwIdx ∨
      ∃ s' t', s'.ctx.mdwIdx = s.ctx.mdwIdx ∧ s'.ctx.mdws = s.ctx.mdws ∧ next s' = some t' ∧
        t.ctx.mdwIdx = t'.ctx.mdwIdx := by
  induction hp with
  | ret =>
    intro s t h
    simp only [handler.run, Option.some.injEq] at h
    exact Or.inl (by rw [← h])
  | setQuery q _ ih => exact fun s t h => ih { s with ctx := { s.ctx with Query := q } } t h
  | setArgs a _ ih => exact fun s t h => ih { s with ctx := { s.ctx with Args := a } } t h
  | set key val _ ih => exact fun s t h => ih { s with ctx := s.ctx.Set key val } t h
  | delete key _ ih => exact fun s t h => ih { s with ctx := s.ctx.Delete key } t h
  | error e _ ih => exact fun s t h => ih { s with ctx := s.ctx.Error e } t h
  | next hk =>
    intro s t h
    simp only [handler.run, Option.bind_eq_some] at h
    obtain ⟨t', ht', hk'⟩ := h
    exact Or.inr ⟨s, t', rfl, rfl, ht', NoNext_run hk next t' t hk'⟩
  | read _ ih => exact fun s t h => ih s.ctx.view s t h

/-- When every handler calls `Next` at most once, a call of `Next` made with the
cursor at most `len(mdws)` leaves it at most `len(mdws) + 1`. -/
theorem Context.Next_bounded {ρ : Type} {fn : Run ρ → Run ρ} (hfn : Terminal fn) :
    ∀ (fuel : Nat) (s t : Run ρ), Context.Next fn fuel s = some t →
      (∀ h ∈ s.ctx.mdws, h.AtMostOnce) → s.ctx.mdwIdx ≤ s.ctx.mdws.length →
      t.ctx.mdwIdx ≤ s.ctx.mdws.length + 1 := by
  intro fuel
  induction fuel with
  | zero => intro s t h; simp [Context.Next] at h
  | succ f ih =>
    intro s t h hall hidx
    by_cases hlt : s.ctx.mdwIdx < s.ctx.mdws.length
    · rw [Context.Next_handler fn f s (List.getElem?_eq_getElem hlt)] at h
      rcases AtMostOnce_run (hall _ (List.getElem_mem hlt)) (Context.Next fn f) _ t h with
        h1 | ⟨s', t', h1, h2, h3, h4⟩
      · rw [h1]; simp only; omega
      · have h1' : s'.ctx.mdwIdx = s.ctx.mdwIdx + 1 := h1
        have h2' : s'.ctx.mdws = s.ctx.mdws := h2
        have := ih s' t' h3 (by rw [h2']; exact hall) (by rw [h1', h2']; omega)
        rw [h4, ← h2']
        exact this
    · rw [Context.Next_terminal fn f s (Nat.not_lt.mp hlt)] at h
      simp only [Option.some.injEq] at h
      rw [← h, (hfn _).2.1]
      simp only
      omega

/-- Among `m` consecutive cursors that end at `len + 1` or before, at most one is
not below `len`. -/
theorem countP_range'_le_one (len : Nat) :
    ∀ (m a : Nat), a + m ≤ len + 1 →
      (List.range' a m).countP (fun i => decide (len ≤ i)) ≤ 1 := by
  intro m
  induction m with
  | zero => intro a _; simp
  | succ m ih =>
    intro a h
    rw [List.range'_succ, List.countP_cons]
    by_cases hle : len ≤ a
    · have hm : m = 0 := by omega
      subst hm
      simp [hle]
    · have := ih (a + 1) (by omega)
      simp only [hle, decide_False, Bool.false_eq_true, if_false, Nat.add_zero]
      exact this

/-- C12, as the code has it.  Every call of `Next`, whatever the handlers do,
returns (given the nesting bound `len + 1`), and in it `Next` was called some `m
≥ 1` times: the cursor has grown by `m`, the calls dispatched on the consecutive
cursors from the one the call started with, and the terminal action ran once
for each dispatched cursor that is not below `len(mdws)`, so only once the
cursor had passed the last handler.  When every handler calls `Next` at most
once and the call starts with the cursor at most `len(mdws)`, the cursor ends
at most at `len(mdws) + 1` and the terminal action ran at most once. -/
theorem C12_cursor_and_terminal {ρ : Type} (fn : Run ρ → Run ρ) (hfn : Terminal fn)
    (hlog : LogsOnce fn) (fuel : Nat) (s : Run ρ) (h1 : 1 ≤ fuel)
    (h2 : s.ctx.mdws.length + 1 ≤ fuel + s.ctx.mdwIdx) :
    ∃ t m, Context.Next fn fuel s = some t ∧ 1 ≤ m ∧
      t.ctx.mdwIdx = s.ctx.mdwIdx + m ∧
      t.w.ran = s.w.ran ++ List.range' s.ctx.mdwIdx m ∧
      t.w.log.length = s.w.log.length +
        (List.range' s.ctx.mdwIdx m).countP (fun i => decide (s.ctx.mdws.length ≤ i)) ∧
      ((∀ h ∈ s.ctx.mdws, h.AtMostOnce) → s.ctx.mdwIdx ≤ s.ctx.mdws.length →
        t.ctx.mdwIdx ≤ s.ctx.mdws.length + 1 ∧ t.w.log.length ≤ s.w.log.length + 1) := by
  obtain ⟨t, m, ht, hm, a1, -, a3, a4⟩ := Context.Next_steps hfn hlog fuel s h1 h2
  refine ⟨t, m, ht, hm, a1, a3, a4, fun hall hidx => ?_⟩
  have hb := Context.Next_bounded hfn fuel s t ht hall hidx
  refine ⟨hb, ?_⟩
  rw [a4]
  have := countP_range'_le_one s.ctx.mdws.length m s.ctx.mdwIdx (by omega)
  omega

/-- C12 on a chain of one passing handler, with a terminal action that makes one
driver call: the cursor ends at most at 2 and the driver log holds at most one
call. -/
theorem C12_cursor_and_terminal_witness :
    ∃ t, Context.Next
        (fun s : Run Nat => { s with w := { s.w with log := s.w.log ++ [⟨.db none, .ping⟩] } })
        2 ⟨newContext FN_Ping SRC_Database "" [] [passHandler], world0, none⟩ = some t ∧
      t.ctx.mdwIdx ≤ 2 ∧ t.w.log.length ≤ 1 :=
  (C12_cursor_and_terminal
    (fun s : Run Nat => { s with w := { s.w with log := s.w.log ++ [⟨.db none, .ping⟩] } })
    (fun _ => ⟨rfl, rfl, List.prefix_refl _⟩)
    (fun s => ⟨by simp, rfl⟩) 2
    ⟨newContext FN_Ping SRC_Database "" [] [passHandler], world0, none⟩
    (by decide) (by decide)).elim fun t ht => ht.elim fun _ h =>
      ⟨t, h.1, h.2.2.2.2.2
        (fun p hp => by
          have hp' : p = passHandler := by simpa [newContext] using hp
          subst hp'
          exact handler.AtMostOnce.next handler.NoNext.ret)
        (by decide)⟩

/-- C12 as stated fails when a handler calls `Next` twice.  With the one handler
`twiceHandler`, the terminal action (here counting its runs in the result
variable) runs twice and the cursor ends at 3, beyond `len(mdws) + 1 = 2`; and
`PingContext` on a client with that handler calls the driver twice. -/
theorem C12_next_twice_counterexample :
    (∃ t, Context.Next (fun s : Run Nat => { s with out := some (s.out.getD 0 + 1) }) 2
        ⟨newContext FN_Ping SRC_Database "" [] [twiceHandler], world0, none⟩ = some t ∧
      t.ctx.mdwIdx = 3 ∧ ¬ t.ctx.mdwIdx ≤ t.ctx.mdws.length + 1 ∧ t.out = some 2 ∧
      t.w.ran = [0, 1, 2]) ∧
    DB.PingContext sqlDriver (worldWith FN_Ping [twiceHandler]) 0 =
      some ⟨none,
        { worldWith FN_Ping [twiceHandler] with
          log := [⟨.db (some 0), .ping⟩, ⟨.db (some 0), .ping⟩], ran := [0, 1, 2] }⟩ :=
  ⟨⟨_, rfl, rfl, by decide, rfl, rfl⟩, rfl⟩

/-! ## C11: registration order -/

theorem length_ne_zero_of_fst {l : List handler} {uses : List (handler × List Function)}
    (h : l = uses.map Prod.fst) (hne : uses ≠ []) : ¬ l.length = 0 := by
  rw [h]; simpa using hne

/-- After successive `Use` calls that each list the kind `k` once, the registry of
the client holds under `k` what it held before followed by the handlers, in the
order of the calls. -/
theorem useAll_mdws (db : Nat) (k : Function) (uses : List (handler × List Function))
    (hk : ∀ u ∈ uses, u.2.count k = 1) :
    ∀ w : World, ((useAll w db uses).heap db).mdws k = (w.heap db).mdws k ++ uses.map Prod.fst := by
  induction uses with
  | nil => intro w; simp [useAll]
  | cons u us ih =>
    intro w
    have hu : u.2.count k = 1 := hk u (List.mem_cons_self _ _)
    have hlen : ¬ u.2.length = 0 := by
      intro h0
      rw [List.length_eq_zero.mp h0] at hu
      simp at hu
    have ih' := ih (fun v hv => hk v (List.mem_cons_of_mem _ hv)) (DB.Use w db (some u.1) u.2).w
    simp only [useAll, List.foldl_cons] at ih' ⊢
    rw [ih']
    simp only [DB.Use, hlen, if_false]
    rw [(foldl_appendMdw db u.1 u.2 w).1 k, hu]
    simp

theorem Run.same_refl {ρ : Type} (s : Run ρ) : s.same s := ⟨rfl, rfl, rfl, rfl⟩

theorem Run.same_trans {ρ : Type} {s t u : Run ρ} (h₁ : s.same t) (h₂ : t.same u) :
    s.same u :=
  ⟨h₂.1.trans h₁.1, h₂.2.1.trans h₁.2.1, h₂.2.2.1.trans h₁.2.2.1, h₂.2.2.2.trans h₁.2.2.2⟩

/-- A handler that never calls `Next` returns and leaves the world, the result
variable, the cursor and the handlers as they were. -/
theorem NoNext_run_same {ρ : Type} {p : handler} (hp : p.NoNext)
    (next : Run ρ → Option (Run ρ)) (s : Run ρ) : ∃ t, p.run next s = some t ∧ s.same t := by
  induction hp generalizing s with
  | ret => exact ⟨s, rfl, s.same_refl⟩
  | setQuery q _ ih =>
    obtain ⟨t, ht, h⟩ := ih { s with ctx := { s.ctx with Query := q } }
    exact ⟨t, ht, h⟩
  | setArgs a _ ih =>
    obtain ⟨t, ht, h⟩ := ih { s with ctx := { s.ctx with Args := a } }
    exact ⟨t, ht, h⟩
  | set key val _ ih =>
    obtain ⟨t, ht, h⟩ := ih { s with ctx := s.ctx.Set key val }
    exact ⟨t, ht, h⟩
  | delete key _ ih =>
    obtain ⟨t, ht, h⟩ := ih { s with ctx := s.ctx.Delete key }
    exact ⟨t, ht, h⟩
  | error e _ ih =>
    obtain ⟨t, ht, h⟩ := ih { s with ctx := s.ctx.Error e }
    exact ⟨t, ht, h⟩
  | read _ ih => exact ih s.ctx.view s

/-- A handler that calls `Next` exactly once calls it on a state with the world,
result variable, cursor and handlers it was started with, and returns what that
call returned, up to `Query`, `Args`, `Values` and the errors. -/
theorem ExactlyOnce_run {ρ : Type} {p : handler} (hp : p.ExactlyOnce)
    (next : Run ρ → Option (Run ρ)) (s : Run ρ) :
    ∃ s₁, s.same s₁ ∧ ∀ t, next s₁ = some t → ∃ u, p.run next s = some u ∧ t.same u := by
  induction hp generalizing s with
  | next hk =>
    refine ⟨s, s.same_refl, fun t ht => ?_⟩
    obtain ⟨u, hu, h⟩ := NoNext_run_same hk next t
    exact ⟨u, by simp [handler.run, ht, hu], h⟩
  | setQuery q _ ih =>
    obtain ⟨s₁, h, hn⟩ := ih { s with ctx := { s.ctx with Query := q } }
    exact ⟨s₁, h, hn⟩
  | setArgs a _ ih =>
    obtain ⟨s₁, h, hn⟩ := ih { s with ctx := { s.ctx with Args := a } }
    exact ⟨s₁, h, hn⟩
  | set key val _ ih =>
    obtain ⟨s₁, h, hn⟩ := ih { s with ctx := s.ctx.Set key val }
    exact ⟨s₁, h, hn⟩
  | delete key _ ih =>
    obtain ⟨s₁, h, hn⟩ := ih { s with ctx := s.ctx.Delete key }
    exact ⟨s₁, h, hn⟩
  | error e _ ih =>
    obtain ⟨s₁, h, hn⟩ := ih { s with ctx := s.ctx.Error e }
    exact ⟨s₁, h, hn⟩
  | read _ ih => exact ih s.ctx.view s

/-- A chain in which every handler calls `Next` exactly once.  Started at cursor
`j`, `Next` dispatches on `j, j + 1, .., len` in this order and so reaches the
terminal action, once, in a state `s₁`; it returns `fn s₁` up to `Query`, `Args`,
`Values` and the errors. -/
theorem Context.Next_exactly {ρ : Type} (fn : Run ρ → Run ρ) (hs : List handler)
    (hall : ∀ p ∈ hs, p.ExactlyOnce) :
    ∀ (d j fuel : Nat) (s : Run ρ), j + d = hs.length → s.ctx.mdws = hs →
      s.ctx.mdwIdx = j → d < fuel →
      ∃ s₁ t, Context.Next fn fuel s = some t ∧ (fn s₁).same t ∧
        s₁.ctx.mdwIdx = hs.length + 1 ∧ s₁.ctx.mdws = s.ctx.mdws ∧
        s₁.w = { s.w with ran := s.w.ran ++ List.range' j (d + 1) } ∧ s₁.out = s.out := by
  intro d
  induction d with
  | zero =>
    intro j fuel s hj hm hi hf
    obtain ⟨f, rfl⟩ : ∃ f, fuel = f + 1 := ⟨fuel - 1, by omega⟩
    have hge : s.ctx.mdws.length ≤ s.ctx.mdwIdx := by rw [hm, hi]; omega
    rw [Context.Next_terminal fn f s hge]
    refine ⟨_, _, rfl, Run.same_refl _, ?_, rfl, ?_, rfl⟩
    · simp only [hi]; omega
    · simp [hi]
  | succ d ih =>
    intro j fuel s hj hm hi hf
    obtain ⟨f, rfl⟩ : ∃ f, fuel = f + 1 := ⟨fuel - 1, by omega⟩
    have hlt : j < hs.length := by omega
    have hget : s.ctx.mdws[s.ctx.mdwIdx]? = some hs[j] := by
      rw [hm, hi, List.getElem?_eq_getElem hlt]
    rw [Context.Next_handler fn f s hget]
    obtain ⟨s', ⟨a1, a2, a3, a4⟩, hnext⟩ :=
      ExactlyOnce_run (hall _ (List.getElem_mem hlt)) (Context.Next fn f)
        { s with ctx := { s.ctx with mdwIdx := s.ctx.mdwIdx + 1 },
                 w := { s.w with ran := s.w.ran ++ [s.ctx.mdwIdx] } }
    have a3' : s'.ctx.mdwIdx = s.ctx.mdwIdx + 1 := a3
    have a4' : s'.ctx.mdws = s.ctx.mdws := a4
    obtain ⟨s₁, t, ht, hsame, b1, b2, b3, b4⟩ :=
      ih (j + 1) f s' (by omega) (by rw [a4']; exact hm) (by rw [a3', hi]) (by omega)
    obtain ⟨u, hu, hsu⟩ := hnext t ht
    refine ⟨s₁, u, hu, Run.same_trans hsame hsu, b1, b2.trans a4', ?_, ?_⟩
    · rw [b3, a1]
      simp only [hi, List.append_assoc, List.singleton_append]
      rw [List.range'_succ j (d + 1)]
    · rw [b4, a2]

/-- The chain of C11 run from a fresh context. -/
theorem chain_exactly {ρ : Type} (fn : Run ρ → Run ρ) {hs : List handler}
    (hall : ∀ p ∈ hs, p.ExactlyOnce)
    (funct : Function) (source : Source) (query : String) (args : List Any) (w : World)
    {mdws : List handler} (hm : mdws = hs) :
    ∃ s₁ t, Context.Next fn (mdws.length + 1) ⟨newContext funct source query args mdws, w, none⟩
        = some t ∧ (fn s₁).same t ∧ s₁.out = none ∧
        s₁.w = { w with ran := w.ran ++ List.range (hs.length + 1) } ∧
        s₁.ctx.mdwIdx = hs.length + 1 := by
  subst hm
  obtain ⟨s₁, t, ht, hsame, h1, -, h3, h4⟩ :=
    Context.Next_exactly fn mdws hall mdws.length 0 (mdws.length + 1)
      ⟨newContext funct source query args mdws, w, none⟩ (by simp) rfl rfl (by omega)
  refine ⟨s₁, t, ht, hsame, h4, ?_, h1⟩
  rw [h3, List.range_eq_range']

/-- The same, seen through the last lines of a wrapper whose driver call carries the
query and the arguments of the context. -/
theorem chain_exactly_ctx {ρ α : Type} {fn : Run ρ → Run ρ} {hs : List handler}
    (hall : ∀ p ∈ hs, p.ExactlyOnce)
    {funct : Function} {source : Source} {query : String} {args : List Any} {w : World}
    {mdws : List handler} (hm : mdws = hs) {g : Run ρ → α} {F : Context → error → α}
    (hg : ∀ s₁ t : Run ρ, s₁.out = none →
      s₁.w = { w with ran := w.ran ++ List.range (hs.length + 1) } → (fn s₁).same t →
      ∃ e, g t = F s₁.ctx e) :
    ∃ (c : Context) (e : error),
      (Context.Next fn (mdws.length + 1) ⟨newContext funct source query args mdws, w, none⟩).map g
        = some (F c e) := by
  obtain ⟨s₁, t, ht, hsame, h1, h2, -⟩ :=
    chain_exactly fn hall funct source query args w hm
  obtain ⟨e, he⟩ := hg s₁ t h1 h2 hsame
  exact ⟨s₁.ctx, e, by rw [ht, Option.map_some', he]⟩

/-- The same for a wrapper whose driver call takes nothing from the context. -/
theorem chain_exactly_map {ρ α : Type} {fn : Run ρ → Run ρ} {hs : List handler}
    (hall : ∀ p ∈ hs, p.ExactlyOnce)
    {funct : Function} {source : Source} {query : String} {args : List Any} {w : World}
    {mdws : List handler} (hm : mdws = hs) {g : Run ρ → α} {F : error → α}
    (hg : ∀ s₁ t : Run ρ, s₁.out = none →
      s₁.w = { w with ran := w.ran ++ List.range (hs.length + 1) } → (fn s₁).same t →
      ∃ e, g t = F e) :
    ∃ e : error,
      (Context.Next fn (mdws.length + 1) ⟨newContext funct source query args mdws, w, none⟩).map g
        = some (F e) := by
  obtain ⟨s₁, t, ht, hsame, h1, h2, -⟩ :=
    chain_exactly fn hall funct source query args w hm
  obtain ⟨e, he⟩ := hg s₁ t h1 h2 hsame
  exact ⟨e, by rw [ht, Option.map_some', he]⟩

/-- C11.  A client is opened (`OpenDB`, or `Open` without error) and the handlers
`h1 .. hn` of `uses` are registered by successive `Use` calls that each list the
kind `k` once (other kinds may be listed too); every handler calls `Next`
exactly once.  Let `W` be any world whose heap is the one these calls left, so
at any later time.  Then the registry of the client holds `h1 .. hn` under `k`,
in this order.  For every terminal action `fn`, `Next` on a fresh context with
these handlers returns: it dispatched on the cursors `0, 1, .., n` in this
order, each once, that is on `h1, .., hn` and then on the terminal action; what
it returns is the result of that one run of `fn`, up to what the handlers do to
the context afterwards; and the cursor ends at `n + 1`.  Every wrapper of kind
`k`, on the client and on the objects that refer to it, returns with `ran`
grown by `0 .. n` and the driver called exactly once (`r`), with the result of
that call; the error `e` it returns is the first that a handler or the driver
recorded. -/
theorem C11_registration_order (drv : Driver) (w : World) (addr : Nat) (p : Ptr)
    (uses : List (handler × List Function)) (k : Function) (cn : Conn) (tx : Tx) (st : Stmt)
    (opts : Option TxOptions) (query : String) (args : List Any)
    (hk : ∀ u ∈ uses, u.2.count k = 1) (hpass : ∀ u ∈ uses, u.1.ExactlyOnce)
    (hne : uses ≠ []) :
    (∀ r : Reply, r.err = none → (Open w addr r).2.2 = OpenDB w addr r.val) ∧
    ∀ W : World, W.heap = (useAll (OpenDB w addr p) addr uses).heap →
      (W.heap addr).mdws k = uses.map Prod.fst ∧
      (∀ (ρ : Type) (fn : Run ρ → Run ρ), Terminal fn →
        ∀ (funct : Function) (source : Source),
        ∃ s₁ t,
          Context.Next fn (uses.length + 1)
            ⟨newContext funct source query args (uses.map Prod.fst), W, none⟩ = some t ∧
          (fn s₁).same t ∧
          s₁.w = { W with ran := W.ran ++ List.range (uses.length + 1) } ∧
          s₁.ctx.mdwIdx = uses.length + 1 ∧ t.ctx.mdwIdx = uses.length + 1) ∧
      (k = FN_Begin →
        ∀ r : Reply × World, r = W.call drv ⟨.db (W.heap addr).db, .begin opts⟩ →
          ∃ e : error, DB.BeginTx drv W addr opts =
            some ⟨if r.1.err = none then some ⟨r.1.val, addr, false⟩ else none, e,
              { r.2 with ran := W.ran ++ List.range (uses.length + 1) }⟩) ∧
      (k = FN_Exec →
        ∃ c : Context, ∀ r : Reply × World, r = W.call drv ⟨.db (W.heap addr).db, .exec c.Query c.Args⟩ →
          ∃ e : error, DB.ExecContext drv W addr query args =
            some ⟨if r.1.err = none then r.1.val else none, e,
              { r.2 with ran := W.ran ++ List.range (uses.length + 1) }⟩) ∧
      (k = FN_Ping →
        ∀ r : Reply × World, r = W.call drv ⟨.db (W.heap addr).db, .ping⟩ →
          ∃ e : error, DB.PingContext drv W addr =
            some ⟨e, { r.2 with ran := W.ran ++ List.range (uses.length + 1) }⟩) ∧
      (k = FN_Prepare →
        ∃ c : Context, ∀ r : Reply × World, r = W.call drv ⟨.db (W.heap addr).db, .prepare c.Query⟩ →
          ∃ e : error, DB.PrepareContext drv W addr query =
            some ⟨if r.1.err = none then some ⟨r.1.val, addr, query⟩ else none, e,
              { r.2 with ran := W.ran ++ List.range (uses.length + 1) }⟩) ∧
      (k = FN_Query →
        ∃ c : Context, ∀ r : Reply × World, r = W.call drv ⟨.db (W.heap addr).db, .query c.Query c.Args⟩ →
          ∃ e : error, DB.QueryContext drv W addr query args =
            some ⟨if r.1.err = none then r.1.val else none, e,
              { r.2 with ran := W.ran ++ List.range (uses.length + 1) }⟩) ∧
      (k = FN_Begin → cn.mdws = addr →
        ∀ r : Reply × World, r = W.call drv ⟨.conn cn.cn, .begin opts⟩ →
          ∃ e : error, Conn.BeginTx drv W cn opts =
            some ⟨if r.1.err = none then some ⟨r.1.val, cn.mdws, false⟩ else none, e,
              { r.2 with ran := W.ran ++ List.range (uses.length + 1) }⟩) ∧
      (k = FN_Exec → cn.mdws = addr →
        ∃ c : Context, ∀ r : Reply × World, r = W.call drv ⟨.conn cn.cn, .exec c.Query c.Args⟩ →
          ∃ e : error, Conn.ExecContext drv W cn query args =
            some ⟨if r.1.err = none then r.1.val else none, e,
              { r.2 with ran := W.ran ++ List.range (uses.length + 1) }⟩) ∧
      (k = FN_Ping → cn.mdws = addr →
        ∀ r : Reply × World, r = W.call drv ⟨.conn cn.cn, .ping⟩ →
          ∃ e : error, Conn.PingContext drv W cn =
            some ⟨e, { r.2 with ran := W.ran ++ List.range (uses.length + 1) }⟩) ∧
      (k = FN_Prepare → cn.mdws = addr →
        ∃ c : Context, ∀ r : Reply × World, r = W.call drv ⟨.conn cn.cn, .prepare c.Query⟩ →
          ∃ e : error, Conn.PrepareContext drv W cn query =
            some ⟨if r.1.err = none then some ⟨r.1.val, cn.mdws, query⟩ else none, e,
              { r.2 with ran := W.ran ++ List.range (uses.length + 1) }⟩) ∧
      (k = FN_Query → cn.mdws = addr →
        ∃ c : Context, ∀ r : Reply × World, r = W.call drv ⟨.conn cn.cn, .query c.Query c.Args⟩ →
          ∃ e : error, Conn.QueryContext drv W cn query args =
            some ⟨if r.1.err = none then r.1.val else none, e,
              { r.2 with ran := W.ran ++ List.range (uses.length + 1) }⟩) ∧
      (k = FN_Commit → tx.mdws = addr →
        ∀ r : Reply × World, r = W.call drv ⟨.tx tx.tx, .commit⟩ →
          ∃ e : error, Tx.CommitContext drv W tx =
            some ⟨e, { r.2 with ran := W.ran ++ List.range (uses.length + 1) }⟩) ∧
      (k = FN_Rollback → tx.mdws = addr →
        ∀ r : Reply × World, r = W.call drv ⟨.tx tx.tx, .rollback⟩ →
          ∃ e : error, Tx.RollbackContext drv W tx =
            some ⟨e, { r.2 with ran := W.ran ++ List.range (uses.length + 1) }⟩) ∧
      (k = FN_Exec → tx.mdws = addr →
        ∃ c : Context, ∀ r : Reply × World, r = W.call drv ⟨.tx tx.tx, .exec c.Query c.Args⟩ →
          ∃ e : error, Tx.ExecContext drv W tx query args =
            some ⟨if r.1.err = none then r.1.val else none, e,
              { r.2 with ran := W.ran ++ List.range (uses.length + 1) }⟩) ∧
      (k = FN_Prepare → tx.mdws = addr →
        ∃ c : Context, ∀ r : Reply × World, r = W.call drv ⟨.tx tx.tx, .prepare c.Query⟩ →
          ∃ e : error, Tx.PrepareContext drv W tx query =
            some ⟨if r.1.err = none then some ⟨r.1.val, tx.mdws, query⟩ else none, e,
              { r.2 with ran := W.ran ++ List.range (uses.length + 1) }⟩) ∧
      (k = FN_Query → tx.mdws = addr →
        ∃ c : Context, ∀ r : Reply × World, r = W.call drv ⟨.tx tx.tx, .query c.Query c.Args⟩ →
          ∃ e : error, Tx.QueryContext drv W tx query args =
            some ⟨if r.1.err = none then r.1.val else none, e,
              { r.2 with ran := W.ran ++ List.range (uses.length + 1) }⟩) ∧
      (k = FN_Exec → st.mdws = addr →
        ∃ c : Context, ∀ r : Reply × World, r = W.call drv ⟨.stmt st.st, .stmtExec c.Args⟩ →
          ∃ e : error, Stmt.ExecContext drv W st args =
            some ⟨if r.1.err = none then r.1.val else none, e,
              { r.2 with ran := W.ran ++ List.range (uses.length + 1) }⟩) ∧
      (k = FN_Query → st.mdws = addr →
        ∃ c : Context, ∀ r : Reply × World, r = W.call drv ⟨.stmt st.st, .stmtQuery c.Args⟩ →
          ∃ e : error, Stmt.QueryContext drv W st args =
            some ⟨if r.1.err = none then r.1.val else none, e,
              { r.2 with ran := W.ran ++ List.range (uses.length + 1) }⟩) := by
  have hpass' : ∀ q ∈ uses.map Prod.fst, q.ExactlyOnce := by
    intro q hq
    obtain ⟨u, hu, rfl⟩ := List.mem_map.mp hq
    exact hpass u hu
  refine ⟨fun r hr => by simp [Open, OpenDB, hr], fun W hW => ?_⟩
  have hreg : (W.heap addr).mdws k = uses.map Prod.fst := by
    rw [hW, useAll_mdws addr k uses hk]
    simp [OpenDB]
  refine ⟨hreg, ?_,
    ?_, ?_, ?_, ?_, ?_, ?_, ?_, ?_, ?_, ?_, ?_, ?_, ?_, ?_, ?_, ?_, ?_⟩
  · intro ρ fn hfn funct source
    obtain ⟨s₁, t, ht, hsame, -, h3, h4⟩ :=
      chain_exactly fn hpass' funct source query args W (rfl : uses.map Prod.fst = _)
    have hlen : (uses.map Prod.fst).length = uses.length := List.length_map _ _
    rw [hlen] at ht h3 h4
    refine ⟨s₁, t, ht, hsame, h3, h4, ?_⟩
    rw [hsame.2.2.1, (hfn s₁).2.1, h4]
  · intro hk'
    have h : (W.heap addr).mdws FN_Begin = uses.map Prod.fst := hk' ▸ hreg
    refine forall_eq_of ?_
    simp only [DB.BeginTx, length_ne_zero_of_fst h hne, if_false]
    refine chain_exactly_map hpass' h fun s₁ t h2 h3 hf => ⟨t.ctx.fsterr, ?_⟩
    clear hW hreg hk hpass hpass' hne hk' h
    obtain ⟨f1, f2, -, -⟩ := hf
    simp only [f1, f2, World.call, h2, h3]
    split <;> simp_all
  · intro hk'
    have h : (W.heap addr).mdws FN_Exec = uses.map Prod.fst := hk' ▸ hreg
    refine exists_forall_eq ?_
    simp only [DB.ExecContext, length_ne_zero_of_fst h hne, if_false]
    refine chain_exactly_ctx hpass' h fun s₁ t h2 h3 hf => ⟨t.ctx.fsterr, ?_⟩
    clear hW hreg hk hpass hpass' hne hk' h
    obtain ⟨f1, f2, -, -⟩ := hf
    simp only [f1, f2, World.call, h2, h3]
    split <;> simp_all
  · intro hk'
    have h : (W.heap addr).mdws FN_Ping = uses.map Prod.fst := hk' ▸ hreg
    refine forall_eq_of ?_
    simp only [DB.PingContext, length_ne_zero_of_fst h hne, if_false]
    refine chain_exactly_map hpass' h fun s₁ t h2 h3 hf => ⟨t.ctx.fsterr, ?_⟩
    clear hW hreg hk hpass hpass' hne hk' h
    obtain ⟨f1, f2, -, -⟩ := hf
    simp only [f1, f2, World.call, h2, h3]
    split <;> simp_all
  · intro hk'
    have h : (W.heap addr).mdws FN_Prepare = uses.map Prod.fst := hk' ▸ hreg
    refine exists_forall_eq ?_
    simp only [DB.PrepareContext, length_ne_zero_of_fst h hne, if_false]
    refine chain_exactly_ctx hpass' h fun s₁ t h2 h3 hf => ⟨t.ctx.fsterr, ?_⟩
    clear hW hreg hk hpass hpass' hne hk' h
    obtain ⟨f1, f2, -, -⟩ := hf
    simp only [f1, f2, World.call, h2, h3]
    split <;> simp_all
  · intro hk'
    have h : (W.heap addr).mdws FN_Query = uses.map Prod.fst := hk' ▸ hreg
    refine exists_forall_eq ?_
    simp only [DB.QueryContext, length_ne_zero_of_fst h hne, if_false]
    refine chain_exactly_ctx hpass' h fun s₁ t h2 h3 hf => ⟨t.ctx.fsterr, ?_⟩
    clear hW hreg hk hpass hpass' hne hk' h
    obtain ⟨f1, f2, -, -⟩ := hf
    simp only [f1, f2, World.call, h2, h3]
    split <;> simp_all
  · intro hk' hc
    have h : fnHndl W cn.mdws FN_Begin = uses.map Prod.fst := by
      rw [hc]; exact hk' ▸ hreg
    refine forall_eq_of ?_
    simp only [Conn.BeginTx, length_ne_zero_of_fst h hne, if_false]
    refine chain_exactly_map hpass' h fun s₁ t h2 h3 hf => ⟨t.ctx.fsterr, ?_⟩
    clear hW hreg hk hpass hpass' hne hk' h
    obtain ⟨f1, f2, -, -⟩ := hf
    simp only [f1, f2, World.call, h2, h3]
    split <;> simp_all
  · intro hk' hc
    have h : fnHndl W cn.mdws FN_Exec = uses.map Prod.fst := by
      rw [hc]; exact hk' ▸ hreg
    refine exists_forall_eq ?_
    simp only [Conn.ExecContext, length_ne_zero_of_fst h hne, if_false]
    refine chain_exactly_ctx hpass' h fun s₁ t h2 h3 hf => ⟨t.ctx.fsterr, ?_⟩
    clear hW hreg hk hpass hpass' hne hk' h
    obtain ⟨f1, f2, -, -⟩ := hf
    simp only [f1, f2, World.call, h2, h3]
    split <;> simp_all
  · intro hk' hc
    have h : fnHndl W cn.mdws FN_Ping = uses.map Prod.fst := by
      rw [hc]; exact hk' ▸ hreg
    refine forall_eq_of ?_
    simp only [Conn.PingContext, length_ne_zero_of_fst h hne, if_false]
    refine chain_exactly_map hpass' h fun s₁ t h2 h3 hf => ⟨t.ctx.fsterr, ?_⟩
    clear hW hreg hk hpass hpass' hne hk' h
    obtain ⟨f1, f2, -, -⟩ := hf
    simp only [f1, f2, World.call, h2, h3]
    split <;> simp_all
  · intro hk' hc
    have h : fnHndl W cn.mdws FN_Prepare = uses.map Prod.fst := by
      rw [hc]; exact hk' ▸ hreg
    refine exists_forall_eq ?_
    simp only [Conn.PrepareContext, length_ne_zero_of_fst h hne, if_false]
    refine chain_exactly_ctx hpass' h fun s₁ t h2 h3 hf => ⟨t.ctx.fsterr, ?_⟩
    clear hW hreg hk hpass hpass' hne hk' h
    obtain ⟨f1, f2, -, -⟩ := hf
    simp only [f1, f2, World.call, h2, h3]
    split <;> simp_all
  · intro hk' hc
    have h : fnHndl W cn.mdws FN_Query = uses.map Prod.fst := by
      rw [hc]; exact hk' ▸ hreg
    refine exists_forall_eq ?_
    simp only [Conn.QueryContext, length_ne_zero_of_fst h hne, if_false]
    refine chain_exactly_ctx hpass' h fun s₁ t h2 h3 hf => ⟨t.ctx.fsterr, ?_⟩
    clear hW hreg hk hpass hpass' hne hk' h
    obtain ⟨f1, f2, -, -⟩ := hf
    simp only [f1, f2, World.call, h2, h3]
    split <;> simp_all
  · intro hk' hc
    have h : fnHndl W tx.mdws FN_Commit = uses.map Prod.fst := by
      rw [hc]; exact hk' ▸ hreg
    refine forall_eq_of ?_
    simp only [Tx.CommitContext, length_ne_zero_of_fst h hne, if_false]
    refine chain_exactly_map hpass' h fun s₁ t h2 h3 hf => ⟨t.ctx.fsterr, ?_⟩
    clear hW hreg hk hpass hpass' hne hk' h
    obtain ⟨f1, f2, -, -⟩ := hf
    simp only [f1, f2, World.call, h2, h3]
    split <;> simp_all
  · intro hk' hc
    have h : fnHndl W tx.mdws FN_Rollback = uses.map Prod.fst := by
      rw [hc]; exact hk' ▸ hreg
    refine forall_eq_of ?_
    simp only [Tx.RollbackContext, length_ne_zero_of_fst h hne, if_false]
    refine chain_exactly_map hpass' h fun s₁ t h2 h3 hf => ⟨t.ctx.fsterr, ?_⟩
    clear hW hreg hk hpass hpass' hne hk' h
    obtain ⟨f1, f2, -, -⟩ := hf
    simp only [f1, f2, World.call, h2, h3]
    split <;> simp_all
  · intro hk' hc
    have h : fnHndl W tx.mdws FN_Exec = uses.map Prod.fst := by
      rw [hc]; exact hk' ▸ hreg
    refine exists_forall_eq ?_
    simp only [Tx.ExecContext, length_ne_zero_of_fst h hne, if_false]
    refine chain_exactly_ctx hpass' h fun s₁ t h2 h3 hf => ⟨t.ctx.fsterr, ?_⟩
    clear hW hreg hk hpass hpass' hne hk' h
    obtain ⟨f1, f2, -, -⟩ := hf
    simp only [f1, f2, World.call, h2, h3]
    split <;> simp_all
  · intro hk' hc
    have h : fnHndl W tx.mdws FN_Prepare = uses.map Prod.fst := by
      rw [hc]; exact hk' ▸ hreg
    refine exists_forall_eq ?_
    simp only [Tx.PrepareContext, length_ne_zero_of_fst h hne, if_false]
    refine chain_exactly_ctx hpass' h fun s₁ t h2 h3 hf => ⟨t.ctx.fsterr, ?_⟩
    clear hW hreg hk hpass hpass' hne hk' h
    obtain ⟨f1, f2, -, -⟩ := hf
    simp only [f1, f2, World.call, h2, h3]
    split <;> simp_all
  · intro hk' hc
    have h : fnHndl W tx.mdws FN_Query = uses.map Prod.fst := by
      rw [hc]; exact hk' ▸ hreg
    refine exists_forall_eq ?_
    simp only [Tx.QueryContext, length_ne_zero_of_fst h hne, if_false]
    refine chain_exactly_ctx hpass' h fun s₁ t h2 h3 hf => ⟨t.ctx.fsterr, ?_⟩
    clear hW hreg hk hpass hpass' hne hk' h
    obtain ⟨f1, f2, -, -⟩ := hf
    simp only [f1, f2, World.call, h2, h3]
    split <;> simp_all
  · intro hk' hc
    have h : fnHndl W st.mdws FN_Exec = uses.map Prod.fst := by
      rw [hc]; exact hk' ▸ hreg
    refine exists_forall_eq ?_
    simp only [Stmt.ExecContext, length_ne_zero_of_fst h hne, if_false]
    refine chain_exactly_ctx hpass' h fun s₁ t h2 h3 hf => ⟨t.ctx.fsterr, ?_⟩
    clear hW hreg hk hpass hpass' hne hk' h
    obtain ⟨f1, f2, -, -⟩ := hf
    simp only [f1, f2, World.call, h2, h3]
    split <;> simp_all
  · intro hk' hc
    have h : fnHndl W st.mdws FN_Query = uses.map Prod.fst := by
      rw [hc]; exact hk' ▸ hreg
    refine exists_forall_eq ?_
    simp only [Stmt.QueryContext, length_ne_zero_of_fst h hne, if_false]
    refine chain_exactly_ctx hpass' h fun s₁ t h2 h3 hf => ⟨t.ctx.fsterr, ?_⟩
    clear hW hreg hk hpass hpass' hne hk' h
    obtain ⟨f1, f2, -, -⟩ := hf
    simp only [f1, f2, World.call, h2, h3]
    split <;> simp_all

/-- C11 on a client opened at address 5, on which a passing handler is registered
for `FN_Exec` and then a second one for `FN_Exec` and `FN_Query`: the registry
holds the two under `FN_Exec` in this order, and `ExecContext` dispatches on
the cursors 0, 1, 2 and calls the driver once. -/
theorem C11_registration_order_witness :
    ((useAll (OpenDB world0 5 (some 9)) 5
        [(passHandler, [FN_Exec]), (tagHandler, [FN_Exec, FN_Query])]).heap 5).mdws FN_Exec =
      [passHandler, tagHandler] ∧
    ∃ r, DB.ExecContext sqlDriver
        (useAll (OpenDB world0 5 (some 9)) 5
          [(passHandler, [FN_Exec]), (tagHandler, [FN_Exec, FN_Query])]) 5 "INSERT" [] = some r ∧
      r.res = some 0 ∧ r.w.ran = [0, 1, 2] ∧ r.w.log.length = 1 :=
  have h := (C11_registration_order sqlDriver world0 5 (some 9)
    [(passHandler, [FN_Exec]), (tagHandler, [FN_Exec, FN_Query])] FN_Exec ⟨some 3, 5⟩
    ⟨some 1, 5, false⟩ ⟨some 2, 5, "q"⟩ none "INSERT" []
    (fun u hu => by
      simp only [List.mem_cons, List.mem_singleton, List.not_mem_nil, or_false] at hu
      rcases hu with rfl | rfl <;> decide)
    (fun u hu => by
      simp only [List.mem_cons, List.mem_singleton, List.not_mem_nil, or_false] at hu
      rcases hu with rfl | rfl
      · exact handler.ExactlyOnce.next handler.NoNext.ret
      · exact handler.ExactlyOnce.set _ _ (handler.ExactlyOnce.next handler.NoNext.ret))
    (List.cons_ne_nil _ _)).2
    (useAll (OpenDB world0 5 (some 9)) 5
      [(passHandler, [FN_Exec]), (tagHandler, [FN_Exec, FN_Query])]) rfl
  ⟨h.1, (h.2.2.2.1 rfl).elim fun _ hc => (hc _ rfl).elim fun _ he =>
    ⟨_, he, rfl, rfl, rfl⟩⟩

end Sqlm
